import Mathlib

/-!
# A mark-and-compact collector over a fixed heap (gc.c, gc.h)

Shallow embedding of the collector of `gc.c`.  The heap buffer is a list of
bytes, object references are absolute addresses, and every C function is a
Lean function on an explicit `State`; an access outside mapped memory is the
fault `Fault.memory` (undefined behaviour in C), and a loop or recursion that
outlives the iteration budget of the model is `Fault.fuel`.

Layout (LP64, as fixed by the struct declarations of `gc.h`; the tests
depend on it through `String[32+..]` and `User[48]`):
`class` at 0 (8 bytes), `marked` at 8 (1 byte), `forwarded` at 16 (8 bytes),
`sizeof (Object) = 24`; for a `String`, `length` at 24 (4 bytes), `str` at 28,
`sizeof (struct String) = 32`.
-/

namespace GC

/-- Ways in which a run of the model stops without a result. -/
inductive Fault where
  | memory
  | fuel

deriving DecidableEq, Repr

/-- The struct ClassDescriptor of gc.h; `name = none` is a NULL name. -/
structure ClassDescriptor where
  name : Option String
  size : Int
  num_fields : Int
  field_offsets : List Int

deriving DecidableEq, Repr

/-- The constant MAX_ROOTS of gc.h. -/
def MAX_ROOTS : Nat := 100

/-- The descriptor String_class of gc.c. -/
def String_class : ClassDescriptor :=
  { name := some "String", size := 32, num_fields := 0, field_offsets := [] }

/-- The globals of gc.c together with the memory they refer to.
`mem` holds the bytes of the block returned by malloc, `vars` the client
variables whose addresses are registered as roots (a root-table entry is the
index of its variable), `classes` the static class descriptors by address,
`strClass` the address of String_class, and `ext` further mapped bytes
outside the heap block. -/
structure State where
  heap : Int
  heapSize : Int
  nextFree : Int
  _rp : Int
  _roots : List Nat
  mem : List Nat
  vars : List Int
  classes : List (Int × ClassDescriptor)
  strClass : Int
  ext : List (Int × Nat)

deriving DecidableEq, Repr

/-- C int arithmetic: values are reduced to 32-bit two's complement. -/
def wrap32 (x : Int) : Int := (x + 2147483648) % 4294967296 - 2147483648

/-- Addition of two C ints. -/
def iadd (a b : Int) : Int := wrap32 (a + b)

/-- Little-endian value of a list of bytes. -/
def fromLE : List Nat → Nat
  | [] => 0
  | b :: bs => b + 256 * fromLE bs

/-- The `n` little-endian bytes of a natural number. -/
def toLE : Nat → Nat → List Nat
  | 0, _ => []
  | n + 1, v => v % 256 :: toLE n (v / 256)

/-- Read one byte at address `a`. -/
def load8 (s : State) (a : Int) : Except Fault Nat :=
  if s.heap ≤ a ∧ a < s.heap + s.mem.length then
    .ok (s.mem.getD (a - s.heap).toNat 0)
  else
    match s.ext.lookup a with
    | some b => .ok b
    | none => .error .memory

/-- Write one byte at address `a`. -/
def store8 (s : State) (a : Int) (v : Nat) : Except Fault State :=
  if s.heap ≤ a ∧ a < s.heap + s.mem.length then
    .ok { s with mem := s.mem.set (a - s.heap).toNat (v % 256) }
  else
    match s.ext.lookup a with
    | some _ => .ok { s with ext := s.ext.map fun kb => if kb.1 = a then (kb.1, v % 256) else kb }
    | none => .error .memory

/-- Read `n` consecutive bytes starting at address `a`. -/
def loadBytes (s : State) (a : Int) : Nat → Except Fault (List Nat)
  | 0 => .ok []
  | n + 1 => do
    let b ← load8 s a
    let bs ← loadBytes s (a + 1) n
    pure (b :: bs)

/-- Write the bytes `bs` at consecutive addresses starting at `a`. -/
def storeBytes (s : State) (a : Int) : List Nat → Except Fault State
  | [] => .ok s
  | b :: bs => do
    let s1 ← store8 s a b
    storeBytes s1 (a + 1) bs

/-- Read a pointer (8 bytes). -/
def load64 (s : State) (a : Int) : Except Fault Int := do
  let bs ← loadBytes s a 8
  pure (fromLE bs : Nat)

/-- Write a pointer (8 bytes). -/
def store64 (s : State) (a : Int) (v : Int) : Except Fault State :=
  storeBytes s a (toLE 8 (v % 18446744073709551616).toNat)

/-- Read a C int (4 bytes, two's complement). -/
def load32 (s : State) (a : Int) : Except Fault Int := do
  let bs ← loadBytes s a 4
  pure (wrap32 (fromLE bs : Nat))

/-- Write a C int (4 bytes, two's complement). -/
def store32 (s : State) (a : Int) (v : Int) : Except Fault State :=
  storeBytes s a (toLE 4 (v % 4294967296).toNat)

/-- The descriptor a class pointer refers to. -/
def classAt (s : State) (p : Int) : Except Fault ClassDescriptor :=
  if p = s.strClass then .ok String_class
  else
    match s.classes.lookup p with
    | some c => .ok c
    | none => .error .memory

/-- The descriptor reached through `obj->class`. -/
def getClass (s : State) (obj : Int) : Except Fault ClassDescriptor := do
  let p ← load64 s obj
  classAt s p

/-- The entry `class->field_offsets[i]`. -/
def fieldOffset (c : ClassDescriptor) (i : Int) : Except Fault Int :=
  if i < 0 then .error .memory
  else
    match c.field_offsets[i.toNat]? with
    | some off => .ok off
    | none => .error .memory

/-- The root-table entry `_roots[i]`. -/
def rootAt (s : State) (i : Nat) : Except Fault Nat :=
  match s._roots[i]? with
  | some c => .ok c
  | none => .error .memory

/-- The contents of a client variable. -/
def readVar (s : State) (cell : Nat) : Except Fault Int :=
  match s.vars[cell]? with
  | some v => .ok v
  | none => .error .memory

/-- Assignment to a client variable. -/
def writeVar (s : State) (cell : Nat) (v : Int) : Except Fault State :=
  if cell < s.vars.length then .ok { s with vars := s.vars.set cell v }
  else .error .memory

/-- The function gc_init: `p` is the address malloc returns. -/
def gc_init (s : State) (size : Int) (p : Int) : Except Fault State :=
  if size < 0 ∨ p = 0 then .error .memory
  else
    .ok { s with _rp := 0, heap := p, mem := List.replicate size.toNat 0,
                 nextFree := 0, heapSize := size }

/-- The field loop of mark; `k` bounds the number of iterations. -/
def markFields (call : State → Int → Except Fault State) (obj : Int) :
    Nat → Int → State → Except Fault State
  | 0, i, s => do
    let c ← getClass s obj
    if i < c.num_fields then .error .fuel else .ok s
  | k + 1, i, s => do
    let c ← getClass s obj
    if i < c.num_fields then do
      let off ← fieldOffset c i
      let f ← load64 s (off + obj)
      let s1 ← call s f
      markFields call obj k (iadd i 1) s1
    else .ok s

/-- The function mark of gc.c, with a bound on the recursion depth. -/
def mark : Nat → State → Int → Except Fault State
  | 0, _, _ => .error .fuel
  | fuel + 1, s, obj =>
    if obj = 0 then .ok s
    else do
      let m ← load8 s (obj + 8)
      if m = 1 then .ok s
      else if obj < s.heap then .ok s
      else if obj > s.heap + s.heapSize then .ok s
      else do
        let s1 ← store8 s (obj + 8) 1
        let c ← getClass s1 obj
        markFields (mark fuel) obj c.num_fields.toNat 0 s1

/-- The footprint `step` that the walkers compute for the object at `o`
whose class has name `name`. -/
def stepOf (s : State) (o : Int) (name : String) : Except Fault Int :=
  if name = "String" then do
    let len ← load32 s (o + 24)
    pure (iadd len String_class.size)
  else do
    let c ← getClass s o
    pure c.size

/-- The loop of setForwarding. -/
def setForwardingLoop : Nat → State → Int → Int → Except Fault State
  | 0, s, i, _ => if i < s.nextFree then .error .fuel else .ok s
  | fuel + 1, s, i, off =>
    if i < s.nextFree then
      let o := s.heap + i
      if o = 0 then .ok s
      else do
        let c ← getClass s o
        match c.name with
        | none => .ok s
        | some name => do
          let step ← stepOf s o name
          let m ← load8 s (o + 8)
          if m = 1 then do
            let s1 ← store64 s (o + 16) (s.heap + off)
            let s2 ← store8 s1 (o + 8) 0
            setForwardingLoop fuel s2 (iadd i step) (iadd off step)
          else do
            let s1 ← store64 s (o + 16) 0
            setForwardingLoop fuel s1 (iadd i step) off
    else .ok s

/-- The function setForwarding of gc.c. -/
def setForwarding (s : State) : Except Fault State :=
  setForwardingLoop s.nextFree.toNat s 0 0

/-- The field loop of changePointers; `k` bounds the number of iterations. -/
def changeFields (call : State → Int → Except Fault State) (obj : Int) :
    Nat → Int → State → Except Fault State
  | 0, i, s => do
    let c ← getClass s obj
    if i < c.num_fields then .error .fuel else .ok s
  | k + 1, i, s => do
    let c ← getClass s obj
    if i < c.num_fields then do
      let off ← fieldOffset c i
      let field := off + obj
      let f ← load64 s field
      if f = 0 then changeFields call obj k (iadd i 1) s
      else do
        let s1 ← call s f
        let f1 ← load64 s1 field
        let fw ← load64 s1 (f1 + 16)
        let s2 ← store64 s1 field fw
        changeFields call obj k (iadd i 1) s2
    else .ok s

/-- The function changePointers of gc.c, with a bound on the recursion depth. -/
def changePointers : Nat → State → Int → Except Fault State
  | 0, _, _ => .error .fuel
  | fuel + 1, s, obj =>
    if obj = 0 then .ok s
    else do
      let m ← load8 s (obj + 8)
      if m = 1 then .ok s
      else if obj < s.heap then .ok s
      else if obj > s.heap + s.heapSize then .ok s
      else do
        let s1 ← store8 s (obj + 8) 1
        let c ← getClass s1 obj
        changeFields (changePointers fuel) obj c.num_fields.toNat 0 s1

/-- The call memcpy(dst, src, n): the source bytes are read, then written. -/
def memcpy (s : State) (dst src n : Int) : Except Fault State :=
  if n < 0 then .error .memory
  else do
    let bs ← loadBytes s src n.toNat
    storeBytes s dst bs

/-- The loop of moveObjects; the result carries newNextFree. -/
def moveObjectsLoop : Nat → State → Int → Int → Except Fault (State × Int)
  | 0, s, i, newNextFree => if i < s.nextFree then .error .fuel else .ok (s, newNextFree)
  | fuel + 1, s, i, newNextFree =>
    if i < s.nextFree then
      let o := s.heap + i
      if o = 0 then .ok (s, newNextFree)
      else do
        let c ← getClass s o
        match c.name with
        | none => .error .memory
        | some name => do
          let step ← stepOf s o name
          let m ← load8 s (o + 8)
          if m = 1 then do
            let fw ← load64 s (o + 16)
            let s1 ← memcpy s fw o step
            let s2 ← store8 s1 (o + 8) 0
            let s3 ← store64 s2 (o + 16) 0
            moveObjectsLoop fuel s3 (iadd i step) (iadd newNextFree step)
          else
            moveObjectsLoop fuel s (iadd i step) newNextFree
    else .ok (s, newNextFree)

/-- The function moveObjects of gc.c. -/
def moveObjects (s : State) : Except Fault State := do
  let r ← moveObjectsLoop s.nextFree.toNat s 0 0
  pure { r.1 with nextFree := r.2 }

/-- The first loop of gc: mark every root value. -/
def markRoots (fuel : Nat) : List Nat → State → Except Fault State
  | [], s => .ok s
  | i :: is, s => do
    let cell ← rootAt s i
    let v ← readVar s cell
    let s1 ← mark fuel s v
    markRoots fuel is s1

/-- The second loop of gc: rewrite pointers from every root, then the root. -/
def changeRoots (fuel : Nat) : List Nat → State → Except Fault State
  | [], s => .ok s
  | i :: is, s => do
    let cell ← rootAt s i
    let v ← readVar s cell
    if v = 0 then changeRoots fuel is s
    else do
      let s1 ← changePointers fuel s v
      let v1 ← readVar s1 cell
      let fw ← load64 s1 (v1 + 16)
      let s2 ← writeVar s1 cell fw
      changeRoots fuel is s2

/-- The recursion budget given to mark and changePointers: every call that
proceeds turns one byte of the heap block into 1. -/
def depthBudget (s : State) : Nat := s.mem.length + 2

/-- The function gc of gc.c. -/
def gc (s : State) : Except Fault State := do
  let s1 ← markRoots (depthBudget s) (List.range s._rp.toNat) s
  let s2 ← setForwarding s1
  let s3 ← changeRoots (depthBudget s) (List.range s._rp.toNat) s2
  moveObjects s3

/-- The loop of gc_alloc that nulls the managed fields of the new object. -/
def nullFields (o : Int) : Nat → Int → State → Except Fault State
  | 0, i, s => do
    let c ← getClass s o
    if i < c.num_fields then .error .fuel else .ok s
  | k + 1, i, s => do
    let c ← getClass s o
    if i < c.num_fields then do
      let off ← fieldOffset c i
      let s1 ← store64 s (off + o) 0
      nullFields o k (iadd i 1) s1
    else .ok s

/-- The part of gc_alloc after the space check. -/
def allocObject (s : State) (cls : Int) (c : ClassDescriptor) : Except Fault (State × Int) := do
  let old_offset := s.nextFree
  let s1 := { s with nextFree := iadd s.nextFree c.size }
  let o := old_offset + s1.heap
  let s2 ← store64 s1 o cls
  let s3 ← store64 s2 (o + 16) 0
  let s4 ← store8 s3 (o + 8) 0
  let c4 ← getClass s4 o
  let s5 ← nullFields o c4.num_fields.toNat 0 s4
  pure (s5, o)

/-- The function gc_alloc of gc.c; the result 0 is NULL. -/
def gc_alloc (s : State) (cls : Int) : Except Fault (State × Int) := do
  let c ← classAt s cls
  if iadd s.nextFree c.size > s.heapSize then do
    let s1 ← gc s
    if iadd s1.nextFree c.size > s1.heapSize then pure (s1, 0)
    else allocObject s1 cls c
  else allocObject s cls c

/-- The part of gc_alloc_string after the space check. -/
def allocString (s : State) (size : Int) : Except Fault (State × Int) := do
  let old_offset := s.nextFree
  let s1 := { s with nextFree := iadd s.nextFree (iadd (iadd String_class.size size) 1) }
  let o := old_offset + s1.heap
  let s2 ← store64 s1 o s1.strClass
  let s3 ← store32 s2 (o + 24) (iadd size 1)
  let s4 ← store64 s3 (o + 16) 0
  let s5 ← store8 s4 (o + 8) 0
  pure (s5, o)

/-- The function gc_alloc_string of gc.c; the result 0 is NULL. -/
def gc_alloc_string (s : State) (size : Int) : Except Fault (State × Int) :=
  if iadd (iadd (iadd s.nextFree String_class.size) size) 1 > s.heapSize then do
    let s1 ← gc s
    if iadd (iadd (iadd s1.nextFree String_class.size) size) 1 > s1.heapSize then pure (s1, 0)
    else allocString s1 size
  else allocString s size

/-- The function gc_num_roots. -/
def gc_num_roots (s : State) : Int := s._rp

/-- The statement gc_save_rp: the value kept in `__rp`. -/
def gc_save_rp (s : State) : Int := s._rp

/-- The statement gc_add_root(p), where `cell` is the variable `p`. -/
def gc_add_root (s : State) (cell : Nat) : Except Fault State :=
  if 0 ≤ s._rp ∧ s._rp.toNat < s._roots.length then
    .ok { s with _roots := s._roots.set s._rp.toNat cell, _rp := iadd s._rp 1 }
  else .error .memory

/-- The statement gc_restore_roots, with the saved value `__rp`. -/
def gc_restore_roots (s : State) (__rp : Int) : State := { s with _rp := __rp }

/-- Characters of the C string that starts at address `a`. -/
def cString (s : State) : Nat → Int → Except Fault (List Char)
  | 0, _ => .error .fuel
  | fuel + 1, a => do
    let b ← load8 s a
    if b = 0 then pure []
    else do
      let rest ← cString s fuel (a + 1)
      pure (Char.ofNat b :: rest)

/-- The conversion `%04d`. -/
def fmt04 (n : Int) : String :=
  if n < 0 then
    let d := toString (-n)
    "-" ++ String.mk (List.replicate (3 - d.length) '0') ++ d
  else
    let d := toString n
    String.mk (List.replicate (4 - d.length) '0') ++ d

/-- The function doFields of gc.c. -/
def doFields (s : State) (obj : Int) : Nat → Int → String → Except Fault String
  | 0, j, buf => do
    let c ← getClass s obj
    if j < c.num_fields then .error .fuel else .ok buf
  | k + 1, j, buf => do
    let c ← getClass s obj
    if j < c.num_fields then do
      let off ← fieldOffset c j
      let f ← load64 s (off + obj)
      let buf1 := if j ≠ 0 then buf ++ "," else buf
      let buf2 := if f = 0 then buf1 ++ "NULL" else buf1 ++ toString (f - s.heap)
      doFields s obj k (iadd j 1) buf2
    else .ok buf

/-- The loop of gc_get_state. -/
def getStateLoop : Nat → State → Int → String → Except Fault String
  | 0, s, i, buf => if i < s.nextFree then .error .fuel else .ok buf
  | fuel + 1, s, i, buf =>
    if i < s.nextFree then
      let obj := s.heap + i
      if obj = 0 then .ok buf
      else do
        let offset := obj - s.heap
        let c ← getClass s obj
        match c.name with
        | none => .error .memory
        | some name =>
          let buf1 := buf ++ "  " ++ fmt04 offset ++ ":" ++ name ++ "["
          if name = "String" then do
            let len ← load32 s (obj + 24)
            let step := iadd len String_class.size
            let str ← cString s (s.mem.length + s.ext.length + 1) (obj + 28)
            let buf2 := buf1 ++ toString String_class.size ++ "+" ++ toString len ++ "]=\"" ++
              String.mk str ++ "\"\n"
            getStateLoop fuel s (iadd i step) buf2
          else do
            let c1 ← getClass s obj
            let step := c1.size
            let buf2 := buf1 ++ toString step ++ "]->["
            let buf3 ← doFields s obj c1.num_fields.toNat 0 buf2
            let buf4 := buf3 ++ "]\n"
            getStateLoop fuel s (iadd i step) buf4
    else .ok buf

/-- The function gc_get_state of gc.c; the buffer holds 1024 bytes. -/
def gc_get_state (s : State) : Except Fault String := do
  let buf ← getStateLoop s.nextFree.toNat s 0 ("next_free=" ++ toString s.nextFree ++ "\nobjects:\n")
  if buf.length < 1024 then pure buf else .error .memory

/-- The client call strcpy(a->str, text) on the String at address `a`. -/
def strcpy (s : State) (a : Int) (text : List Nat) : Except Fault State :=
  storeBytes s (a + 28) (text ++ [0])

/-- The `n` bytes of the list `m` from index `j` on. -/
def bytes (m : List Nat) (j : Nat) : Nat → List Nat
  | 0 => []
  | n + 1 => m.getD j 0 :: bytes m (j + 1) n

/-- The list `m` with the bytes `bs` written from index `j` on. -/
def splice (m : List Nat) (j : Nat) : List Nat → List Nat
  | [] => m
  | b :: bs => splice (m.set j (b % 256)) (j + 1) bs

/-- The byte of the heap block at offset `j`. -/
def byteAt (s : State) (j : Nat) : Nat := s.mem.getD j 0

/-- The pointer stored at offset `j` of the heap block. -/
def word64 (s : State) (j : Nat) : Nat := fromLE (bytes s.mem j 8)

/-- An object as the heap walkers see it: offset in the heap block, footprint
and class descriptor. -/
structure Obj where
  off : Nat
  step : Nat
  cd : ClassDescriptor

deriving DecidableEq

/-- A class descriptor as gc.h describes it: a name, an instance that holds
at least the Object header, sizes that are C ints, `num_fields` entries in
`field_offsets`, each a
pointer-sized slot inside the instance after the header, no two slots
overlapping; a class named String has no managed fields. -/
def ClassOK (c : ClassDescriptor) : Prop :=
  (∃ n, c.name = some n) ∧ 24 ≤ c.size ∧ c.size < 2147483648 ∧
  c.num_fields = c.field_offsets.length ∧ c.num_fields < 2147483648 ∧
  (c.name = some "String" → c.field_offsets = []) ∧
  (∀ f ∈ c.field_offsets, 24 ≤ f ∧ f + 8 ≤ c.size) ∧
  c.field_offsets.Pairwise (fun f g => f + 8 ≤ g ∨ g + 8 ≤ f)

/-- The header at offset `o.off` belongs to an object of class `o.cd` whose
footprint, as the walkers compute it, is `o.step`. -/
def ObjAt (s : State) (o : Obj) : Prop :=
  getClass s (s.heap + o.off) = .ok o.cd ∧ ClassOK o.cd ∧
  (∃ n, o.cd.name = some n ∧ stepOf s (s.heap + o.off) n = .ok (o.step : Int) ∧
    (n = "String" → 32 ≤ o.step)) ∧
  24 ≤ o.step

/-- The objects `l` lie end to end from offset `i` to offset `e`. -/
def Chain (s : State) : Nat → Nat → List Obj → Prop
  | i, e, [] => i = e
  | i, e, o :: rest => o.off = i ∧ ObjAt s o ∧ Chain s (i + o.step) e rest

/-- The globals are consistent: a non-null heap block of `heapSize` bytes
whose addresses fit a pointer, and a bump offset inside it. -/
def Base (s : State) : Prop :=
  0 < s.heap ∧ s.heap + s.heapSize < 18446744073709551616 ∧ (s.mem.length : Int) = s.heapSize ∧
  s.heapSize < 2147483648 ∧ 0 ≤ s.nextFree ∧ s.nextFree ≤ s.heapSize

/-- The address `a` is the address of one of the objects `objs`. -/
def IsObjAddr (s : State) (objs : List Obj) (a : Int) : Prop :=
  ∃ o ∈ objs, a = s.heap + o.off

/-- The registered root cells, in registration order. -/
def rootCells (s : State) : List Nat := s._roots.take s._rp.toNat

/-- The value of the managed field at offset `f` of the object `o`. -/
def fieldVal (s : State) (o : Obj) (f : Int) : Int := (word64 s (o.off + f.toNat) : Nat)

/-- Every managed field is null or points at an object header. -/
def FieldsOK (s : State) (objs : List Obj) : Prop :=
  ∀ o ∈ objs, ∀ f ∈ o.cd.field_offsets, fieldVal s o f = 0 ∨ IsObjAddr s objs (fieldVal s o f)

/-- The root table lies inside `_roots`, and each registered client variable
holds null or the address of an object. -/
def RootsOK (s : State) (objs : List Obj) : Prop :=
  0 ≤ s._rp ∧ s._rp.toNat ≤ s._roots.length ∧
  ∀ c ∈ rootCells s, ∃ v, s.vars[c]? = some v ∧ (v = 0 ∨ IsObjAddr s objs v)

/-- No client variable is registered twice in the root table. -/
def DistinctRoots (s : State) : Prop := (rootCells s).Nodup

/-- A well-formed heap with object list `objs`. -/
def WF (s : State) (objs : List Obj) : Prop :=
  Base s ∧ Chain s 0 s.nextFree.toNat objs ∧ FieldsOK s objs ∧ RootsOK s objs

/-- All marked bits are 0 and all forwarded slots are null. -/
def Clean (s : State) (objs : List Obj) : Prop :=
  ∀ o ∈ objs, byteAt s (o.off + 8) = 0 ∧ word64 s (o.off + 16) = 0

/-- The address `a` is reachable: it is the non-null value of a registered
root cell, or the non-null value of a managed field of a reachable object. -/
inductive Reach (s : State) (objs : List Obj) : Int → Prop
  | root (c : Nat) (v : Int) : c ∈ rootCells s → s.vars[c]? = some v → v ≠ 0 → Reach s objs v
  | field (a : Int) (o : Obj) (f : Int) : Reach s objs a → o ∈ objs → a = s.heap + o.off →
      f ∈ o.cd.field_offsets → fieldVal s o f ≠ 0 → Reach s objs (fieldVal s o f)

/-- The object `o` is live: its address is reachable. -/
def Live (s : State) (objs : List Obj) (o : Obj) : Prop := Reach s objs (s.heap + o.off)

/-- The mark byte of `o` is 1. -/
def Marked (s : State) (o : Obj) : Prop := byteAt s (o.off + 8) = 1

/-- Number of objects of `objs` whose mark byte is not 1. -/
def unmarkedCount (s : State) (objs : List Obj) : Nat :=
  objs.countP (fun o => decide (byteAt s (o.off + 8) ≠ 1))

/-- The state `t` has the globals of `s` other than `mem` and `vars`, and a
heap block of the same length. -/
structure Frame (s t : State) : Prop where
  heap : t.heap = s.heap
  heapSize : t.heapSize = s.heapSize
  nextFree : t.nextFree = s.nextFree
  rp : t._rp = s._rp
  roots : t._roots = s._roots
  classes : t.classes = s.classes
  strClass : t.strClass = s.strClass
  ext : t.ext = s.ext
  len : t.mem.length = s.mem.length

/-- Sum of the footprints of a list of objects. -/
def footprints (l : List Obj) : Nat := (l.map Obj.step).sum

/-- The state `t` arises from `s` during the mark phase: only mark bytes of
objects differ, each is as in `s` or 1, and every marked object is live. -/
structure MInv (s t : State) (objs : List Obj) : Prop where
  frame : Frame s t
  vars : t.vars = s.vars
  bytes : ∀ j, (∀ o ∈ objs, j ≠ o.off + 8) → byteAt t j = byteAt s j
  marks : ∀ o ∈ objs, byteAt t (o.off + 8) = byteAt s (o.off + 8) ∨ byteAt t (o.off + 8) = 1
  sound : ∀ o ∈ objs, Marked t o → Live s objs o

/-- The targets of the managed fields of `o` (read in `s`) are marked in `t`. -/
def ChildrenMarked (s t : State) (objs : List Obj) (o : Obj) : Prop :=
  ∀ f ∈ o.cd.field_offsets, ∀ o' ∈ objs, fieldVal s o f = s.heap + o'.off → Marked t o'

/-- The result a traversal step is required to have. -/
def MarkPost (s : State) (objs : List Obj) (t : State) (a : Int) (t' : State) : Prop :=
  MInv s t' objs ∧ (∀ o ∈ objs, Marked t o → Marked t' o) ∧
  (∀ o ∈ objs, a = s.heap + o.off → Marked t' o) ∧
  (∀ o ∈ objs, ¬ Marked t o → Marked t' o → ChildrenMarked s t' objs o)

/-- Every marked object has the targets of its fields marked. -/
def Closed (s t : State) (objs : List Obj) : Prop :=
  ∀ o ∈ objs, Marked t o → ChildrenMarked s t objs o

/-- Every cell of the heap block holds a byte. -/
def Small (s : State) : Prop := ∀ j, byteAt s j < 256

/-- Forwarding slots as Phase F leaves them: a marked object gets the running
destination offset, an unmarked one gets null. -/
def Fwd (u : State) (live : Obj → Prop) : List Obj → Nat → Prop
  | [], _ => True
  | o :: rest, off =>
    (live o → (word64 u (o.off + 16) : Int) = u.heap + off ∧ Fwd u live rest (off + o.step)) ∧
    (¬ live o → word64 u (o.off + 16) = 0 ∧ Fwd u live rest off)

/-- The byte at `j` is neither the mark byte nor in the forwarding slot of an
object of `l`. -/
def NotHeader (l : List Obj) (j : Nat) : Prop :=
  ∀ o ∈ l, j ≠ o.off + 8 ∧ (j < o.off + 16 ∨ o.off + 24 ≤ j)

/-- The byte `j` lies outside the slot of every managed field of `o`. -/
@[reducible] def OffFields (o : Obj) (j : Nat) : Prop :=
  ∀ f ∈ o.cd.field_offsets, j < o.off + f.toNat ∨ o.off + f.toNat + 8 ≤ j

/-- The state `t` arises from `s` during the pointer-rewriting phase: only
mark bytes of objects and field slots of marked objects differ, each mark
byte is as in `s` or 1, and every marked object is live. -/
structure PInv (s t : State) (objs : List Obj) : Prop where
  frame : Frame s t
  bytes : ∀ j, (∀ o ∈ objs, j ≠ o.off + 8 ∧ (Marked t o → OffFields o j)) → byteAt t j = byteAt s j
  marks : ∀ o ∈ objs, byteAt t (o.off + 8) = byteAt s (o.off + 8) ∨ byteAt t (o.off + 8) = 1
  sound : ∀ o ∈ objs, Marked t o → Live s objs o
  small : Small s → Small t

/-- The states `t` and `t'` differ at most in the mark bytes and the field
slots of the objects selected by `U`. -/
def Touches (objs : List Obj) (U : Obj → Prop) (t t' : State) : Prop :=
  ∀ j, (∀ o ∈ objs, U o → j ≠ o.off + 8 ∧ OffFields o j) → byteAt t' j = byteAt t j

/-- The result a step of the pointer-rewriting traversal is required to have. -/
def PPost (s : State) (objs : List Obj) (t : State) (a : Int) (t' : State) : Prop :=
  PInv s t' objs ∧ t'.vars = t.vars ∧ (∀ o ∈ objs, Marked t o → Marked t' o) ∧
  (∀ o ∈ objs, a = s.heap + o.off → Marked t' o) ∧
  (∀ o ∈ objs, ¬ Marked t o → Marked t' o → ChildrenMarked s t' objs o) ∧
  Touches objs (fun o => ¬ Marked t o) t t'

/-- The mark byte of `o` is 1, as a Boolean. -/
def isMarked (s : State) (o : Obj) : Bool := decide (byteAt s (o.off + 8) = 1)

/-- The objects `l`, in the same order, laid out end to end from offset `d`. -/
def pack : Nat → List Obj → List Obj
  | _, [] => []
  | d, o :: l => { o with off := d } :: pack (d + o.step) l

/-- What a collection achieves on a well-formed heap: `t` is the state after
gc and `L` the list of surviving objects in their order before the collection. -/
structure GcPost (s : State) (objs : List Obj) (t : State) (L : List Obj) : Prop where
  heap : t.heap = s.heap
  heapSize : t.heapSize = s.heapSize
  rp : t._rp = s._rp
  roots : t._roots = s._roots
  classes : t.classes = s.classes
  strClass : t.strClass = s.strClass
  ext : t.ext = s.ext
  len : t.mem.length = s.mem.length
  sub : L.Sublist objs
  live : ∀ o ∈ objs, o ∈ L ↔ Live s objs o
  nextFree : t.nextFree = (footprints L : Nat)
  chain : Chain t 0 (footprints L) (pack 0 L)
  rootVals : ∀ c ∈ rootCells s, ∀ v, s.vars[c]? = some v →
    (v = 0 → t.vars[c]? = some 0) ∧
    (∀ o ∈ objs, v = s.heap + o.off →
      ∃ pre post, L = pre ++ o :: post ∧ t.vars[c]? = some (s.heap + (footprints pre : Nat)))
  otherVars : ∀ c, c ∉ rootCells s → t.vars[c]? = s.vars[c]?

/-- What gc_alloc writes when it has found room for an object of class `c`
at offset `j0`. -/
structure Allocated (s : State) (cls : Int) (c : ClassDescriptor) (j0 : Nat) (t : State) : Prop where
  heap : t.heap = s.heap
  heapSize : t.heapSize = s.heapSize
  rp : t._rp = s._rp
  roots : t._roots = s._roots
  vars : t.vars = s.vars
  classes : t.classes = s.classes
  strClass : t.strClass = s.strClass
  ext : t.ext = s.ext
  len : t.mem.length = s.mem.length
  nextFree : t.nextFree = (j0 : Int) + c.size
  below : ∀ j, j < j0 → byteAt t j = byteAt s j
  above : ∀ j, j0 + c.size.toNat ≤ j → byteAt t j = byteAt s j
  cls : (word64 t j0 : Int) = cls
  marked : byteAt t (j0 + 8) = 0
  forwarded : word64 t (j0 + 16) = 0
  fields : ∀ f ∈ c.field_offsets, word64 t (j0 + f.toNat) = 0
  small : Small s → Small t

/-- What gc_alloc_string writes when it has found room for a String of
capacity `n` at offset `j0`; the bytes from offset `j0 + 28` on, the payload
among them, are not written. -/
structure AllocatedString (s : State) (n : Int) (j0 : Nat) (t : State) : Prop where
  heap : t.heap = s.heap
  heapSize : t.heapSize = s.heapSize
  rp : t._rp = s._rp
  roots : t._roots = s._roots
  vars : t.vars = s.vars
  classes : t.classes = s.classes
  strClass : t.strClass = s.strClass
  ext : t.ext = s.ext
  len : t.mem.length = s.mem.length
  nextFree : t.nextFree = (j0 : Int) + String_class.size + n + 1
  below : ∀ j, j < j0 → byteAt t j = byteAt s j
  above : ∀ j, j0 + 28 ≤ j → byteAt t j = byteAt s j
  cls : getClass t (t.heap + j0) = .ok String_class
  length : load32 t (t.heap + j0 + 24) = .ok (n + 1)
  marked : byteAt t (j0 + 8) = 0
  forwarded : word64 t (j0 + 16) = 0
  small : Small s → Small t

deriving instance DecidableEq for Except

/-- The descriptor User_class of test.c. -/
def User_class : ClassDescriptor :=
  { name := some "User", size := 48, num_fields := 1, field_offsets := [40] }

/-- The descriptor Employee_class of test.c. -/
def Employee_class : ClassDescriptor :=
  { name := some "Employee", size := 48, num_fields := 2, field_offsets := [32, 40] }

/-- The program state before gc_init: `nvars` client variables, the two
descriptors of test.c at the addresses 2000 and 3000, String_class at 1000. -/
def boot (nvars : Nat) : State :=
  { heap := 0, heapSize := 0, nextFree := 0, _rp := 0, _roots := List.replicate MAX_ROOTS 0,
    mem := [], vars := List.replicate nvars 0,
    classes := [(2000, User_class), (3000, Employee_class)], strClass := 1000, ext := [] }

/-- The bytes of a string literal. -/
def chars (t : String) : List Nat := t.toList.map Char.toNat

/-- The heap dump at the end of a run. -/
def dump (r : Except Fault State) : Except Fault String := r >>= gc_get_state

/-- The test test_alloc_str_gc_compact_does_nothing of test.c up to its gc. -/
def test_alloc_str_gc_compact_does_nothing : Except Fault State := do
  let s ← gc_init (boot 1) 1000 4096
  let s ← gc_add_root s 0
  let (s, a) ← gc_alloc_string s 10
  let s ← writeVar s 0 a
  let s ← strcpy s a (chars "hi mom")
  gc s

/-- The test test_mgr_cycle of test.c up to its gc. -/
def test_mgr_cycle : Except Fault State := do
  let s ← gc_init (boot 3) 1000 4096
  let (s, tombu) ← gc_alloc s 3000
  let s ← writeVar s 0 tombu
  let (s, str) ← gc_alloc_string s 3
  let s ← strcpy s str (chars "Tom")
  let s ← store64 s (tombu + 32) str
  let (s, parrt) ← gc_alloc s 3000
  let s ← writeVar s 1 parrt
  let (s, str2) ← gc_alloc_string s 10
  let s ← store64 s (parrt + 32) str2
  let s ← strcpy s str2 (chars "Terence")
  let s ← store64 s (parrt + 40) tombu
  let s ← store64 s (tombu + 40) parrt
  let s ← gc_add_root s 1
  gc s

/-- The test test_automatic_gc of test.c. -/
def test_automatic_gc : Except Fault State := do
  let s ← gc_init (boot 2) 90 4096
  let (s, u) ← gc_alloc s 2000
  let s ← writeVar s 0 u
  let s ← gc_add_root s 0
  let (s, n) ← gc_alloc_string s 5
  let u ← readVar s 0
  let s ← store64 s (u + 40) n
  let s ← strcpy s n (chars "parrt")
  let s ← writeVar s 0 0
  let (s, q) ← gc_alloc s 2000
  let s ← writeVar s 1 q
  let s ← gc_add_root s 1
  let (s, n) ← gc_alloc_string s 6
  let q ← readVar s 1
  let s ← store64 s (q + 40) n
  let s ← strcpy s n (chars "steely")
  pure s

/-- A run in which a collection moves an object: a dead Employee at offset 0,
a rooted Employee at offset 48, then gc. -/
def movedOnce : Except Fault State := do
  let s ← gc_init (boot 1) 200 4096
  let s ← gc_add_root s 0
  let (s, _) ← gc_alloc s 3000
  let (s, p) ← gc_alloc s 3000
  let s ← writeVar s 0 p
  gc s

/-- The run movedOnce continued as in the loop body of test_loop: the root
variable is assigned a new Employee whose name is a new String, then gc. -/
def movedTwice : Except Fault State := do
  let s ← movedOnce
  let (s, p) ← gc_alloc s 3000
  let s ← writeVar s 0 p
  let (s, n) ← gc_alloc_string s 10
  let s ← store64 s (p + 32) n
  let s ← strcpy s n (chars "Terence")
  gc s

/-- A dead String of footprint 33 followed by a rooted String of capacity 20
that holds twenty characters 'A'; the result carries the address of the
rooted String. -/
def slideString : Except Fault (State × Int) := do
  let s ← gc_init (boot 1) 200 4096
  let s ← gc_add_root s 0
  let (s, _) ← gc_alloc_string s 0
  let (s, a) ← gc_alloc_string s 20
  let s ← writeVar s 0 a
  let s ← strcpy s a (List.replicate 20 65)
  pure (s, a)

/-- A dead User at offset 0, a User at 48 held by variable 0, an Employee at 96
held by variable 1; the root table is [&v0, &v1, &v1]. -/
def repeatedRoot : Except Fault State := do
  let s ← gc_init (boot 2) 200 4096
  let (s, _) ← gc_alloc s 2000
  let (s, a) ← gc_alloc s 2000
  let s ← writeVar s 0 a
  let (s, b) ← gc_alloc s 3000
  let s ← writeVar s 1 b
  let s ← gc_add_root s 0
  let s ← gc_add_root s 1
  let s ← gc_add_root s 1
  pure s

/-- A dead String of footprint 33 followed by a rooted Employee whose mgr
field refers to the Employee itself. -/
def selfManager : Except Fault State := do
  let s ← gc_init (boot 1) 200 4096
  let s ← gc_add_root s 0
  let (s, _) ← gc_alloc_string s 0
  let (s, p) ← gc_alloc s 3000
  let s ← writeVar s 0 p
  let s ← store64 s (p + 40) p
  pure s

/-- The first half of test_automatic_gc: a heap of 90 bytes holding a User and
its String (86 bytes), both dead once the root variable is cleared. -/
def fullOfGarbage : Except Fault State := do
  let s ← gc_init (boot 1) 90 4096
  let (s, u) ← gc_alloc s 2000
  let s ← writeVar s 0 u
  let s ← gc_add_root s 0
  let (s, n) ← gc_alloc_string s 5
  let s ← store64 s (u + 40) n
  let s ← strcpy s n (chars "parrt")
  writeVar s 0 0

/-- A heap of 50 bytes: a String holding "hi mom" that is never rooted, then a
second gc_alloc_string(10), which collects and reuses offset 0. -/
def reusedString : Except Fault (State × Int) := do
  let s ← gc_init (boot 1) 50 4096
  let (s, a) ← gc_alloc_string s 10
  let s ← strcpy s a (chars "hi mom")
  gc_alloc_string s 10

/-- A rooted Employee whose mgr field holds the address 3000 of the static
descriptor Employee_class; the 24 bytes of that descriptor are mapped
(name pointer 5000, size 48, num_fields 2, field_offsets pointer 6000). -/
def staticField : Except Fault State := do
  let s0 := { boot 1 with ext := (List.range 24).map fun k =>
    (((3000 + k : Nat) : Int), (toLE 8 5000 ++ toLE 4 48 ++ toLE 4 2 ++ toLE 8 6000).getD k 0) }
  let s ← gc_init s0 100 4096
  let s ← gc_add_root s 0
  let (s, p) ← gc_alloc s 3000
  let s ← writeVar s 0 p
  store64 s (p + 40) 3000

/-- A heap of 64 bytes followed by eleven mapped bytes: the eight bytes at
heap + 64 hold the address of String_class and the three after them are 0. -/
def pastTheEnd : Except Fault State :=
  gc_init { boot 1 with ext := (List.range 11).map fun k =>
    (((4160 + k : Nat) : Int), (toLE 8 1000 ++ [0, 0, 0]).getD k 0) } 64 4096

/-- A well-formed heap used to instantiate the theorems: a dead String of
footprint 33 at offset 0 and a User at offset 33 whose name field is null,
held by the registered variable 0. -/
def sampleHeap : State :=
  { heap := 4096, heapSize := 128, nextFree := 81, _rp := 1,
    _roots := List.replicate MAX_ROOTS 0,
    mem := toLE 8 1000 ++ List.replicate 16 0 ++ toLE 4 1 ++ List.replicate 5 0 ++
           toLE 8 2000 ++ List.replicate 40 0 ++ List.replicate 47 0,
    vars := [4129], classes := [(2000, User_class), (3000, Employee_class)],
    strClass := 1000, ext := [] }

/-- The objects of sampleHeap. -/
def sampleObjs : List Obj := [⟨0, 33, String_class⟩, ⟨33, 48, User_class⟩]

/-- The heap sampleHeap with the client variable 0 registered twice: the root
table is [&v0, &v0]. -/
def dupRootHeap : State := { sampleHeap with _rp := 2 }

/-- A descriptor whose size is INT_MAX. -/
def Huge_class : ClassDescriptor :=
  { name := some "Huge", size := 2147483647, num_fields := 0, field_offsets := [] }

/-- The heap sampleHeap in a program that also declares Huge_class, at the
address 5000. -/
def hugeHeap : State := { sampleHeap with classes := (5000, Huge_class) :: sampleHeap.classes }

/-- A heap in the middle of a collection, after the mark phase: a marked User
at offset 0, an unmarked String of footprint 33 at offset 48 and a marked User
at offset 81; the variables 0 and 1 hold the two Users. -/
def markedHeap : State :=
  { heap := 4096, heapSize := 200, nextFree := 129, _rp := 2,
    _roots := [0, 1] ++ List.replicate 98 0,
    mem := toLE 8 2000 ++ [1] ++ List.replicate 39 0 ++
           toLE 8 1000 ++ List.replicate 16 0 ++ toLE 4 1 ++ List.replicate 5 0 ++
           toLE 8 2000 ++ [1] ++ List.replicate 39 0 ++ List.replicate 71 0,
    vars := [4096, 4177], classes := [(2000, User_class), (3000, Employee_class)],
    strClass := 1000, ext := [] }

/-- The objects of markedHeap. -/
def markedObjs : List Obj := [⟨0, 48, User_class⟩, ⟨48, 33, String_class⟩, ⟨81, 48, User_class⟩]

/-- A heap whose pointer graph has a cycle, a self-loop and a shared object:
the Employees A at offset 0 and B at offset 48 are each the mgr of the other
and have the same name, the String at offset 144; the Employee C at offset 96
is its own mgr.  The variables 0 and 1 hold A and C. -/
def cycleHeap : State :=
  { heap := 4096, heapSize := 200, nextFree := 177, _rp := 2,
    _roots := [0, 1] ++ List.replicate 98 0,
    mem := toLE 8 3000 ++ List.replicate 24 0 ++ toLE 8 4240 ++ toLE 8 4144 ++
           toLE 8 3000 ++ List.replicate 24 0 ++ toLE 8 4240 ++ toLE 8 4096 ++
           toLE 8 3000 ++ List.replicate 24 0 ++ toLE 8 0 ++ toLE 8 4192 ++
           toLE 8 1000 ++ List.replicate 16 0 ++ toLE 4 1 ++ List.replicate 5 0 ++
           List.replicate 23 0,
    vars := [4096, 4192], classes := [(2000, User_class), (3000, Employee_class)],
    strClass := 1000, ext := [] }

/-- The state `t` has the globals of `s` other than the memory and the
client variables. -/
structure Globals (s t : State) : Prop where
  heap : t.heap = s.heap
  heapSize : t.heapSize = s.heapSize
  nextFree : t.nextFree = s.nextFree
  rp : t._rp = s._rp
  roots : t._roots = s._roots
  classes : t.classes = s.classes
  strClass : t.strClass = s.strClass

/-- A heap of 1000 bytes right after gc_init. -/
def freshHeap : State :=
  { boot 1 with heap := 4096, heapSize := 1000, mem := List.replicate 1000 0 }

/-- The state gc leaves when run on sampleHeap. -/
def collectedSample : State :=
  match gc sampleHeap with
  | .ok t => t
  | .error _ => sampleHeap

/-- The client statements gc_add_root(v) for the variables `cells`, in order. -/
def addRoots : List Nat → State → Except Fault State
  | [], s => .ok s
  | c :: cs, s => do
    let s1 ← gc_add_root s c
    addRoots cs s1

/-- Modelled from the spec: a decimal offset, zero-padded to at least four digits. -/
def pad4 (n : Nat) : String :=
  String.mk (List.replicate (4 - (toString (n : Int)).length) '0') ++ toString (n : Int)

/-- Modelled from the spec: the text of a field, the decimal heap offset of
its target or the literal NULL. -/
def fieldText (s : State) (v : Int) : String :=
  if v = 0 then "NULL" else toString (v - s.heap)

/-- Modelled from the spec: texts separated by commas without spaces. -/
def commaSeparated : List String → String
  | [] => ""
  | [a] => a
  | a :: b :: l => a ++ "," ++ commaSeparated (b :: l)

/-- Modelled from the spec: the payload of the String at offset `j`, up to
the first zero byte. -/
def payloadText (s : State) (j : Nat) : String :=
  String.mk (((s.mem.drop (j + 28)).takeWhile (fun b => decide (b ≠ 0))).map Char.ofNat)

/-- Modelled from the spec: the dump line of one object. -/
def objectLine (s : State) (o : Obj) : String :=
  if o.cd.name = some "String" then
    "  " ++ pad4 o.off ++ ":" ++ "String" ++ "[" ++ toString String_class.size ++ "+" ++
      toString ((o.step : Int) - 32) ++ "]=\"" ++ payloadText s o.off ++ "\"\n"
  else
    "  " ++ pad4 o.off ++ ":" ++ o.cd.name.getD "" ++ "[" ++ toString o.cd.size ++ "]->[" ++
      commaSeparated (o.cd.field_offsets.map fun f => fieldText s (fieldVal s o f)) ++ "]\n"

/-- Modelled from the spec: the lines of the objects, in address order. -/
def objectLines (s : State) : List Obj → String
  | [] => ""
  | o :: l => objectLine s o ++ objectLines s l

/-- Modelled from the spec: the heap dump. -/
def heapDump (s : State) (objs : List Obj) : String :=
  "next_free=" ++ toString s.nextFree ++ "\nobjects:\n" ++ objectLines s objs

/-- Texts each preceded by a comma. -/
def commaBefore : List String → String
  | [] => ""
  | a :: l => "," ++ a ++ commaBefore l

/-! ## Lemmas -/

theorem ok_bind {ε α β : Type} (a : α) (f : α → Except ε β) : (Except.ok a >>= f) = f a := rfl

theorem error_bind {ε α β : Type} (e : ε) (f : α → Except ε β) :
    ((Except.error e : Except ε α) >>= f) = Except.error e := rfl

theorem getD_set_ne (m : List Nat) (i j v : Nat) (h : i ≠ j) :
    (m.set i v).getD j 0 = m.getD j 0 := by
  simp [List.getD_eq_getElem?_getD, List.getElem?_set_ne h]

theorem getD_set_self (m : List Nat) (i v : Nat) (h : i < m.length) :
    (m.set i v).getD i 0 = v := by
  simp [List.getD_eq_getElem?_getD, List.getElem?_set_self, h]

theorem length_splice (bs : List Nat) : ∀ (m : List Nat) (j : Nat), (splice m j bs).length = m.length := by
  induction bs with
  | nil => intro m j; rfl
  | cons b bs ih => intro m j; simp [splice, ih]

theorem getD_splice_out (bs : List Nat) :
    ∀ (m : List Nat) (j i : Nat), (i < j ∨ j + bs.length ≤ i) → (splice m j bs).getD i 0 = m.getD i 0 := by
  induction bs with
  | nil => intro m j i _; rfl
  | cons b bs ih =>
    intro m j i h
    simp only [splice]
    rw [ih _ _ _ (by simp only [List.length_cons] at h; omega)]
    exact getD_set_ne _ _ _ _ (by simp only [List.length_cons] at h; omega)

theorem getD_splice_in (bs : List Nat) :
    ∀ (m : List Nat) (j k : Nat), j + bs.length ≤ m.length → k < bs.length →
      (splice m j bs).getD (j + k) 0 = bs.getD k 0 % 256 := by
  induction bs with
  | nil => intro m j k _ hk; simp at hk
  | cons b bs ih =>
    intro m j k hm hk
    simp only [List.length_cons] at hm hk
    simp only [splice]
    cases k with
    | zero =>
      show (splice (m.set j (b % 256)) (j + 1) bs).getD j 0 = _
      rw [getD_splice_out _ _ _ _ (Or.inl (by omega))]
      rw [getD_set_self _ _ _ (by omega)]
      simp
    | succ k =>
      have h := ih (m.set j (b % 256)) (j + 1) k (by simp; omega) (by omega)
      rw [show j + (k + 1) = j + 1 + k by omega, h]
      simp

theorem bytes_length (m : List Nat) : ∀ (n j : Nat), (bytes m j n).length = n := by
  intro n
  induction n with
  | zero => intro j; rfl
  | succ n ih => intro j; simp [bytes, ih]

theorem bytes_getD (m : List Nat) : ∀ (n j k : Nat), k < n → (bytes m j n).getD k 0 = m.getD (j + k) 0 := by
  intro n
  induction n with
  | zero => intro j k hk; omega
  | succ n ih =>
    intro j k hk
    cases k with
    | zero => simp [bytes]
    | succ k =>
      simp only [bytes, List.getD_cons_succ]
      rw [ih (j + 1) k (by omega)]
      congr 1; omega

theorem bytes_congr (m m' : List Nat) : ∀ (n j : Nat),
    (∀ k, k < n → m'.getD (j + k) 0 = m.getD (j + k) 0) → bytes m' j n = bytes m j n := by
  intro n
  induction n with
  | zero => intro j _; rfl
  | succ n ih =>
    intro j h
    simp only [bytes]
    have h0 := h 0 (by omega)
    rw [Nat.add_zero] at h0
    rw [h0, ih (j + 1) (fun k hk => by have := h (k + 1) (by omega); rwa [show j + (k + 1) = j + 1 + k by omega] at this)]

theorem bytes_splice_out (m bs : List Nat) (j i n : Nat) (h : i + n ≤ j ∨ j + bs.length ≤ i) :
    bytes (splice m j bs) i n = bytes m i n := by
  apply bytes_congr
  intro k hk
  exact getD_splice_out _ _ _ _ (by omega)

theorem bytes_splice_same (bs : List Nat) (m : List Nat) (j : Nat) (h : j + bs.length ≤ m.length) :
    bytes (splice m j bs) j bs.length = bs.map (· % 256) := by
  apply List.ext_getElem?
  intro k
  by_cases hk : k < bs.length
  · have h1 := bytes_getD (splice m j bs) bs.length j k hk
    rw [getD_splice_in bs m j k h hk] at h1
    have hl : k < (bytes (splice m j bs) j bs.length).length := by rw [bytes_length]; exact hk
    rw [List.getD_eq_getElem?_getD, List.getElem?_eq_getElem hl] at h1
    rw [List.getElem?_eq_getElem hl, List.getElem?_map, List.getElem?_eq_getElem hk]
    simp only [Option.getD_some] at h1
    rw [List.getD_eq_getElem?_getD, List.getElem?_eq_getElem hk] at h1
    simp only [Option.getD_some] at h1
    simp [h1]
  · rw [List.getElem?_eq_none (by rw [bytes_length]; omega),
        List.getElem?_eq_none (by rw [List.length_map]; omega)]

theorem toLE_length : ∀ (n v : Nat), (toLE n v).length = n := by
  intro n
  induction n with
  | zero => intro v; rfl
  | succ n ih => intro v; simp [toLE, ih]

theorem toLE_map_mod : ∀ (n v : Nat), (toLE n v).map (· % 256) = toLE n v := by
  intro n
  induction n with
  | zero => intro v; rfl
  | succ n ih => intro v; simp [toLE, ih]

theorem fromLE_toLE : ∀ (n v : Nat), fromLE (toLE n v) = v % 256 ^ n := by
  intro n
  induction n with
  | zero => intro v; simp [toLE, fromLE, Nat.mod_one]
  | succ n ih =>
    intro v
    simp only [toLE, fromLE, ih]
    rw [pow_succ, Nat.mul_comm (256 ^ n) 256, Nat.mod_mul]

theorem load8_at (s : State) (a : Int) (j : Nat) (ha : a = s.heap + j) (hj : j < s.mem.length) :
    load8 s a = .ok (byteAt s j) := by
  subst ha
  unfold load8 byteAt
  rw [if_pos (by constructor <;> omega)]
  congr 2
  omega

theorem store8_at (s : State) (a : Int) (j v : Nat) (ha : a = s.heap + j) (hj : j < s.mem.length) :
    store8 s a v = .ok { s with mem := s.mem.set j (v % 256) } := by
  subst ha
  unfold store8
  rw [if_pos (by constructor <;> omega)]
  congr 3
  omega

theorem loadBytes_at (s : State) : ∀ (n : Nat) (a : Int) (j : Nat), a = s.heap + j → j + n ≤ s.mem.length →
    loadBytes s a n = .ok (bytes s.mem j n) := by
  intro n
  induction n with
  | zero => intro a j _ _; rfl
  | succ n ih =>
    intro a j ha hj
    simp only [loadBytes, bytes]
    rw [load8_at s a j ha (by omega), ok_bind, ih (a + 1) (j + 1) (by omega) (by omega), ok_bind]
    rfl

theorem storeBytes_at (bs : List Nat) : ∀ (s : State) (a : Int) (j : Nat), a = s.heap + j →
    j + bs.length ≤ s.mem.length →
    storeBytes s a bs = .ok { s with mem := splice s.mem j bs } := by
  induction bs with
  | nil => intro s a j _ _; rfl
  | cons b bs ih =>
    intro s a j ha hj
    simp only [List.length_cons] at hj
    simp only [storeBytes, splice]
    rw [store8_at s a j b ha (by omega), ok_bind]
    rw [ih _ (a + 1) (j + 1) (by simp only; omega) (by simp only [List.length_set]; omega)]

theorem load64_at (s : State) (a : Int) (j : Nat) (ha : a = s.heap + j) (hj : j + 8 ≤ s.mem.length) :
    load64 s a = .ok (word64 s j : Nat) := by
  unfold load64 word64
  rw [loadBytes_at s 8 a j ha hj, ok_bind]
  rfl

theorem store64_at (s : State) (a : Int) (v : Int) (j : Nat) (ha : a = s.heap + j)
    (hj : j + 8 ≤ s.mem.length) :
    store64 s a v = .ok { s with mem := splice s.mem j (toLE 8 (v % 18446744073709551616).toNat) } := by
  unfold store64
  exact storeBytes_at _ s a j ha (by rw [toLE_length]; exact hj)

theorem load32_at (s : State) (a : Int) (j : Nat) (ha : a = s.heap + j) (hj : j + 4 ≤ s.mem.length) :
    load32 s a = .ok (wrap32 (fromLE (bytes s.mem j 4) : Nat)) := by
  unfold load32
  rw [loadBytes_at s 4 a j ha hj, ok_bind]
  rfl

theorem store32_at (s : State) (a : Int) (v : Int) (j : Nat) (ha : a = s.heap + j)
    (hj : j + 4 ≤ s.mem.length) :
    store32 s a v = .ok { s with mem := splice s.mem j (toLE 4 (v % 4294967296).toNat) } := by
  unfold store32
  exact storeBytes_at _ s a j ha (by rw [toLE_length]; exact hj)

theorem iadd_eq (a b : Int) (h1 : -2147483648 ≤ a + b) (h2 : a + b < 2147483648) : iadd a b = a + b := by
  unfold iadd wrap32; omega

theorem Frame.frame_refl (s : State) : Frame s s := ⟨rfl, rfl, rfl, rfl, rfl, rfl, rfl, rfl, rfl⟩

theorem Frame.trans {s t u : State} (h1 : Frame s t) (h2 : Frame t u) : Frame s u :=
  ⟨h2.heap.trans h1.heap, h2.heapSize.trans h1.heapSize, h2.nextFree.trans h1.nextFree,
   h2.rp.trans h1.rp, h2.roots.trans h1.roots, h2.classes.trans h1.classes,
   h2.strClass.trans h1.strClass, h2.ext.trans h1.ext, h2.len.trans h1.len⟩

theorem Frame.setMem (s : State) (m : List Nat) (h : m.length = s.mem.length) :
    Frame s { s with mem := m } := ⟨rfl, rfl, rfl, rfl, rfl, rfl, rfl, rfl, h⟩

theorem Frame.setVars (s : State) (v : List Int) : Frame s { s with vars := v } :=
  ⟨rfl, rfl, rfl, rfl, rfl, rfl, rfl, rfl, rfl⟩

theorem word64_congr (s t : State) (j : Nat) (h : ∀ k, k < 8 → byteAt t (j + k) = byteAt s (j + k)) :
    word64 t j = word64 s j := by
  unfold word64
  rw [bytes_congr s.mem t.mem 8 j h]

theorem getClass_at (s : State) (a : Int) (j : Nat) (ha : a = s.heap + j) (hj : j + 8 ≤ s.mem.length) :
    getClass s a = classAt s (word64 s j : Nat) := by
  unfold getClass
  rw [load64_at s a j ha hj, ok_bind]

theorem classAt_frame {s t : State} (h : Frame s t) (p : Int) : classAt t p = classAt s p := by
  unfold classAt
  rw [h.strClass, h.classes]

theorem getClass_frame {s t : State} (h : Frame s t) (j : Nat) (hj : j + 8 ≤ s.mem.length)
    (hb : ∀ k, k < 8 → byteAt t (j + k) = byteAt s (j + k)) :
    getClass t (t.heap + j) = getClass s (s.heap + j) := by
  rw [getClass_at t _ j rfl (by rw [h.len]; exact hj), getClass_at s _ j rfl hj,
      word64_congr s t j hb, classAt_frame h]

theorem stepOf_frame {s t : State} (h : Frame s t) (j : Nat) (n : String)
    (hj : j + 8 ≤ s.mem.length) (hj' : n = "String" → j + 28 ≤ s.mem.length)
    (hb : ∀ k, k < 8 → byteAt t (j + k) = byteAt s (j + k))
    (hl : n = "String" → ∀ k, k < 4 → byteAt t (j + 24 + k) = byteAt s (j + 24 + k)) :
    stepOf t (t.heap + j) n = stepOf s (s.heap + j) n := by
  unfold stepOf
  by_cases hn : n = "String"
  · rw [if_pos hn, if_pos hn]
    rw [load32_at t _ (j + 24) (by omega) (by rw [h.len]; have := hj' hn; omega),
        load32_at s _ (j + 24) (by omega) (by have := hj' hn; omega)]
    rw [bytes_congr s.mem t.mem 4 (j + 24) (hl hn)]
  · rw [if_neg hn, if_neg hn, getClass_frame h j hj hb]

theorem ObjAt.objAt_frame {s t : State} {o : Obj} (ho : ObjAt s o) (h : Frame s t)
    (hin : o.off + o.step ≤ s.mem.length)
    (hb : ∀ k, k < 8 → byteAt t (o.off + k) = byteAt s (o.off + k))
    (hl : o.cd.name = some "String" → ∀ k, k < 4 → byteAt t (o.off + 24 + k) = byteAt s (o.off + 24 + k)) :
    ObjAt t o := by
  obtain ⟨hc, hok, ⟨n, hn, hs, h32⟩, h24⟩ := ho
  refine ⟨?_, hok, ⟨n, hn, ?_, h32⟩, h24⟩
  · rw [getClass_frame h o.off (by omega) hb]; exact hc
  · rw [stepOf_frame h o.off n (by omega) (fun hs' => by have := h32 hs'; omega) hb
        (fun hs' => hl (by rw [hn, hs']))]
    exact hs

theorem Chain.bounds {s : State} : ∀ {l : List Obj} {i e : Nat}, Chain s i e l →
    i ≤ e ∧ ∀ o ∈ l, i ≤ o.off ∧ o.off + o.step ≤ e := by
  intro l
  induction l with
  | nil => intro i e h; simp only [Chain] at h; subst h; simp
  | cons o rest ih =>
    intro i e h
    obtain ⟨h1, h2, h3⟩ := h
    obtain ⟨h4, h5⟩ := ih h3
    refine ⟨by omega, ?_⟩
    intro o' ho'
    rcases List.mem_cons.mp ho' with rfl | hm
    · omega
    · have := h5 o' hm; omega

theorem Chain.objAt {s : State} : ∀ {l : List Obj} {i e : Nat}, Chain s i e l → ∀ o ∈ l, ObjAt s o := by
  intro l
  induction l with
  | nil => intro i e _ o ho; simp at ho
  | cons o rest ih =>
    intro i e h o' ho'
    obtain ⟨_, h2, h3⟩ := h
    rcases List.mem_cons.mp ho' with rfl | hm
    · exact h2
    · exact ih h3 o' hm

theorem Chain.pairwise {s : State} : ∀ {l : List Obj} {i e : Nat}, Chain s i e l →
    l.Pairwise (fun o o' => o.off + o.step ≤ o'.off) := by
  intro l
  induction l with
  | nil => intro i e _; exact List.Pairwise.nil
  | cons o rest ih =>
    intro i e h
    obtain ⟨h1, _, h3⟩ := h
    refine List.Pairwise.cons ?_ (ih h3)
    intro o' ho'
    have := (Chain.bounds h3).2 o' ho'
    omega

theorem Chain.disjoint {s : State} {l : List Obj} {i e : Nat} (h : Chain s i e l)
    {o o' : Obj} (ho : o ∈ l) (ho' : o' ∈ l) :
    o = o' ∨ o.off + o.step ≤ o'.off ∨ o'.off + o'.step ≤ o.off := by
  by_cases heq : o = o'
  · exact Or.inl heq
  · right
    have hp : l.Pairwise (fun o o' => o.off + o.step ≤ o'.off ∨ o'.off + o'.step ≤ o.off) :=
      (Chain.pairwise h).imp (fun h => Or.inl h)
    exact hp.forall (fun a b hab => hab.symm) ho ho' heq

theorem Chain.chain_frame {s t : State} (h : Frame s t) : ∀ {l : List Obj} {i e : Nat}, Chain s i e l →
    e ≤ s.mem.length →
    (∀ o ∈ l, ∀ k, k < 8 → byteAt t (o.off + k) = byteAt s (o.off + k)) →
    (∀ o ∈ l, o.cd.name = some "String" → ∀ k, k < 4 → byteAt t (o.off + 24 + k) = byteAt s (o.off + 24 + k)) →
    Chain t i e l := by
  intro l
  induction l with
  | nil => intro i e hc _ _ _; exact hc
  | cons o rest ih =>
    intro i e hc he hb hl
    have hbd := (Chain.bounds hc).2 o (List.mem_cons_self _ _)
    obtain ⟨h1, h2, h3⟩ := hc
    refine ⟨h1, h2.objAt_frame h (by omega) (hb o (List.mem_cons_self _ _)) (hl o (List.mem_cons_self _ _)), ?_⟩
    exact ih h3 he (fun o' ho' => hb o' (List.mem_cons_of_mem _ ho'))
      (fun o' ho' => hl o' (List.mem_cons_of_mem _ ho'))

theorem Chain.append {s : State} : ∀ {l l' : List Obj} {i m e : Nat}, Chain s i m l → Chain s m e l' →
    Chain s i e (l ++ l') := by
  intro l
  induction l with
  | nil => intro l' i m e h1 h2; simp only [Chain] at h1; subst h1; exact h2
  | cons o rest ih =>
    intro l' i m e h1 h2
    obtain ⟨a, b, c⟩ := h1
    exact ⟨a, b, ih c h2⟩

theorem Chain.length_le {s : State} : ∀ {l : List Obj} {i e : Nat}, Chain s i e l → i + l.length ≤ e := by
  intro l
  induction l with
  | nil => intro i e h; simp only [Chain] at h; subst h; simp
  | cons o rest ih =>
    intro i e h
    obtain ⟨_, h2, h3⟩ := h
    have := ih h3
    have := h2.2.2.2
    simp only [List.length_cons]
    omega

theorem countP_lt_of_imp {α : Type} (p q : α → Bool) : ∀ (l : List α), (∀ x ∈ l, p x = true → q x = true) →
    (∃ x ∈ l, q x = true ∧ p x = false) → l.countP p < l.countP q := by
  intro l
  induction l with
  | nil => intro _ h; obtain ⟨x, hx, _⟩ := h; simp at hx
  | cons a l ih =>
    intro himp hex
    have hle : l.countP p ≤ l.countP q :=
      List.countP_mono_left (fun x hx => himp x (List.mem_cons_of_mem _ hx))
    obtain ⟨x, hx, hq, hp⟩ := hex
    rcases List.mem_cons.mp hx with rfl | hm
    · rw [List.countP_cons_of_pos _ _ hq, List.countP_cons_of_neg _ _ (by simp [hp])]
      omega
    · have hlt := ih (fun x hx => himp x (List.mem_cons_of_mem _ hx)) ⟨x, hm, hq, hp⟩
      by_cases hpa : p a = true
      · rw [List.countP_cons_of_pos _ _ hpa, List.countP_cons_of_pos _ _ (himp a (List.mem_cons_self _ _) hpa)]
        omega
      · rw [List.countP_cons_of_neg _ _ hpa]
        by_cases hqa : q a = true
        · rw [List.countP_cons_of_pos _ _ hqa]; omega
        · rw [List.countP_cons_of_neg _ _ hqa]; exact hlt

theorem unmarkedCount_le {t t' : State} {objs : List Obj}
    (h : ∀ o ∈ objs, Marked t o → Marked t' o) : unmarkedCount t' objs ≤ unmarkedCount t objs := by
  unfold unmarkedCount
  apply List.countP_mono_left
  intro o ho hp
  simp only [decide_eq_true_eq] at hp ⊢
  exact fun h1 => hp (h o ho h1)

theorem unmarkedCount_lt {t t' : State} {objs : List Obj}
    (h : ∀ o ∈ objs, Marked t o → Marked t' o) (o : Obj) (ho : o ∈ objs) (h1 : ¬ Marked t o)
    (h2 : Marked t' o) : unmarkedCount t' objs < unmarkedCount t objs := by
  unfold unmarkedCount
  apply countP_lt_of_imp
  · intro x hx hp
    simp only [decide_eq_true_eq] at hp ⊢
    exact fun h1 => hp (h x hx h1)
  · refine ⟨o, ho, ?_, ?_⟩
    · simp only [decide_eq_true_eq]; exact h1
    · simp only [decide_eq_false_iff_not, not_not]; exact h2

theorem unmarkedCount_le_length (t : State) (objs : List Obj) : unmarkedCount t objs ≤ objs.length :=
  List.countP_le_length _

/-- Two byte positions inside objects of a chain differ when the objects or
the offsets inside them differ. -/
theorem Chain.pos_ne {s : State} {l : List Obj} {i e : Nat} (hc : Chain s i e l) {o o' : Obj}
    (ho : o ∈ l) (ho' : o' ∈ l) (a b : Nat) (ha : a < o.step) (hb : b < o'.step) (hab : a ≠ b) :
    o.off + a ≠ o'.off + b := by
  rcases hc.disjoint ho ho' with rfl | h | h
  · omega
  · omega
  · omega

theorem Chain.off_inj {s : State} {l : List Obj} {i e : Nat} (hc : Chain s i e l) {o o' : Obj}
    (ho : o ∈ l) (ho' : o' ∈ l) (h : o.off = o'.off) : o = o' := by
  have h1 := (hc.objAt o ho).2.2.2
  have h2 := (hc.objAt o' ho').2.2.2
  rcases hc.disjoint ho ho' with rfl | h' | h'
  · rfl
  · omega
  · omega

theorem ObjAt.size_eq {s : State} {o : Obj} (h : ObjAt s o) (hn : o.cd.name ≠ some "String") :
    o.cd.size = o.step := by
  obtain ⟨hc, _, ⟨n, hn', hs, _⟩, _⟩ := h
  unfold stepOf at hs
  rw [if_neg (by intro h; apply hn; rw [hn', h]), hc, ok_bind] at hs
  injection hs

theorem ObjAt.field_bounds {s : State} {o : Obj} (h : ObjAt s o) {f : Int} (hf : f ∈ o.cd.field_offsets) :
    24 ≤ f ∧ f.toNat + 8 ≤ o.step := by
  have hok := h.2.1
  obtain ⟨_, _, _, _, _, hstr, hfs, _⟩ := hok
  have hn : o.cd.name ≠ some "String" := by
    intro hs
    rw [hstr hs] at hf
    simp at hf
  have := h.size_eq hn
  have := hfs f hf
  omega

theorem fieldOffset_get (c : ClassDescriptor) (i : Nat) (f : Int) (h : c.field_offsets[i]? = some f) :
    fieldOffset c (i : Int) = .ok f := by
  unfold fieldOffset
  rw [if_neg (by omega)]
  simp only [Int.toNat_ofNat, h]

theorem MInv.minv_refl (s : State) (objs : List Obj) (hcl : ∀ o ∈ objs, byteAt s (o.off + 8) = 0) :
    MInv s s objs :=
  ⟨Frame.frame_refl s, rfl, fun _ _ => rfl, fun _ _ => Or.inl rfl,
   fun o ho h => by unfold Marked at h; rw [hcl o ho] at h; omega⟩

theorem MInv.byte_eq {s t : State} {objs : List Obj} {e : Nat} (h : MInv s t objs)
    (hc : Chain s 0 e objs) {o : Obj} (ho : o ∈ objs) (a : Nat) (ha : a < o.step) (ha8 : a ≠ 8) :
    byteAt t (o.off + a) = byteAt s (o.off + a) := by
  apply h.bytes
  intro o' ho'
  exact hc.pos_ne ho ho' a 8 ha (by have := (hc.objAt o' ho').2.2.2; omega) ha8

theorem MInv.chain {s t : State} {objs : List Obj} {e : Nat} (h : MInv s t objs)
    (hc : Chain s 0 e objs) (he : e ≤ s.mem.length) : Chain t 0 e objs := by
  apply hc.chain_frame h.frame he
  · intro o ho k hk
    exact h.byte_eq hc ho k (by have := (hc.objAt o ho).2.2.2; omega) (by omega)
  · intro o ho hs k hk
    have h1 := (hc.objAt o ho).2.2.2
    rw [Nat.add_assoc]
    exact h.byte_eq hc ho (24 + k) (by
      obtain ⟨_, _, ⟨n, hn, _, h32⟩, _⟩ := hc.objAt o ho
      have := h32 (by rw [hn] at hs; injection hs)
      omega) (by omega)

theorem MInv.field_eq {s t : State} {objs : List Obj} {e : Nat} (h : MInv s t objs)
    (hc : Chain s 0 e objs) {o : Obj} (ho : o ∈ objs) {f : Int} (hf : f ∈ o.cd.field_offsets) :
    fieldVal t o f = fieldVal s o f := by
  unfold fieldVal
  have hb := (hc.objAt o ho).field_bounds hf
  rw [word64_congr s t (o.off + f.toNat) (fun k hk => by
    rw [Nat.add_assoc]
    exact h.byte_eq hc ho (f.toNat + k) (by omega) (by omega))]

theorem MInv.getClass_eq {s t : State} {objs : List Obj} {e : Nat} (h : MInv s t objs)
    (hc : Chain s 0 e objs) (he : e ≤ s.mem.length) {o : Obj} (ho : o ∈ objs) :
    getClass t (s.heap + o.off) = .ok o.cd := by
  have := ((h.chain hc he).objAt o ho).1
  rw [h.frame.heap] at this
  exact this

theorem field_addr (h : Int) (off : Nat) (f : Int) (hf : 24 ≤ f) :
    f + (h + off) = h + ((off + f.toNat : Nat) : Int) := by omega

theorem WF.len_eq {s : State} {objs : List Obj} (h : WF s objs) :
    s.nextFree.toNat ≤ s.mem.length ∧ (s.mem.length : Int) = s.heapSize := by
  obtain ⟨⟨_, _, h3, _, h5, h6⟩, _⟩ := h
  constructor
  · omega
  · exact h3

theorem MInv.mark_step {s t : State} {objs : List Obj} (hwf : WF s objs) (h : MInv s t objs)
    {o : Obj} (ho : o ∈ objs) (hl : Live s objs o) :
    MInv s { t with mem := t.mem.set (o.off + 8) (1 % 256) } objs ∧
    Marked { t with mem := t.mem.set (o.off + 8) (1 % 256) } o ∧
    (∀ o' ∈ objs, Marked t o' → Marked { t with mem := t.mem.set (o.off + 8) (1 % 256) } o') ∧
    (∀ o' ∈ objs, Marked { t with mem := t.mem.set (o.off + 8) (1 % 256) } o' → o' = o ∨ Marked t o') := by
  have hc := hwf.2.1
  have hlen := hwf.len_eq.1
  have hin : o.off + 8 < t.mem.length := by
    have := (hc.bounds.2 o ho).2
    have := (hc.objAt o ho).2.2.2
    rw [h.frame.len]; omega
  have hself : byteAt { t with mem := t.mem.set (o.off + 8) (1 % 256) } (o.off + 8) = 1 := by
    unfold byteAt; simp only; rw [getD_set_self _ _ _ hin]
  have hother : ∀ j, j ≠ o.off + 8 →
      byteAt { t with mem := t.mem.set (o.off + 8) (1 % 256) } j = byteAt t j := by
    intro j hj
    unfold byteAt; simp only; exact getD_set_ne _ _ _ _ (Ne.symm hj)
  have hcases : ∀ o' ∈ objs, o' = o ∨ o'.off + 8 ≠ o.off + 8 := by
    intro o' ho'
    by_cases heq : o'.off = o.off
    · exact Or.inl (hc.off_inj ho' ho heq)
    · exact Or.inr (by omega)
  refine ⟨⟨?_, h.vars, ?_, ?_, ?_⟩, hself, ?_, ?_⟩
  · exact h.frame.trans (Frame.setMem t _ (by simp))
  · intro j hj
    rw [hother j (hj o ho)]
    exact h.bytes j hj
  · intro o' ho'
    rcases hcases o' ho' with rfl | hne
    · exact Or.inr hself
    · rw [hother _ hne]; exact h.marks o' ho'
  · intro o' ho' hm
    rcases hcases o' ho' with rfl | hne
    · exact hl
    · unfold Marked at hm; rw [hother _ hne] at hm; exact h.sound o' ho' hm
  · intro o' ho' hm
    rcases hcases o' ho' with rfl | hne
    · exact hself
    · unfold Marked; rw [hother _ hne]; exact hm
  · intro o' ho' hm
    rcases hcases o' ho' with rfl | hne
    · exact Or.inl rfl
    · right; unfold Marked at hm; rw [hother _ hne] at hm; exact hm

theorem markFields_spec (s : State) (objs : List Obj) (hwf : WF s objs) (fuel : Nat)
    (hrec : ∀ (t : State) (a : Int), MInv s t objs →
      (a = 0 ∨ ∃ o ∈ objs, a = s.heap + o.off ∧ Live s objs o) → unmarkedCount t objs < fuel →
      ∃ t', mark fuel t a = .ok t' ∧ MarkPost s objs t a t')
    (o : Obj) (ho : o ∈ objs) (hlive : Live s objs o) :
    ∀ (k idx : Nat) (t : State), idx + k = o.cd.field_offsets.length → MInv s t objs →
      unmarkedCount t objs < fuel →
      ∃ t', markFields (mark fuel) (s.heap + o.off) k (idx : Int) t = .ok t' ∧ MInv s t' objs ∧
        (∀ o' ∈ objs, Marked t o' → Marked t' o') ∧
        (∀ o' ∈ objs, ¬ Marked t o' → Marked t' o' → ChildrenMarked s t' objs o') ∧
        (∀ j f, idx ≤ j → o.cd.field_offsets[j]? = some f → ∀ o' ∈ objs,
          fieldVal s o f = s.heap + o'.off → Marked t' o') := by
  have hc := hwf.2.1
  have hlen := hwf.len_eq.1
  have hobj := hc.objAt o ho
  have hbd := (hc.bounds.2 o ho).2
  have hcok := hobj.2.1
  have hcls : ∀ t, MInv s t objs → getClass t (s.heap + o.off) = .ok o.cd :=
    fun t ht => ht.getClass_eq hc hlen ho
  intro k
  induction k with
  | zero =>
    intro idx t hk ht _
    refine ⟨t, ?_, ht, fun _ _ h => h, fun _ _ h1 h2 => absurd h2 h1, ?_⟩
    · unfold markFields
      rw [hcls t ht, ok_bind, if_neg (by rw [hcok.2.2.2.1]; omega)]
    · intro j f hj hf
      have := List.getElem?_eq_some_iff.mp hf
      obtain ⟨hlt, _⟩ := this
      omega
  | succ k ih =>
    intro idx t hk ht hcnt
    have hidx : idx < o.cd.field_offsets.length := by omega
    obtain ⟨fo, hget, hfm⟩ : ∃ fo, o.cd.field_offsets[idx]? = some fo ∧ fo ∈ o.cd.field_offsets :=
      ⟨_, List.getElem?_eq_getElem hidx, List.getElem_mem hidx⟩
    have hfb := hobj.field_bounds hfm
    have hval : fieldVal t o fo = fieldVal s o fo :=
      ht.field_eq hc ho hfm
    have hpre : fieldVal s o fo = 0 ∨ ∃ o' ∈ objs,
        fieldVal s o fo = s.heap + o'.off ∧ Live s objs o' := by
      rcases hwf.2.2.1 o ho _ hfm with h0 | ⟨o', ho', heq⟩
      · exact Or.inl h0
      · right
        refine ⟨o', ho', heq, ?_⟩
        unfold Live
        rw [← heq]
        refine Reach.field (s.heap + o.off) o _ hlive ho rfl hfm ?_
        rw [heq]
        have := hwf.1.1
        omega
    obtain ⟨t1, hm1, hinv1, hmono1, htgt1, hnew1⟩ := hrec t _ ht hpre hcnt
    have hcnt1 : unmarkedCount t1 objs < fuel := Nat.lt_of_le_of_lt (unmarkedCount_le hmono1) hcnt
    obtain ⟨t', hm', hinv', hmono', hnew', hrest'⟩ := ih (idx + 1) t1 (by omega) hinv1 hcnt1
    refine ⟨t', ?_, hinv', fun o' ho' h => hmono' o' ho' (hmono1 o' ho' h), ?_, ?_⟩
    · unfold markFields
      rw [hcls t ht, ok_bind, if_pos (by rw [hcok.2.2.2.1]; omega), fieldOffset_get _ _ _ hget, ok_bind]
      rw [load64_at t _ (o.off + fo.toNat) (by rw [ht.frame.heap]; exact field_addr _ _ _ hfb.1)
            (by rw [ht.frame.len]; clear hval hpre hm1 hm' hrest' hnew' hnew1 htgt1; omega), ok_bind]
      have : ((word64 t (o.off + fo.toNat) : Nat) : Int) =
          fieldVal s o fo := hval
      rw [this, hm1, ok_bind]
      rw [iadd_eq _ _ (by omega) (by have := hcok.2.2.2.1; have := hcok.2.2.2.2.1; omega)]
      exact hm'
    · intro o' ho' h1 h2
      by_cases hm : Marked t1 o'
      · intro f hf o'' ho'' heq
        exact hmono' o'' ho'' (hnew1 o' ho' h1 hm f hf o'' ho'' heq)
      · exact hnew' o' ho' hm h2
    · intro j f hj hf o' ho' heq
      by_cases hji : j = idx
      · subst hji
        rw [hget] at hf
        injection hf with hf
        subst hf
        exact hmono' o' ho' (htgt1 o' ho' heq)
      · exact hrest' j f (by omega) hf o' ho' heq

theorem mark_spec (s : State) (objs : List Obj) (hwf : WF s objs) :
    ∀ (fuel : Nat) (t : State) (a : Int), MInv s t objs →
      (a = 0 ∨ ∃ o ∈ objs, a = s.heap + o.off ∧ Live s objs o) → unmarkedCount t objs < fuel →
      ∃ t', mark fuel t a = .ok t' ∧ MarkPost s objs t a t' := by
  have hc := hwf.2.1
  have hlen := hwf.len_eq
  have hbase := hwf.1
  intro fuel
  induction fuel with
  | zero => intro t a _ _ h; omega
  | succ fuel ih =>
    intro t a ht ha hcnt
    rcases ha with rfl | ⟨o, ho, rfl, hlive⟩
    · refine ⟨t, ?_, ht, fun _ _ h => h, ?_, fun _ _ h1 h2 => absurd h2 h1⟩
      · unfold mark; rw [if_pos rfl]
      · intro o ho h0
        have := hbase.1
        omega
    · have hobj := hc.objAt o ho
      have hbd := (hc.bounds.2 o ho).2
      have h24 := hobj.2.2.2
      have hne : s.heap + (o.off : Int) ≠ 0 := by have := hbase.1; omega
      have hld : load8 t (s.heap + o.off + 8) = .ok (byteAt t (o.off + 8)) :=
        load8_at t _ (o.off + 8) (by rw [ht.frame.heap]; omega) (by rw [ht.frame.len]; omega)
      by_cases hm : byteAt t (o.off + 8) = 1
      · refine ⟨t, ?_, ht, fun _ _ h => h, ?_, fun _ _ h1 h2 => absurd h2 h1⟩
        · unfold mark; rw [if_neg hne, hld, ok_bind, if_pos hm]
        · intro o' ho' heq
          have : o' = o := hc.off_inj ho' ho (by omega)
          subst this
          exact hm
      · obtain ⟨hinv1, hself, hmono1, hback⟩ := ht.mark_step hwf ho hlive
        have hcnt1 : unmarkedCount { t with mem := t.mem.set (o.off + 8) (1 % 256) } objs < fuel := by
          have := unmarkedCount_lt hmono1 o ho hm hself
          omega
        obtain ⟨t', hm', hinv', hmono', hnew', hrest'⟩ :=
          markFields_spec s objs hwf fuel ih o ho hlive o.cd.field_offsets.length 0 _ (by omega) hinv1 hcnt1
        refine ⟨t', ?_, hinv', fun o' ho' h => hmono' o' ho' (hmono1 o' ho' h), ?_, ?_⟩
        · unfold mark
          rw [if_neg hne, hld, ok_bind, if_neg hm, if_neg (by rw [ht.frame.heap]; omega),
              if_neg (by rw [ht.frame.heap, ht.frame.heapSize]; have := hbase.2.2.1; omega)]
          rw [store8_at t _ (o.off + 8) 1 (by rw [ht.frame.heap]; omega) (by rw [ht.frame.len]; omega), ok_bind]
          have hcl : getClass { t with mem := t.mem.set (o.off + 8) (1 % 256) } (s.heap + o.off) = .ok o.cd :=
            hinv1.getClass_eq hc hlen.1 ho
          rw [hcl, ok_bind]
          have hnf : o.cd.num_fields.toNat = o.cd.field_offsets.length := by
            rw [hobj.2.1.2.2.2.1]; simp
          rw [hnf]
          exact hm'
        · intro o' ho' heq
          have : o' = o := hc.off_inj ho' ho (by omega)
          subst this
          exact hmono' _ ho' hself
        · intro o' ho' h1 h2
          by_cases hm1 : Marked { t with mem := t.mem.set (o.off + 8) (1 % 256) } o'
          · rcases hback o' ho' hm1 with rfl | hold
            · intro f hf o'' ho'' heq
              obtain ⟨j, hj⟩ := List.mem_iff_getElem?.mp hf
              exact hrest' j f (by omega) hj o'' ho'' heq
            · exact absurd hold h1
          · exact hnew' o' ho' hm1 h2

theorem rootAt_eq (s : State) (i c : Nat) (h : s._roots[i]? = some c) : rootAt s i = .ok c := by
  unfold rootAt; rw [h]

theorem readVar_eq (s : State) (c : Nat) (v : Int) (h : s.vars[c]? = some v) : readVar s c = .ok v := by
  unfold readVar; rw [h]

theorem rootCell_of_index (s : State) (i : Nat) (hi : i < s._rp.toNat) (hlen : s._rp.toNat ≤ s._roots.length) :
    ∃ c, s._roots[i]? = some c ∧ c ∈ rootCells s := by
  have hlt : i < s._roots.length := by omega
  refine ⟨s._roots[i], List.getElem?_eq_getElem hlt, ?_⟩
  unfold rootCells
  apply List.mem_iff_getElem?.mpr
  exact ⟨i, by rw [List.getElem?_take_of_lt hi]; exact List.getElem?_eq_getElem hlt⟩

theorem index_of_rootCell (s : State) (c : Nat) (hc : c ∈ rootCells s) :
    ∃ i, i < s._rp.toNat ∧ s._roots[i]? = some c := by
  unfold rootCells at hc
  obtain ⟨i, hi⟩ := List.mem_iff_getElem?.mp hc
  have hlt : i < s._rp.toNat := by
    by_contra hge
    rw [List.getElem?_take_eq_none (by omega)] at hi
    cases hi
  exact ⟨i, hlt, by rw [List.getElem?_take_of_lt hlt] at hi; exact hi⟩

theorem markRoots_loop (s : State) (objs : List Obj) (hwf : WF s objs) (fuel : Nat)
    (hfuel : objs.length < fuel) :
    ∀ (is : List Nat) (t : State), (∀ i ∈ is, i < s._rp.toNat) → MInv s t objs → Closed s t objs →
      ∃ t', markRoots fuel is t = .ok t' ∧ MInv s t' objs ∧ Closed s t' objs ∧
        (∀ o ∈ objs, Marked t o → Marked t' o) ∧
        (∀ i ∈ is, ∀ c v, s._roots[i]? = some c → s.vars[c]? = some v → ∀ o ∈ objs,
          v = s.heap + o.off → Marked t' o) := by
  intro is
  induction is with
  | nil =>
    intro t _ ht hcl
    exact ⟨t, rfl, ht, hcl, fun _ _ h => h, fun i hi => by simp at hi⟩
  | cons i is ih =>
    intro t his ht hcl
    have hi := his i (List.mem_cons_self _ _)
    obtain ⟨hrp, hrl, hrv⟩ := hwf.2.2.2
    obtain ⟨c, hc, hcm⟩ := rootCell_of_index s i hi hrl
    obtain ⟨v, hv, hvo⟩ := hrv c hcm
    have hpre : v = 0 ∨ ∃ o ∈ objs, v = s.heap + o.off ∧ Live s objs o := by
      rcases hvo with h0 | ⟨o, ho, heq⟩
      · exact Or.inl h0
      · right
        refine ⟨o, ho, heq, ?_⟩
        unfold Live
        rw [← heq]
        exact Reach.root c v hcm hv (by have := hwf.1.1; omega)
    obtain ⟨t1, hm1, hinv1, hmono1, htgt1, hnew1⟩ := mark_spec s objs hwf fuel t v ht hpre
      (Nat.lt_of_le_of_lt (unmarkedCount_le_length t objs) hfuel)
    have hcl1 : Closed s t1 objs := by
      intro o ho hm
      by_cases hold : Marked t o
      · intro f hf o' ho' heq
        exact hmono1 o' ho' (hcl o ho hold f hf o' ho' heq)
      · exact hnew1 o ho hold hm
    obtain ⟨t', hm', hinv', hcl', hmono', hrest'⟩ :=
      ih t1 (fun j hj => his j (List.mem_cons_of_mem _ hj)) hinv1 hcl1
    refine ⟨t', ?_, hinv', hcl', fun o ho h => hmono' o ho (hmono1 o ho h), ?_⟩
    · unfold markRoots
      rw [rootAt_eq t i c (by rw [ht.frame.roots]; exact hc), ok_bind,
          readVar_eq t c v (by rw [ht.vars]; exact hv), ok_bind, hm1, ok_bind]
      exact hm'
    · intro j hj c' v' hc' hv' o ho heq
      rcases List.mem_cons.mp hj with rfl | hjm
      · rw [hc] at hc'
        injection hc' with hc'
        subst hc'
        rw [hv] at hv'
        injection hv' with hv'
        subst hv'
        exact hmono' o ho (htgt1 o ho heq)
      · exact hrest' j hjm c' v' hc' hv' o ho heq

/-- Phase M: from a well-formed heap with clear mark bytes, the root loop of
gc returns, changes nothing but mark bytes, and marks exactly the live
objects. -/
theorem markRoots_spec (s : State) (objs : List Obj) (hwf : WF s objs)
    (hcl : ∀ o ∈ objs, byteAt s (o.off + 8) = 0) :
    ∃ t, markRoots (depthBudget s) (List.range s._rp.toNat) s = .ok t ∧ MInv s t objs ∧
      (∀ o ∈ objs, Marked t o ↔ Live s objs o) ∧
      (∀ o ∈ objs, byteAt t (o.off + 8) = 0 ∨ byteAt t (o.off + 8) = 1) := by
  have hc := hwf.2.1
  have hlen := hwf.len_eq.1
  have hfuel : objs.length < depthBudget s := by
    have := hc.length_le
    unfold depthBudget
    omega
  have hcl0 : Closed s s objs := by
    intro o ho hm
    unfold Marked at hm
    rw [hcl o ho] at hm
    omega
  obtain ⟨t, hm, hinv, hclosed, _, hroots⟩ :=
    markRoots_loop s objs hwf _ hfuel (List.range s._rp.toNat) s
      (fun i hi => List.mem_range.mp hi) (MInv.minv_refl s objs hcl) hcl0
  refine ⟨t, hm, hinv, ?_, ?_⟩
  · intro o ho
    constructor
    · exact hinv.sound o ho
    · intro hl
      unfold Live at hl
      have key : ∀ a, Reach s objs a → ∀ o ∈ objs, a = s.heap + o.off → Marked t o := by
        intro a hr
        induction hr with
        | root c v hcm hv hne =>
          intro o ho heq
          obtain ⟨i, hi, hic⟩ := index_of_rootCell s c hcm
          exact hroots i (List.mem_range.mpr hi) c v hic hv o ho heq
        | field a o' f _ ho' ha hf hne ih =>
          intro o ho heq
          exact hclosed o' ho' (ih o' ho' ha) f hf o ho heq
      exact key _ hl o ho rfl
  · intro o ho
    rcases hinv.marks o ho with h | h
    · left; rw [h]; exact hcl o ho
    · exact Or.inr h

theorem Base.base_frame {s t : State} (h : Frame s t) (hb : Base s) : Base t := by
  unfold Base at *
  rw [h.heap, h.heapSize, h.nextFree, h.len]
  exact hb

theorem word64_splice_same (s : State) (j : Nat) (v : Int) (hj : j + 8 ≤ s.mem.length)
    (h0 : 0 ≤ v) (h1 : v < 18446744073709551616) :
    (word64 { s with mem := splice s.mem j (toLE 8 (v % 18446744073709551616).toNat) } j : Int) = v := by
  unfold word64
  simp only
  have hl : (toLE 8 (v % 18446744073709551616).toNat).length = 8 := toLE_length _ _
  have := bytes_splice_same (toLE 8 (v % 18446744073709551616).toNat) s.mem j (by rw [hl]; exact hj)
  rw [hl] at this
  rw [this, toLE_map_mod, fromLE_toLE]
  have h2 : (256 : Nat) ^ 8 = 18446744073709551616 := by norm_num
  rw [h2]
  omega

/-- Effect of a pointer store inside the heap block. -/
theorem store64_spec (s : State) (a v : Int) (j : Nat) (ha : a = s.heap + j) (hj : j + 8 ≤ s.mem.length) :
    ∃ t, store64 s a v = .ok t ∧ Frame s t ∧ t.vars = s.vars ∧
      (∀ k, k < j ∨ j + 8 ≤ k → byteAt t k = byteAt s k) ∧
      (0 ≤ v → v < 18446744073709551616 → (word64 t j : Int) = v) := by
  refine ⟨_, store64_at s a v j ha hj, Frame.setMem s _ (length_splice _ _ _), rfl, ?_, ?_⟩
  · intro k hk
    exact getD_splice_out _ _ _ _ (by rw [toLE_length]; omega)
  · intro h0 h1
    exact word64_splice_same s j v hj h0 h1

/-- Effect of a byte store inside the heap block. -/
theorem store8_spec (s : State) (a : Int) (v j : Nat) (ha : a = s.heap + j) (hj : j < s.mem.length) :
    ∃ t, store8 s a v = .ok t ∧ Frame s t ∧ t.vars = s.vars ∧
      (∀ k, k ≠ j → byteAt t k = byteAt s k) ∧ byteAt t j = v % 256 := by
  refine ⟨_, store8_at s a j v ha hj, Frame.setMem s _ (by simp), rfl, ?_, ?_⟩
  · intro k hk
    exact getD_set_ne _ _ _ _ (Ne.symm hk)
  · exact getD_set_self _ _ _ hj

theorem Small.of_bytes {s t : State} (hs : Small s)
    (h : ∀ j, byteAt t j = byteAt s j ∨ byteAt t j < 256) : Small t := by
  intro j
  rcases h j with h | h
  · rw [h]; exact hs j
  · exact h

theorem store8_small {s t : State} {j v : Nat} (hby : ∀ k, k ≠ j → byteAt t k = byteAt s k)
    (hself : byteAt t j = v % 256) (hs : Small s) : Small t := by
  apply hs.of_bytes
  intro k
  by_cases hk : k = j
  · right; rw [hk, hself]; exact Nat.mod_lt _ (by norm_num)
  · exact Or.inl (hby k hk)

theorem splice_small (bs : List Nat) (m : List Nat) (j : Nat) (h : j + bs.length ≤ m.length)
    (hm : ∀ k, m.getD k 0 < 256) : ∀ k, (splice m j bs).getD k 0 < 256 := by
  intro k
  by_cases hk : k < j ∨ j + bs.length ≤ k
  · rw [getD_splice_out bs m j k hk]; exact hm k
  · have e : k = j + (k - j) := by omega
    rw [e, getD_splice_in bs m j (k - j) h (by omega)]
    exact Nat.mod_lt _ (by norm_num)

theorem store64_small {s t : State} {a v : Int} {j : Nat} (h : store64 s a v = .ok t)
    (ha : a = s.heap + j) (hj : j + 8 ≤ s.mem.length) (hs : Small s) : Small t := by
  rw [store64_at s a v j ha hj] at h
  have e := Except.ok.inj h
  subst e
  intro k
  exact splice_small _ _ _ (by rw [toLE_length]; exact hj) hs k

theorem MInv.small {s t : State} {objs : List Obj} (h : MInv s t objs) (hs : Small s) : Small t := by
  apply hs.of_bytes
  intro j
  by_cases hex : ∃ o ∈ objs, j = o.off + 8
  · obtain ⟨o, ho, rfl⟩ := hex
    rcases h.marks o ho with h1 | h1
    · exact Or.inl h1
    · right; rw [h1]; norm_num
  · left
    apply h.bytes
    intro o ho hj
    exact hex ⟨o, ho, hj⟩

theorem Fwd.congr {u u' : State} {p q : Obj → Prop} : ∀ {l : List Obj} {off : Nat},
    (∀ o ∈ l, p o ↔ q o) → (∀ o ∈ l, word64 u' (o.off + 16) = word64 u (o.off + 16)) →
    u'.heap = u.heap → Fwd u p l off → Fwd u' q l off := by
  intro l
  induction l with
  | nil => intro _ _ _ _ _; trivial
  | cons o rest ih =>
    intro off hpq hw hh hf
    have hpo := hpq o (List.mem_cons_self _ _)
    have hwo := hw o (List.mem_cons_self _ _)
    have hr := fun o' ho' => hpq o' (List.mem_cons_of_mem _ ho')
    have hwr := fun o' ho' => hw o' (List.mem_cons_of_mem _ ho')
    constructor
    · intro hq
      obtain ⟨h1, h2⟩ := hf.1 (hpo.mpr hq)
      exact ⟨by rw [hwo, hh]; exact h1, ih hr hwr hh h2⟩
    · intro hq
      obtain ⟨h1, h2⟩ := hf.2 (fun hp => hq (hpo.mp hp))
      exact ⟨by rw [hwo]; exact h1, ih hr hwr hh h2⟩

theorem iadd_nat (a b : Nat) (h : a + b < 2147483648) :
    iadd (a : Int) (b : Int) = ((a + b : Nat) : Int) := by
  rw [iadd_eq _ _ (by omega) (by omega)]; omega

theorem setForwardingLoop_spec : ∀ (rest : List Obj) (t : State) (i off fuel : Nat),
    Base t → Chain t i t.nextFree.toNat rest → rest.length ≤ fuel → off ≤ i →
    ∃ u, setForwardingLoop fuel t (i : Int) (off : Int) = .ok u ∧ Frame t u ∧ u.vars = t.vars ∧
      (∀ j, NotHeader rest j → byteAt u j = byteAt t j) ∧
      Fwd u (fun o => Marked t o) rest off ∧
      (∀ o ∈ rest, (Marked t o → byteAt u (o.off + 8) = 0) ∧
        (¬ Marked t o → byteAt u (o.off + 8) = byteAt t (o.off + 8))) ∧
      (Small t → Small u) := by
  intro rest
  induction rest with
  | nil =>
    intro t i off fuel hb hc _ _
    simp only [Chain] at hc
    have hnf : ¬ ((i : Int) < t.nextFree) := by
      have := hb.2.2.2.2.1
      omega
    refine ⟨t, ?_, Frame.frame_refl t, rfl, fun _ _ => rfl, trivial, fun o ho => by simp at ho, fun h => h⟩
    cases fuel with
    | zero => unfold setForwardingLoop; rw [if_neg hnf]
    | succ fuel => unfold setForwardingLoop; rw [if_neg hnf]
  | cons o rest ih =>
    intro t i off fuel hb hc hfuel hoff
    have hbd := hc.bounds
    have hbo := hbd.2 o (List.mem_cons_self _ _)
    obtain ⟨hoi, hobj, hrest⟩ := hc
    obtain ⟨hcls, hcok, ⟨n, hn, hstep, h32⟩, h24⟩ := hobj
    obtain ⟨hheap, hptr, hlen, hsz, hnf0, hnf1⟩ := hb
    have hb : Base t := ⟨hheap, hptr, hlen, hsz, hnf0, hnf1⟩
    have he : t.nextFree.toNat ≤ t.mem.length := by omega
    have hrb := hrest.bounds.2
    cases fuel with
    | zero => simp at hfuel
    | succ fuel =>
      simp only [List.length_cons] at hfuel
      subst hoi
      have hlt : (o.off : Int) < t.nextFree := by omega
      have hne : t.heap + (o.off : Int) ≠ 0 := by omega
      have hsum : o.off + o.step < 2147483648 := by omega
      have hsum2 : off + o.step < 2147483648 :=
        Nat.lt_of_le_of_lt (Nat.add_le_add_right hoff _) hsum
      by_cases hm : byteAt t (o.off + 8) = 1
      · -- marked
        obtain ⟨t1, hs1, hf1, hv1, hby1, hw1⟩ :=
          store64_spec t (t.heap + o.off + 16) (t.heap + off) (o.off + 16) (by omega) (by omega)
        obtain ⟨t2, hs2, hf2, hv2, hby2, hself2⟩ :=
          store8_spec t1 (t.heap + o.off + 8) 0 (o.off + 8) (by rw [hf1.heap]; omega) (by rw [hf1.len]; omega)
        have hf12 : Frame t t2 := hf1.trans hf2
        have hb2 : Base t2 := Base.base_frame hf12 hb
        have hbyte2 : ∀ j, j ≠ o.off + 8 → (j < o.off + 16 ∨ o.off + 24 ≤ j) → byteAt t2 j = byteAt t j := by
          intro j h1 h2
          rw [hby2 j h1]
          exact hby1 j (by omega)
        have hc2 : Chain t2 (o.off + o.step) t2.nextFree.toNat rest := by
          rw [hf12.nextFree]
          apply hrest.chain_frame hf12 he
          · intro o' ho' k hk
            have := hrb o' ho'
            exact hbyte2 _ (by omega) (by omega)
          · intro o' ho' _ k hk
            have := hrb o' ho'
            exact hbyte2 _ (by omega) (by omega)
        obtain ⟨u, hu, hfu, hvu, hbu, hfwd, hmk, hsm⟩ := ih t2 (o.off + o.step) (off + o.step) fuel hb2 hc2
          (by omega) (by omega)
        have hlow : ∀ j, j < o.off + o.step → byteAt u j = byteAt t2 j := by
          intro j hj
          apply hbu
          intro o' ho'
          have := (hrb o' ho').1
          omega
        refine ⟨u, ?_, hf12.trans hfu, by rw [hvu, hv2, hv1], ?_, ?_, ?_,
          fun hs => hsm (store8_small hby2 hself2 (@store64_small _ _ _ _ (o.off + 16) hs1 (by omega) (by omega) hs))⟩
        · unfold setForwardingLoop
          rw [if_pos hlt]
          simp only
          rw [if_neg hne, hcls, ok_bind]
          simp only [hn]
          rw [hstep, ok_bind, load8_at t _ (o.off + 8) (by omega) (by omega), ok_bind, if_pos hm]
          rw [hs1, ok_bind, hs2, ok_bind, iadd_nat _ _ hsum, iadd_nat _ _ hsum2]
          exact hu
        · intro j hj
          have hjo := hj o (List.mem_cons_self _ _)
          rw [hbu j (fun o' ho' => hj o' (List.mem_cons_of_mem _ ho'))]
          exact hbyte2 j hjo.1 hjo.2
        · constructor
          · intro _
            constructor
            · rw [word64_congr t2 u (o.off + 16) (fun k hk => hlow _ (by omega))]
              rw [word64_congr t1 t2 (o.off + 16) (fun k hk => hby2 _ (by omega))]
              rw [hfu.heap, hf12.heap]
              exact hw1 (by omega) (by omega)
            · refine Fwd.congr ?_ (fun _ _ => rfl) rfl hfwd
              intro o' ho'
              have := (hrb o' ho').1
              unfold Marked
              rw [hbyte2 _ (by omega) (by omega)]
          · intro hnm; exact absurd hm hnm
        · intro o' ho'
          rcases List.mem_cons.mp ho' with rfl | hm'
          · constructor
            · intro _
              rw [hlow _ (by omega), hself2]
            · intro hnm; exact absurd hm hnm
          · have hbo' := (hrb o' hm').1
            have h2 : byteAt t2 (o'.off + 8) = byteAt t (o'.off + 8) := hbyte2 _ (by omega) (by omega)
            have := hmk o' hm'
            unfold Marked at this ⊢
            rw [h2] at this
            exact this
      · -- not marked
        obtain ⟨t1, hs1, hf1, hv1, hby1, hw1⟩ :=
          store64_spec t (t.heap + o.off + 16) 0 (o.off + 16) (by omega) (by omega)
        have hb1 : Base t1 := Base.base_frame hf1 hb
        have hbyte1 : ∀ j, (j < o.off + 16 ∨ o.off + 24 ≤ j) → byteAt t1 j = byteAt t j := by
          intro j h2
          exact hby1 j (by omega)
        have hc1 : Chain t1 (o.off + o.step) t1.nextFree.toNat rest := by
          rw [hf1.nextFree]
          apply hrest.chain_frame hf1 he
          · intro o' ho' k hk
            have := hrb o' ho'
            exact hbyte1 _ (by omega)
          · intro o' ho' _ k hk
            have := hrb o' ho'
            exact hbyte1 _ (by omega)
        obtain ⟨u, hu, hfu, hvu, hbu, hfwd, hmk, hsm⟩ := ih t1 (o.off + o.step) off fuel hb1 hc1
          (by omega) (by omega)
        have hlow : ∀ j, j < o.off + o.step → byteAt u j = byteAt t1 j := by
          intro j hj
          apply hbu
          intro o' ho'
          have := (hrb o' ho').1
          omega
        refine ⟨u, ?_, hf1.trans hfu, by rw [hvu, hv1], ?_, ?_, ?_,
          fun hs => hsm (@store64_small _ _ _ _ (o.off + 16) hs1 (by omega) (by omega) hs)⟩
        · unfold setForwardingLoop
          rw [if_pos hlt]
          simp only
          rw [if_neg hne, hcls, ok_bind]
          simp only [hn]
          rw [hstep, ok_bind, load8_at t _ (o.off + 8) (by omega) (by omega), ok_bind, if_neg hm]
          rw [hs1, ok_bind, iadd_nat _ _ hsum]
          exact hu
        · intro j hj
          have hjo := hj o (List.mem_cons_self _ _)
          rw [hbu j (fun o' ho' => hj o' (List.mem_cons_of_mem _ ho'))]
          exact hbyte1 j hjo.2
        · constructor
          · intro hmm; exact absurd hmm hm
          · intro _
            constructor
            · rw [word64_congr t1 u (o.off + 16) (fun k hk => hlow _ (by omega))]
              have := hw1 (by omega) (by omega)
              omega
            · refine Fwd.congr ?_ (fun _ _ => rfl) rfl hfwd
              intro o' ho'
              have := (hrb o' ho').1
              unfold Marked
              rw [hbyte1 _ (by omega)]
        · intro o' ho'
          rcases List.mem_cons.mp ho' with rfl | hm'
          · constructor
            · intro hmm; exact absurd hmm hm
            · intro _
              rw [hlow _ (by omega)]
              exact hbyte1 _ (by omega)
          · have hbo' := (hrb o' hm').1
            have h2 : byteAt t1 (o'.off + 8) = byteAt t (o'.off + 8) := hbyte1 _ (by omega)
            have := hmk o' hm'
            unfold Marked at this ⊢
            rw [h2] at this
            exact this

theorem PInv.pinv_refl (s : State) (objs : List Obj) (hcl : ∀ o ∈ objs, byteAt s (o.off + 8) = 0) :
    PInv s s objs :=
  ⟨Frame.frame_refl s, fun _ _ => rfl, fun _ _ => Or.inl rfl,
   fun o ho h => by unfold Marked at h; rw [hcl o ho] at h; omega, fun h => h⟩

/-- Position `a` of object `o` against the mark byte and the field slots of
an object `o'` of the same chain. -/
theorem Chain.pos_off {s : State} {l : List Obj} {i e : Nat} (hc : Chain s i e l) {o o' : Obj}
    (ho : o ∈ l) (ho' : o' ∈ l) (hne : o ≠ o') (a : Nat) (ha : a < o.step) :
    o.off + a ≠ o'.off + 8 ∧ OffFields o' (o.off + a) := by
  have h24 := (hc.objAt o' ho').2.2.2
  rcases hc.disjoint ho ho' with heq | hd | hd
  · exact absurd heq hne
  · refine ⟨by omega, fun f _ => ?_⟩
    left; omega
  · refine ⟨by omega, fun f hfm => ?_⟩
    have := (hc.objAt o' ho').field_bounds hfm
    right; omega

theorem PInv.pinv_byte_eq {s t : State} {objs : List Obj} {e : Nat} (h : PInv s t objs)
    (hc : Chain s 0 e objs) {o : Obj} (ho : o ∈ objs) (a : Nat) (ha : a < o.step) (ha8 : a ≠ 8)
    (hf : Marked t o → ∀ f ∈ o.cd.field_offsets, a < f.toNat ∨ f.toNat + 8 ≤ a) :
    byteAt t (o.off + a) = byteAt s (o.off + a) := by
  apply h.bytes
  intro o' ho'
  by_cases heq : o = o'
  · subst heq
    refine ⟨by omega, fun hm f hfm => ?_⟩
    have := hf hm f hfm
    omega
  · have := hc.pos_off ho ho' heq a ha
    exact ⟨this.1, fun _ => this.2⟩

theorem PInv.header_eq {s t : State} {objs : List Obj} {e : Nat} (h : PInv s t objs)
    (hc : Chain s 0 e objs) {o : Obj} (ho : o ∈ objs) (a : Nat) (ha : a < 24) (ha8 : a ≠ 8) :
    byteAt t (o.off + a) = byteAt s (o.off + a) := by
  have h24 := (hc.objAt o ho).2.2.2
  refine h.pinv_byte_eq hc ho a (by omega) ha8 (fun _ f hfm => ?_)
  have := (hc.objAt o ho).field_bounds hfm
  left; omega

theorem PInv.pinv_chain {s t : State} {objs : List Obj} {e : Nat} (h : PInv s t objs)
    (hc : Chain s 0 e objs) (he : e ≤ s.mem.length) : Chain t 0 e objs := by
  apply hc.chain_frame h.frame he
  · intro o ho k hk
    exact h.header_eq hc ho k (by omega) (by omega)
  · intro o ho hs k hk
    rw [Nat.add_assoc]
    obtain ⟨_, hok, ⟨n, hn, _, h32⟩, _⟩ := hc.objAt o ho
    have h32' := h32 (by rw [hn] at hs; injection hs)
    refine h.pinv_byte_eq hc ho (24 + k) (by omega) (by omega) (fun _ f hfm => ?_)
    rw [hok.2.2.2.2.2.1 hs] at hfm
    simp at hfm

theorem PInv.pinv_getClass_eq {s t : State} {objs : List Obj} {e : Nat} (h : PInv s t objs)
    (hc : Chain s 0 e objs) (he : e ≤ s.mem.length) {o : Obj} (ho : o ∈ objs) :
    getClass t (s.heap + o.off) = .ok o.cd := by
  have := ((h.pinv_chain hc he).objAt o ho).1
  rw [h.frame.heap] at this
  exact this

theorem PInv.fwd_eq {s t : State} {objs : List Obj} {e : Nat} (h : PInv s t objs)
    (hc : Chain s 0 e objs) {o : Obj} (ho : o ∈ objs) :
    word64 t (o.off + 16) = word64 s (o.off + 16) := by
  apply word64_congr
  intro k hk
  rw [Nat.add_assoc]
  exact h.header_eq hc ho (16 + k) (by omega) (by omega)

theorem PInv.pinv_field_eq {s t : State} {objs : List Obj} {e : Nat} (h : PInv s t objs)
    (hc : Chain s 0 e objs) {o : Obj} (ho : o ∈ objs) (hm : ¬ Marked t o) (f : Int) 
    (hf : f ∈ o.cd.field_offsets) :
    fieldVal t o f = fieldVal s o f := by
  unfold fieldVal
  have hb := (hc.objAt o ho).field_bounds hf
  rw [word64_congr s t (o.off + f.toNat) (fun k hk => by
    rw [Nat.add_assoc]
    exact h.pinv_byte_eq hc ho (f.toNat + k) (by omega) (by omega) (fun hm' => absurd hm' hm))]

theorem Touches.mono {objs : List Obj} {U V : Obj → Prop} {t t' : State}
    (h : Touches objs U t t') (huv : ∀ o ∈ objs, U o → V o) : Touches objs V t t' :=
  fun j hj => h j (fun o ho hu => hj o ho (huv o ho hu))

theorem Touches.touches_trans {objs : List Obj} {U : Obj → Prop} {t t' t'' : State}
    (h1 : Touches objs U t t') (h2 : Touches objs U t' t'') : Touches objs U t t'' :=
  fun j hj => (h2 j hj).trans (h1 j hj)

theorem Touches.touches_refl (objs : List Obj) (U : Obj → Prop) (t : State) : Touches objs U t t :=
  fun _ _ => rfl

/-- A traversal that touches only other objects leaves the bytes of `o` alone. -/
theorem Touches.touched_byte_eq {s : State} {objs : List Obj} {e : Nat} {U : Obj → Prop} {t t' : State}
    (h : Touches objs U t t') (hc : Chain s 0 e objs) {o : Obj} (ho : o ∈ objs) (hu : ¬ U o)
    (a : Nat) (ha : a < o.step) : byteAt t' (o.off + a) = byteAt t (o.off + a) := by
  apply h
  intro o' ho' hu'
  have hne : o ≠ o' := fun heq => hu (heq ▸ hu')
  exact hc.pos_off ho ho' hne a ha

theorem ClassOK.slots_disjoint {c : ClassDescriptor} (h : ClassOK c) {i j : Nat} {f g : Int}
    (hi : c.field_offsets[i]? = some f) (hj : c.field_offsets[j]? = some g) (hne : i ≠ j) :
    f + 8 ≤ g ∨ g + 8 ≤ f := by
  have hp := h.2.2.2.2.2.2.2
  rw [List.pairwise_iff_getElem] at hp
  obtain ⟨hil, hie⟩ := List.getElem?_eq_some_iff.mp hi
  obtain ⟨hjl, hje⟩ := List.getElem?_eq_some_iff.mp hj
  rcases Nat.lt_or_gt_of_ne hne with hlt | hgt
  · have := hp i j hil hjl hlt
    rw [hie, hje] at this
    exact this
  · have := hp j i hjl hil hgt
    rw [hie, hje] at this
    omega

/-- A store into the slot of a managed field of a marked object keeps the
invariant of the phase. -/
theorem PInv.store_field {s t1 t2 : State} {objs : List Obj} {e : Nat} (h : PInv s t1 objs)
    (hc : Chain s 0 e objs) {o : Obj} (ho : o ∈ objs) (hm : Marked t1 o) {fo : Int}
    (hfo : fo ∈ o.cd.field_offsets) (hfr : Frame t1 t2)
    (hby : ∀ k, k < o.off + fo.toNat ∨ o.off + fo.toNat + 8 ≤ k → byteAt t2 k = byteAt t1 k)
    (hsm : Small t1 → Small t2) :
    PInv s t2 objs ∧ (∀ o' ∈ objs, byteAt t2 (o'.off + 8) = byteAt t1 (o'.off + 8)) ∧
      Touches objs (fun o' => o' = o) t1 t2 := by
  have hfb := (hc.objAt o ho).field_bounds hfo
  have hmk : ∀ o' ∈ objs, byteAt t2 (o'.off + 8) = byteAt t1 (o'.off + 8) := by
    intro o' ho'
    apply hby
    by_cases heq : o' = o
    · subst heq; omega
    · have h24 := (hc.objAt o' ho').2.2.2
      have := (hc.pos_off ho' ho heq 8 (by omega)).2 fo hfo
      omega
  refine ⟨⟨h.frame.trans hfr, ?_, ?_, ?_, fun hs => hsm (h.small hs)⟩, hmk, ?_⟩
  · intro j hj
    have hjo := hj o ho
    have hm2 : Marked t2 o := by unfold Marked; rw [hmk o ho]; exact hm
    have := hjo.2 hm2 fo hfo
    rw [hby j this]
    apply h.bytes
    intro o' ho'
    refine ⟨(hj o' ho').1, fun hm1 => (hj o' ho').2 ?_⟩
    unfold Marked; rw [hmk o' ho']; exact hm1
  · intro o' ho'
    rw [hmk o' ho']
    exact h.marks o' ho'
  · intro o' ho' hm2
    apply h.sound o' ho'
    unfold Marked at hm2 ⊢
    rw [← hmk o' ho']; exact hm2
  · intro j hj
    have := (hj o ho rfl).2 fo hfo
    exact hby j this

theorem iadd_succ (a : Nat) (h : a + 1 < 2147483648) : iadd (a : Int) 1 = ((a + 1 : Nat) : Int) := by
  rw [iadd_eq _ _ (by omega) (by omega)]; omega

theorem slot_bytes {a f g k : Nat} (h : f + 8 ≤ g ∨ g + 8 ≤ f) (hk : k < 8) :
    a + g + k < a + f ∨ a + f + 8 ≤ a + g + k := by omega

theorem ptr_addr (h : Int) (w : Nat) (off : Nat) (hw : (w : Int) = h + off) :
    (w : Int) + 16 = h + ((off + 16 : Nat) : Int) := by omega

theorem changeFields_spec (s : State) (objs : List Obj) (hwf : WF s objs) (fuel : Nat)
    (hrec : ∀ (t : State) (a : Int), PInv s t objs →
      (a = 0 ∨ ∃ o ∈ objs, a = s.heap + o.off ∧ Live s objs o) → unmarkedCount t objs < fuel →
      ∃ t', changePointers fuel t a = .ok t' ∧ PPost s objs t a t')
    (o : Obj) (ho : o ∈ objs) (hlive : Live s objs o) :
    ∀ (k idx : Nat) (t : State), idx + k = o.cd.field_offsets.length → PInv s t objs → Marked t o →
      (∀ j f, idx ≤ j → o.cd.field_offsets[j]? = some f → fieldVal t o f = fieldVal s o f) →
      unmarkedCount t objs < fuel →
      ∃ t', changeFields (changePointers fuel) (s.heap + o.off) k (idx : Int) t = .ok t' ∧
        PInv s t' objs ∧ t'.vars = t.vars ∧
        (∀ o' ∈ objs, Marked t o' → Marked t' o') ∧
        (∀ o' ∈ objs, ¬ Marked t o' → Marked t' o' → ChildrenMarked s t' objs o') ∧
        (∀ j f, idx ≤ j → o.cd.field_offsets[j]? = some f → ∀ o' ∈ objs,
          fieldVal s o f = s.heap + o'.off → Marked t' o') ∧
        Touches objs (fun o' => o' = o ∨ ¬ Marked t o') t t' := by
  have hc := hwf.2.1
  have hlen := hwf.len_eq.1
  have hobj := hc.objAt o ho
  have hbd := (hc.bounds.2 o ho).2
  have hcok := hobj.2.1
  have hheap := hwf.1.1
  have hcls : ∀ t, PInv s t objs → getClass t (s.heap + o.off) = .ok o.cd :=
    fun t ht => ht.pinv_getClass_eq hc hlen ho
  intro k
  induction k with
  | zero =>
    intro idx t hk ht _ _ _
    refine ⟨t, ?_, ht, rfl, fun _ _ h => h, fun _ _ h1 h2 => absurd h2 h1, ?_,
      Touches.touches_refl _ _ _⟩
    · unfold changeFields
      rw [hcls t ht, ok_bind, if_neg (by rw [hcok.2.2.2.1]; omega)]
    · intro j f hj hf
      have := List.getElem?_eq_some_iff.mp hf
      obtain ⟨hlt, _⟩ := this
      omega
  | succ k ih =>
    intro idx t hk ht hmo hfields hcnt
    have hidx : idx < o.cd.field_offsets.length := by omega
    obtain ⟨fo, hget, hfm⟩ : ∃ fo, o.cd.field_offsets[idx]? = some fo ∧ fo ∈ o.cd.field_offsets :=
      ⟨_, List.getElem?_eq_getElem hidx, List.getElem_mem hidx⟩
    have hfb := hobj.field_bounds hfm
    have hval : ((word64 t (o.off + fo.toNat) : Nat) : Int) = fieldVal s o fo :=
      hfields idx fo (Nat.le_refl _) hget
    have hin : o.off + fo.toNat + 8 ≤ s.mem.length := by
      clear hval hfields hrec ih; omega
    have hadr : fo + (s.heap + (o.off : Int)) = s.heap + ((o.off + fo.toNat : Nat) : Int) :=
      field_addr _ _ _ hfb.1
    have hnext : idx + 1 < 2147483648 := by
      have h1 := hcok.2.2.2.1
      have h2 := hcok.2.2.2.2.1
      clear hval hfields hrec ih hadr
      omega
    have hstart : changeFields (changePointers fuel) (s.heap + o.off) (k + 1) (idx : Int) t =
        (if fieldVal s o fo = 0 then
          changeFields (changePointers fuel) (s.heap + o.off) k ((idx + 1 : Nat) : Int) t
        else do
          let s1 ← changePointers fuel t (fieldVal s o fo)
          let f1 ← load64 s1 (fo + (s.heap + o.off))
          let fw ← load64 s1 (f1 + 16)
          let s2 ← store64 s1 (fo + (s.heap + o.off)) fw
          changeFields (changePointers fuel) (s.heap + o.off) k ((idx + 1 : Nat) : Int) s2) := by
      rw [changeFields, hcls t ht, ok_bind, if_pos (by rw [hcok.2.2.2.1]; omega),
        fieldOffset_get _ _ _ hget, ok_bind]
      simp only []
      rw [load64_at t _ (o.off + fo.toNat) (by rw [ht.frame.heap]; exact hadr)
            (by rw [ht.frame.len]; exact hin), ok_bind, hval, iadd_succ idx hnext]
    rw [hstart]
    by_cases h0 : fieldVal s o fo = 0
    · rw [if_pos h0]
      obtain ⟨t', hm', hinv', hv', hmono', hnew', hrest', htch'⟩ :=
        ih (idx + 1) t (by omega) ht hmo
          (fun j f hj hf => hfields j f (by omega) hf) hcnt
      refine ⟨t', hm', hinv', hv', hmono', hnew', ?_, htch'⟩
      intro j f hj hf o' ho' heq
      by_cases hji : j = idx
      · subst hji
        rw [hget] at hf
        have hf' := Option.some.inj hf
        subst hf'
        rw [h0] at heq
        omega
      · exact hrest' j f (by omega) hf o' ho' heq
    · rw [if_neg h0]
      obtain ⟨o1, ho1, heq1⟩ : IsObjAddr s objs (fieldVal s o fo) := by
        rcases hwf.2.2.1 o ho _ hfm with h | h
        · exact absurd h h0
        · exact h
      have hlive1 : Live s objs o1 := by
        unfold Live
        rw [← heq1]
        exact Reach.field (s.heap + o.off) o _ hlive ho rfl hfm h0
      obtain ⟨t1, hm1, hinv1, hv1, hmono1, htgt1, hnew1, htch1⟩ :=
        hrec t _ ht (Or.inr ⟨o1, ho1, heq1, hlive1⟩) hcnt
      have hmo1 : Marked t1 o := hmono1 o ho hmo
      -- the slot read again after the call
      have hslot1 : word64 t1 (o.off + fo.toNat) = word64 t (o.off + fo.toNat) := by
        apply word64_congr
        intro k hk
        rw [Nat.add_assoc]
        exact htch1.touched_byte_eq hc ho (fun hn => hn hmo) (fo.toNat + k) (by omega)
      have hbd1 := (hc.bounds.2 o1 ho1).2
      have h241 := (hc.objAt o1 ho1).2.2.2
      have hw1 : ((word64 t1 (o.off + fo.toNat) : Nat) : Int) = s.heap + o1.off := by
        rw [hslot1, hval, heq1]
      have hld1 : load64 t1 (fo + (s.heap + o.off)) = .ok ((word64 t1 (o.off + fo.toNat) : Nat) : Int) :=
        load64_at t1 _ (o.off + fo.toNat) (by rw [hinv1.frame.heap]; exact hadr)
          (by rw [hinv1.frame.len]; exact hin)
      have hin1 : o1.off + 16 + 8 ≤ s.mem.length := by
        clear hval hfields hrec ih hadr hw1 hld1 hstart; omega
      have hld2 : load64 t1 (((word64 t1 (o.off + fo.toNat) : Nat) : Int) + 16) =
          .ok ((word64 t1 (o1.off + 16) : Nat) : Int) :=
        load64_at t1 _ (o1.off + 16) (by rw [hinv1.frame.heap]; exact ptr_addr _ _ _ hw1)
          (by rw [hinv1.frame.len]; exact hin1)
      obtain ⟨t2, hs2, hf2, hv2, hby2, _⟩ :=
        store64_spec t1 (fo + (s.heap + o.off)) ((word64 t1 (o1.off + 16) : Nat) : Int)
          (o.off + fo.toNat) (by rw [hinv1.frame.heap]; exact hadr) (by rw [hinv1.frame.len]; exact hin)
      obtain ⟨hinv2, hmk2, htch2⟩ := hinv1.store_field hc ho hmo1 hfm hf2 hby2
        (@store64_small _ _ _ _ (o.off + fo.toNat) hs2 (by rw [hinv1.frame.heap]; exact hadr)
          (by rw [hinv1.frame.len]; exact hin))
      have hm12 : ∀ o' ∈ objs, Marked t1 o' → Marked t2 o' := by
        intro o' ho' h; unfold Marked at h ⊢; rw [hmk2 o' ho']; exact h
      have hm21 : ∀ o' ∈ objs, Marked t2 o' → Marked t1 o' := by
        intro o' ho' h; unfold Marked at h ⊢; rw [← hmk2 o' ho']; exact h
      have hcnt2 : unmarkedCount t2 objs < fuel :=
        Nat.lt_of_le_of_lt (unmarkedCount_le hm12) (Nat.lt_of_le_of_lt (unmarkedCount_le hmono1) hcnt)
      have hfields2 : ∀ j f, idx + 1 ≤ j → o.cd.field_offsets[j]? = some f →
          fieldVal t2 o f = fieldVal s o f := by
        intro j f hj hf
        rw [← hfields j f (by omega) hf]
        have hfj : f ∈ o.cd.field_offsets := List.mem_iff_getElem?.mpr ⟨j, hf⟩
        have hfbj := hobj.field_bounds hfj
        have hdis := hcok.slots_disjoint hget hf (by omega)
        have hdis' : fo.toNat + 8 ≤ f.toNat ∨ f.toNat + 8 ≤ fo.toNat := by
          have := hfb.1; have := hfbj.1; clear hval hfields hrec ih hadr hw1 hld1 hstart hld2; omega
        unfold fieldVal
        rw [word64_congr t1 t2 (o.off + f.toNat) (fun k hk => hby2 _ (slot_bytes hdis' hk)),
          word64_congr t t1 (o.off + f.toNat) (fun k hk => by
            rw [Nat.add_assoc]
            exact htch1.touched_byte_eq hc ho (fun hn => hn hmo) (f.toNat + k) (by omega))]
      obtain ⟨t', hm', hinv', hv', hmono', hnew', hrest', htch'⟩ :=
        ih (idx + 1) t2 (by omega) hinv2 (hm12 o ho hmo1) hfields2 hcnt2
      refine ⟨t', ?_, hinv', by rw [hv', hv2, hv1],
        fun o' ho' h => hmono' o' ho' (hm12 o' ho' (hmono1 o' ho' h)), ?_, ?_, ?_⟩
      · rw [hm1, ok_bind, hld1, ok_bind, hld2, ok_bind, hs2, ok_bind]
        exact hm'
      · intro o' ho' h1 h2
        by_cases hm : Marked t1 o'
        · intro f hf o'' ho'' heq
          exact hmono' o'' ho'' (hm12 o'' ho'' (hnew1 o' ho' h1 hm f hf o'' ho'' heq))
        · exact hnew' o' ho' (fun h => hm (hm21 o' ho' h)) h2
      · intro j f hj hf o' ho' heq
        by_cases hji : j = idx
        · subst hji
          rw [hget] at hf
          have hf' := Option.some.inj hf
          subst hf'
          exact hmono' o' ho' (hm12 o' ho' (htgt1 o' ho' heq))
        · exact hrest' j f (by omega) hf o' ho' heq
      · have a1 : Touches objs (fun o' => o' = o ∨ ¬ Marked t o') t t1 :=
          htch1.mono (fun _ _ h => Or.inr h)
        have a2 : Touches objs (fun o' => o' = o ∨ ¬ Marked t o') t1 t2 :=
          htch2.mono (fun _ _ h => Or.inl h)
        have a3 : Touches objs (fun o' => o' = o ∨ ¬ Marked t o') t2 t' :=
          htch'.mono (fun o' ho' h => by
            rcases h with h | h
            · exact Or.inl h
            · exact Or.inr (fun hm => h (hm12 o' ho' (hmono1 o' ho' hm))))
        exact (a1.touches_trans a2).touches_trans a3

/-- Setting the mark byte of a live object keeps the invariant of the phase. -/
theorem PInv.set_mark {s t t1 : State} {objs : List Obj} (hwf : WF s objs) (h : PInv s t objs)
    {o : Obj} (ho : o ∈ objs) (hl : Live s objs o) (hfr : Frame t t1)
    (hby : ∀ k, k ≠ o.off + 8 → byteAt t1 k = byteAt t k) (hself : byteAt t1 (o.off + 8) = 1) :
    PInv s t1 objs ∧ (∀ o' ∈ objs, Marked t o' → Marked t1 o') ∧
      (∀ o' ∈ objs, Marked t1 o' → o' = o ∨ Marked t o') ∧
      Touches objs (fun o' => o' = o) t t1 := by
  have hc := hwf.2.1
  have hcases : ∀ o' ∈ objs, o' = o ∨ o'.off + 8 ≠ o.off + 8 := by
    intro o' ho'
    by_cases heq : o'.off = o.off
    · exact Or.inl (hc.off_inj ho' ho heq)
    · exact Or.inr (by omega)
  have hmono : ∀ o' ∈ objs, Marked t o' → Marked t1 o' := by
    intro o' ho' hm
    rcases hcases o' ho' with rfl | hne
    · exact hself
    · unfold Marked; rw [hby _ hne]; exact hm
  refine ⟨⟨h.frame.trans hfr, ?_, ?_, ?_,
    fun hs => @store8_small _ _ (o.off + 8) 1 hby (by rw [hself]) (h.small hs)⟩, hmono, ?_, ?_⟩
  · intro j hj
    rw [hby j (hj o ho).1]
    apply h.bytes
    intro o' ho'
    exact ⟨(hj o' ho').1, fun hm => (hj o' ho').2 (hmono o' ho' hm)⟩
  · intro o' ho'
    rcases hcases o' ho' with rfl | hne
    · exact Or.inr hself
    · rw [hby _ hne]; exact h.marks o' ho'
  · intro o' ho' hm
    rcases hcases o' ho' with rfl | hne
    · exact hl
    · unfold Marked at hm; rw [hby _ hne] at hm; exact h.sound o' ho' hm
  · intro o' ho' hm
    rcases hcases o' ho' with rfl | hne
    · exact Or.inl rfl
    · right; unfold Marked at hm; rw [hby _ hne] at hm; exact hm
  · intro j hj
    exact hby j (hj o ho rfl).1

theorem changePointers_spec (s : State) (objs : List Obj) (hwf : WF s objs) :
    ∀ (fuel : Nat) (t : State) (a : Int), PInv s t objs →
      (a = 0 ∨ ∃ o ∈ objs, a = s.heap + o.off ∧ Live s objs o) → unmarkedCount t objs < fuel →
      ∃ t', changePointers fuel t a = .ok t' ∧ PPost s objs t a t' := by
  have hc := hwf.2.1
  have hlen := hwf.len_eq
  have hbase := hwf.1
  intro fuel
  induction fuel with
  | zero => intro t a _ _ h; omega
  | succ fuel ih =>
    intro t a ht ha hcnt
    rcases ha with rfl | ⟨o, ho, rfl, hlive⟩
    · refine ⟨t, ?_, ht, rfl, fun _ _ h => h, ?_, fun _ _ h1 h2 => absurd h2 h1,
        Touches.touches_refl _ _ _⟩
      · unfold changePointers; rw [if_pos rfl]
      · intro o ho h0
        have := hbase.1
        omega
    · have hobj := hc.objAt o ho
      have hbd := (hc.bounds.2 o ho).2
      have h24 := hobj.2.2.2
      have hne : s.heap + (o.off : Int) ≠ 0 := by have := hbase.1; omega
      have hld : load8 t (s.heap + o.off + 8) = .ok (byteAt t (o.off + 8)) :=
        load8_at t _ (o.off + 8) (by rw [ht.frame.heap]; omega) (by rw [ht.frame.len]; omega)
      by_cases hm : byteAt t (o.off + 8) = 1
      · refine ⟨t, ?_, ht, rfl, fun _ _ h => h, ?_, fun _ _ h1 h2 => absurd h2 h1,
          Touches.touches_refl _ _ _⟩
        · unfold changePointers; rw [if_neg hne, hld, ok_bind, if_pos hm]
        · intro o' ho' heq
          have : o' = o := hc.off_inj ho' ho (by omega)
          subst this
          exact hm
      · obtain ⟨t1, hs1, hf1, hv1, hby1, hself0⟩ :=
          store8_spec t (s.heap + o.off + 8) 1 (o.off + 8) (by rw [ht.frame.heap]; omega)
            (by rw [ht.frame.len]; omega)
        have hself1 : byteAt t1 (o.off + 8) = 1 := by rw [hself0]
        obtain ⟨hinv1, hmono1, hback, htch1⟩ := ht.set_mark hwf ho hlive hf1 hby1 hself1
        have hcnt1 : unmarkedCount t1 objs < fuel := by
          have := unmarkedCount_lt hmono1 o ho hm hself1
          omega
        have hfields1 : ∀ j f, 0 ≤ j → o.cd.field_offsets[j]? = some f →
            fieldVal t1 o f = fieldVal s o f := by
          intro j f _ hf
          have hfj : f ∈ o.cd.field_offsets := List.mem_iff_getElem?.mpr ⟨j, hf⟩
          have hfb := hobj.field_bounds hfj
          rw [← ht.pinv_field_eq hc ho hm f hfj]
          unfold fieldVal
          rw [word64_congr t t1 (o.off + f.toNat) (fun k hk => hby1 _ (by omega))]
        obtain ⟨t', hm', hinv', hv', hmono', hnew', hrest', htch'⟩ :=
          changeFields_spec s objs hwf fuel ih o ho hlive o.cd.field_offsets.length 0 t1
            (by omega) hinv1 hself1 hfields1 hcnt1
        refine ⟨t', ?_, hinv', by rw [hv', hv1], fun o' ho' h => hmono' o' ho' (hmono1 o' ho' h),
          ?_, ?_, ?_⟩
        · unfold changePointers
          rw [if_neg hne, hld, ok_bind, if_neg hm, if_neg (by rw [ht.frame.heap]; omega),
              if_neg (by rw [ht.frame.heap, ht.frame.heapSize]; have := hbase.2.2.1; omega)]
          rw [hs1, ok_bind]
          have hcl : getClass t1 (s.heap + o.off) = .ok o.cd := hinv1.pinv_getClass_eq hc hlen.1 ho
          rw [hcl, ok_bind]
          have hnf : o.cd.num_fields.toNat = o.cd.field_offsets.length := by
            rw [hobj.2.1.2.2.2.1]; simp
          rw [hnf]
          exact hm'
        · intro o' ho' heq
          have : o' = o := hc.off_inj ho' ho (by omega)
          subst this
          exact hmono' _ ho' hself1
        · intro o' ho' h1 h2
          by_cases hm1 : Marked t1 o'
          · rcases hback o' ho' hm1 with rfl | hold
            · intro f hf o'' ho'' heq
              obtain ⟨j, hj⟩ := List.mem_iff_getElem?.mp hf
              exact hrest' j f (by omega) hj o'' ho'' heq
            · exact absurd hold h1
          · exact hnew' o' ho' hm1 h2
        · have a1 : Touches objs (fun o' => ¬ Marked t o') t t1 :=
            htch1.mono (fun o' _ h => by rw [h]; exact hm)
          have a2 : Touches objs (fun o' => ¬ Marked t o') t1 t' :=
            htch'.mono (fun o' ho' h => by
              rcases h with h | h
              · rw [h]; exact hm
              · exact fun hmt => h (hmono1 o' ho' hmt))
          exact a1.touches_trans a2

theorem rootCells_inj (s : State) (hd : DistinctRoots s) {i j : Nat}
    (hi : i < s._rp.toNat) (hj : j < s._rp.toNat) (hne : i ≠ j) {c : Nat}
    (hci : s._roots[i]? = some c) : s._roots[j]? ≠ some c := by
  unfold DistinctRoots rootCells at hd
  have h := List.nodup_iff_getElem?_ne_getElem?.mp hd
  intro hcj
  have hjl : j < s._roots.length := (List.getElem?_eq_some_iff.mp hcj).1
  have hil : i < s._roots.length := (List.getElem?_eq_some_iff.mp hci).1
  have hl : ∀ k, k < s._rp.toNat → k < s._roots.length → k < (s._roots.take s._rp.toNat).length := by
    intro k h1 h2
    rw [List.length_take]
    omega
  rcases Nat.lt_or_gt_of_ne hne with hlt | hgt
  · have := h i j hlt (hl j hj hjl)
    rw [List.getElem?_take_of_lt hi, List.getElem?_take_of_lt hj, hci, hcj] at this
    exact this rfl
  · have := h j i hgt (hl i hi hil)
    rw [List.getElem?_take_of_lt hi, List.getElem?_take_of_lt hj, hci, hcj] at this
    exact this rfl

theorem PInv.pinv_setVars {s t : State} {objs : List Obj} (h : PInv s t objs) (v : List Int) :
    PInv s { t with vars := v } objs :=
  ⟨h.frame.trans (Frame.setVars t v), h.bytes, h.marks, h.sound, h.small⟩

theorem writeVar_eq (s : State) (c : Nat) (v : Int) (h : c < s.vars.length) :
    writeVar s c v = .ok { s with vars := s.vars.set c v } := by
  unfold writeVar; rw [if_pos h]

theorem changeRoots_loop (s : State) (objs : List Obj) (hwf : WF s objs) (hd : DistinctRoots s)
    (fuel : Nat) (hfuel : objs.length < fuel) :
    ∀ (is : List Nat) (t : State), (∀ i ∈ is, i < s._rp.toNat) → is.Nodup → PInv s t objs →
      Closed s t objs → (∀ i ∈ is, ∀ c, s._roots[i]? = some c → t.vars[c]? = s.vars[c]?) →
      ∃ t', changeRoots fuel is t = .ok t' ∧ PInv s t' objs ∧ Closed s t' objs ∧
        (∀ o ∈ objs, Marked t o → Marked t' o) ∧
        (∀ i ∈ is, ∀ c v, s._roots[i]? = some c → s.vars[c]? = some v → ∀ o ∈ objs,
          v = s.heap + o.off → Marked t' o) ∧
        t'.vars.length = t.vars.length ∧
        (∀ i ∈ is, ∀ c v, s._roots[i]? = some c → s.vars[c]? = some v →
          (v = 0 → t'.vars[c]? = some 0) ∧
          (∀ o ∈ objs, v = s.heap + o.off →
            t'.vars[c]? = some ((word64 s (o.off + 16) : Nat) : Int))) ∧
        (∀ c, (∀ i ∈ is, s._roots[i]? ≠ some c) → t'.vars[c]? = t.vars[c]?) := by
  have hch := hwf.2.1
  have hlen := hwf.len_eq.1
  intro is
  induction is with
  | nil =>
    intro t _ _ ht hcl _
    exact ⟨t, rfl, ht, hcl, fun _ _ h => h, fun i hi => by simp at hi, rfl,
      fun i hi => by simp at hi, fun _ _ => rfl⟩
  | cons i is ih =>
    intro t his hnd ht hcl hun
    have hi := his i (List.mem_cons_self _ _)
    obtain ⟨hrp, hrl, hrv⟩ := hwf.2.2.2
    obtain ⟨c, hc, hcm⟩ := rootCell_of_index s i hi hrl
    obtain ⟨v, hv, hvo⟩ := hrv c hcm
    have hvt : t.vars[c]? = some v := by rw [hun i (List.mem_cons_self _ _) c hc]; exact hv
    have hnd' := List.nodup_cons.mp hnd
    have hother : ∀ j ∈ is, s._roots[j]? ≠ some c := by
      intro j hj
      exact rootCells_inj s hd hi (his j (List.mem_cons_of_mem _ hj))
        (fun h => hnd'.1 (h ▸ hj)) hc
    by_cases h0 : v = 0
    · obtain ⟨t', hm', hinv', hcl', hmono', hrest', hlen', hval', hoth'⟩ :=
        ih t (fun j hj => his j (List.mem_cons_of_mem _ hj)) hnd'.2 ht hcl
          (fun j hj c' hc' => hun j (List.mem_cons_of_mem _ hj) c' hc')
      refine ⟨t', ?_, hinv', hcl', hmono', ?_, hlen', ?_, ?_⟩
      · unfold changeRoots
        rw [rootAt_eq t i c (by rw [ht.frame.roots]; exact hc), ok_bind,
            readVar_eq t c v hvt, ok_bind, if_pos h0]
        exact hm'
      · intro j hj c' v' hc' hv' o ho heq
        rcases List.mem_cons.mp hj with rfl | hjm
        · rw [hc] at hc'
          have e := Option.some.inj hc'
          subst e
          rw [hv] at hv'
          have e := Option.some.inj hv'
          have := hwf.1.1
          omega
        · exact hrest' j hjm c' v' hc' hv' o ho heq
      · intro j hj c' v' hc' hv'
        rcases List.mem_cons.mp hj with rfl | hjm
        · rw [hc] at hc'
          have e := Option.some.inj hc'
          subst e
          rw [hv] at hv'
          have e := Option.some.inj hv'
          subst e
          constructor
          · intro _
            rw [hoth' c hother, hvt, h0]
          · intro o ho heq
            have := hwf.1.1
            omega
        · exact hval' j hjm c' v' hc' hv'
      · intro c' hc'
        exact hoth' c' (fun j hj => hc' j (List.mem_cons_of_mem _ hj))
    · obtain ⟨o, ho, heq⟩ : IsObjAddr s objs v := by
        rcases hvo with h | h
        · exact absurd h h0
        · exact h
      have hlive : Live s objs o := by
        unfold Live
        rw [← heq]
        exact Reach.root c v hcm hv h0
      obtain ⟨t1, hm1, hinv1, hv1, hmono1, htgt1, hnew1, _⟩ :=
        changePointers_spec s objs hwf fuel t v ht (Or.inr ⟨o, ho, heq, hlive⟩)
          (Nat.lt_of_le_of_lt (unmarkedCount_le_length t objs) hfuel)
      have hcl1 : Closed s t1 objs := by
        intro o ho hm
        by_cases hold : Marked t o
        · intro f hf o' ho' heq
          exact hmono1 o' ho' (hcl o ho hold f hf o' ho' heq)
        · exact hnew1 o ho hold hm
      have hvt1 : t1.vars[c]? = some v := by rw [hv1]; exact hvt
      have hbd := (hch.bounds.2 o ho).2
      have h24 := (hch.objAt o ho).2.2.2
      have hld : load64 t1 (v + 16) = .ok ((word64 s (o.off + 16) : Nat) : Int) := by
        rw [load64_at t1 _ (o.off + 16) (by rw [hinv1.frame.heap]; omega)
          (by rw [hinv1.frame.len]; omega), hinv1.fwd_eq hch ho]
      have hcl2 : c < t1.vars.length := (List.getElem?_eq_some_iff.mp hvt1).1
      have hinv2 := hinv1.pinv_setVars (t1.vars.set c ((word64 s (o.off + 16) : Nat) : Int))
      obtain ⟨t', hm', hinv', hcl', hmono', hrest', hlen', hval', hoth'⟩ :=
        ih { t1 with vars := t1.vars.set c ((word64 s (o.off + 16) : Nat) : Int) }
          (fun j hj => his j (List.mem_cons_of_mem _ hj)) hnd'.2 hinv2 hcl1
          (fun j hj c' hc' => by
            have hne : c ≠ c' := fun h => hother j hj (h ▸ hc')
            show (t1.vars.set c _)[c']? = _
            rw [List.getElem?_set_ne hne, hv1]
            exact hun j (List.mem_cons_of_mem _ hj) c' hc')
      refine ⟨t', ?_, hinv', hcl', fun o ho h => hmono' o ho (hmono1 o ho h), ?_, ?_, ?_, ?_⟩
      · unfold changeRoots
        rw [rootAt_eq t i c (by rw [ht.frame.roots]; exact hc), ok_bind,
            readVar_eq t c v hvt, ok_bind, if_neg h0, hm1, ok_bind, readVar_eq t1 c v hvt1, ok_bind,
            hld, ok_bind, writeVar_eq t1 c _ hcl2, ok_bind]
        exact hm'
      · intro j hj c' v' hc' hv' o' ho' heq'
        rcases List.mem_cons.mp hj with rfl | hjm
        · rw [hc] at hc'
          have e := Option.some.inj hc'
          subst e
          rw [hv] at hv'
          have e := Option.some.inj hv'
          subst e
          exact hmono' o' ho' (htgt1 o' ho' heq')
        · exact hrest' j hjm c' v' hc' hv' o' ho' heq'
      · rw [hlen']
        show (t1.vars.set c _).length = _
        rw [List.length_set, hv1]
      · intro j hj c' v' hc' hv'
        rcases List.mem_cons.mp hj with rfl | hjm
        · rw [hc] at hc'
          have e := Option.some.inj hc'
          subst e
          rw [hv] at hv'
          have e := Option.some.inj hv'
          subst e
          constructor
          · intro hz; exact absurd hz h0
          · intro o' ho' heq'
            have : o' = o := hch.off_inj ho' ho (by omega)
            subst this
            rw [hoth' c hother]
            show (t1.vars.set c _)[c]? = _
            rw [List.getElem?_set_self hcl2]
        · exact hval' j hjm c' v' hc' hv'
      · intro c' hc'
        rw [hoth' c' (fun j hj => hc' j (List.mem_cons_of_mem _ hj))]
        have hne : c ≠ c' := fun h => hc' i (List.mem_cons_self _ _) (h ▸ hc)
        show (t1.vars.set c _)[c']? = _
        rw [List.getElem?_set_ne hne, hv1]

theorem isMarked_iff (s : State) (o : Obj) : isMarked s o = true ↔ Marked s o := by
  unfold isMarked Marked
  simp only [decide_eq_true_eq]

theorem bytes_move (m m' : List Nat) : ∀ (n j d : Nat),
    (∀ k, k < n → m'.getD (d + k) 0 = m.getD (j + k) 0) → bytes m' d n = bytes m j n := by
  intro n
  induction n with
  | zero => intro j d _; rfl
  | succ n ih =>
    intro j d h
    simp only [bytes]
    have h0 := h 0 (by omega)
    rw [Nat.add_zero, Nat.add_zero] at h0
    rw [h0, ih (j + 1) (d + 1) (fun k hk => by
      have := h (k + 1) (by omega)
      rwa [show j + (k + 1) = j + 1 + k by omega, show d + (k + 1) = d + 1 + k by omega] at this)]

theorem getClass_move {s t : State} (h : Frame s t) (j d : Nat) (hj : j + 8 ≤ s.mem.length)
    (hd : d + 8 ≤ s.mem.length) (hb : ∀ k, k < 8 → byteAt t (d + k) = byteAt s (j + k)) :
    getClass t (t.heap + d) = getClass s (s.heap + j) := by
  rw [getClass_at t _ d rfl (by rw [h.len]; exact hd), getClass_at s _ j rfl hj, classAt_frame h]
  unfold word64
  rw [bytes_move s.mem t.mem 8 j d hb]

theorem stepOf_move {s t : State} (h : Frame s t) (j d : Nat) (n : String)
    (hj : j + 8 ≤ s.mem.length) (hd : d + 8 ≤ s.mem.length)
    (hj' : n = "String" → j + 28 ≤ s.mem.length) (hd' : n = "String" → d + 28 ≤ s.mem.length)
    (hb : ∀ k, k < 8 → byteAt t (d + k) = byteAt s (j + k))
    (hl : n = "String" → ∀ k, k < 4 → byteAt t (d + 24 + k) = byteAt s (j + 24 + k)) :
    stepOf t (t.heap + d) n = stepOf s (s.heap + j) n := by
  unfold stepOf
  by_cases hn : n = "String"
  · rw [if_pos hn, if_pos hn]
    rw [load32_at t _ (d + 24) (by omega) (by rw [h.len]; have := hd' hn; omega),
        load32_at s _ (j + 24) (by omega) (by have := hj' hn; omega)]
    rw [bytes_move s.mem t.mem 4 (j + 24) (d + 24) (hl hn)]
  · rw [if_neg hn, if_neg hn, getClass_move h j d hj hd hb]

/-- An object whose class word and length word have been copied to offset `d`
is an object at `d`. -/
theorem ObjAt.move {s t : State} {o : Obj} (ho : ObjAt s o) (h : Frame s t) (d : Nat)
    (hin : o.off + o.step ≤ s.mem.length) (hdn : d + o.step ≤ s.mem.length)
    (hb : ∀ k, k < 8 → byteAt t (d + k) = byteAt s (o.off + k))
    (hl : o.cd.name = some "String" → ∀ k, k < 4 → byteAt t (d + 24 + k) = byteAt s (o.off + 24 + k)) :
    ObjAt t { o with off := d } := by
  obtain ⟨hc, hok, ⟨n, hn, hs, h32⟩, h24⟩ := ho
  refine ⟨?_, hok, ⟨n, hn, ?_, h32⟩, h24⟩
  · show getClass t (t.heap + d) = _
    rw [getClass_move h o.off d (by omega) (by omega) hb]; exact hc
  · show stepOf t (t.heap + d) n = _
    rw [stepOf_move h o.off d n (by omega) (by omega) (fun hs' => by have := h32 hs'; omega)
        (fun hs' => by have := h32 hs'; omega) hb (fun hs' => hl (by rw [hn, hs']))]
    exact hs

/-- Effect of memcpy between two ranges of the heap block. -/
theorem memcpy_spec (s : State) (dst src n : Int) (d j k : Nat) (hdst : dst = s.heap + d)
    (hsrc : src = s.heap + j) (hn : n = k) (hj : j + k ≤ s.mem.length) (hd : d + k ≤ s.mem.length) :
    ∃ t, memcpy s dst src n = .ok t ∧ Frame s t ∧ t.vars = s.vars ∧
      (∀ i, i < d ∨ d + k ≤ i → byteAt t i = byteAt s i) ∧
      (Small s → ∀ i, i < k → byteAt t (d + i) = byteAt s (j + i)) ∧
      (Small s → Small t) := by
  have hbl : (bytes s.mem j k).length = k := bytes_length _ _ _
  refine ⟨{ s with mem := splice s.mem d (bytes s.mem j k) }, ?_,
    Frame.setMem s _ (length_splice _ _ _), rfl, ?_, ?_, ?_⟩
  · unfold memcpy
    rw [if_neg (by omega), hn, Int.toNat_ofNat, loadBytes_at s k src j hsrc hj, ok_bind]
    exact storeBytes_at _ s dst d hdst (by rw [hbl]; exact hd)
  · intro i hi
    exact getD_splice_out _ _ _ _ (by rw [hbl]; exact hi)
  · intro hs i hi
    unfold byteAt
    simp only
    rw [getD_splice_in _ _ _ _ (by rw [hbl]; exact hd) (by rw [hbl]; exact hi), bytes_getD _ _ _ _ hi]
    exact Nat.mod_eq_of_lt (hs (j + i))
  · intro hs i
    exact splice_small _ _ _ (by rw [hbl]; exact hd) hs i

theorem footprints_nil : footprints [] = 0 := rfl

theorem footprints_cons (o : Obj) (l : List Obj) : footprints (o :: l) = o.step + footprints l := by
  unfold footprints
  simp

theorem moved_header {d i k : Nat} (h : d = i ∨ d + 24 ≤ i) (hk : k < 8) :
    d + k ≠ i + 8 ∧ (d + k < i + 16 ∨ i + 16 + 8 ≤ d + k) := by omega

theorem moved_length {d i k : Nat} (h : d = i ∨ d + 24 ≤ i) (hk : k < 4) :
    d + 24 + k ≠ i + 8 ∧ (d + 24 + k < i + 16 ∨ i + 16 + 8 ≤ d + 24 + k) := by omega

theorem moveObjectsLoop_spec : ∀ (rest : List Obj) (t : State) (i d fuel : Nat) (pre : List Obj),
    Base t → Small t → Chain t i t.nextFree.toNat rest → rest.length ≤ fuel →
    (d = i ∨ d + 24 ≤ i) → Chain t 0 d pre → Fwd t (fun o => Marked t o) rest d →
    ∃ u, moveObjectsLoop fuel t (i : Int) (d : Int) =
        .ok (u, ((d + footprints (rest.filter (isMarked t)) : Nat) : Int)) ∧
      Frame t u ∧ u.vars = t.vars ∧
      Chain u 0 (d + footprints (rest.filter (isMarked t))) (pre ++ pack d (rest.filter (isMarked t))) := by
  intro rest
  induction rest with
  | nil =>
    intro t i d fuel pre hb _ hc _ _ hpre _
    simp only [Chain] at hc
    have hnf : ¬ ((i : Int) < t.nextFree) := by
      have := hb.2.2.2.2.1
      omega
    refine ⟨t, ?_, Frame.frame_refl t, rfl, ?_⟩
    · cases fuel with
      | zero => unfold moveObjectsLoop; rw [if_neg hnf]; simp [footprints_nil]
      | succ fuel => unfold moveObjectsLoop; rw [if_neg hnf]; simp [footprints_nil]
    · simp only [List.filter_nil, footprints_nil, pack, List.append_nil, Nat.add_zero]
      exact hpre
  | cons o rest ih =>
    intro t i d fuel pre hb hsm hc hfuel hdi hpre hfwd
    have hbd := hc.bounds
    have hbo := hbd.2 o (List.mem_cons_self _ _)
    obtain ⟨hoi, hobj, hrest⟩ := hc
    have hobj' := hobj
    obtain ⟨hcls, hcok, ⟨n, hn, hstep, h32⟩, h24⟩ := hobj
    obtain ⟨hheap, hptr, hlen, hsz, hnf0, hnf1⟩ := hb
    have hb : Base t := ⟨hheap, hptr, hlen, hsz, hnf0, hnf1⟩
    have he : t.nextFree.toNat ≤ t.mem.length := by omega
    have hrb := hrest.bounds.2
    have hpb := hpre.bounds.2
    cases fuel with
    | zero => simp at hfuel
    | succ fuel =>
      simp only [List.length_cons] at hfuel
      subst hoi
      have hlt : (o.off : Int) < t.nextFree := by omega
      have hne : t.heap + (o.off : Int) ≠ 0 := by omega
      have hsum : o.off + o.step < 2147483648 := by omega
      have hdle : d ≤ o.off := by omega
      have hsum2 : d + o.step < 2147483648 := Nat.lt_of_le_of_lt (Nat.add_le_add_right hdle _) hsum
      have hin : o.off + o.step ≤ t.mem.length := by omega
      by_cases hm : byteAt t (o.off + 8) = 1
      · -- the object is moved
        have him : isMarked t o = true := (isMarked_iff t o).mpr hm
        obtain ⟨hfw, hfwd'⟩ := hfwd.1 hm
        obtain ⟨t1, hs1, hf1, hv1, hby1, hcp1, hsm1⟩ :=
          memcpy_spec t (t.heap + d) (t.heap + o.off) (o.step : Int) d o.off o.step rfl rfl rfl
            hin (by omega)
        obtain ⟨t2, hs2, hf2, hv2, hby2, hself2⟩ :=
          store8_spec t1 (t.heap + o.off + 8) 0 (o.off + 8) (by rw [hf1.heap]; omega)
            (by rw [hf1.len]; omega)
        obtain ⟨t3, hs3, hf3, hv3, hby3, _⟩ :=
          store64_spec t2 (t.heap + o.off + 16) 0 (o.off + 16) (by rw [hf2.heap, hf1.heap]; omega)
            (by rw [hf2.len, hf1.len]; omega)
        have hf13 : Frame t t3 := (hf1.trans hf2).trans hf3
        have hb3 : Base t3 := Base.base_frame hf13 hb
        have hsm3 : Small t3 :=
          @store64_small _ _ _ _ (o.off + 16) hs3 (by rw [hf2.heap, hf1.heap]; omega)
            (by rw [hf2.len, hf1.len]; omega)
            (@store8_small _ _ (o.off + 8) 0 hby2 hself2 (hsm1 hsm))
        have hlow : ∀ j, j < d → byteAt t3 j = byteAt t j := by
          intro j hj
          rw [hby3 j (by omega), hby2 j (by omega), hby1 j (by omega)]
        have hhigh : ∀ j, o.off + o.step ≤ j → byteAt t3 j = byteAt t j := by
          intro j hj
          rw [hby3 j (by omega), hby2 j (by omega), hby1 j (by omega)]
        have hcb : ∀ k, k < 8 → byteAt t3 (d + k) = byteAt t (o.off + k) := by
          intro k hk
          have := moved_header hdi hk
          rw [hby3 _ this.2, hby2 _ this.1, hcp1 hsm k (by omega)]
        have hlb : ∀ k, k < 4 → 32 ≤ o.step → byteAt t3 (d + 24 + k) = byteAt t (o.off + 24 + k) := by
          intro k hk h32'
          have := moved_length hdi hk
          rw [hby3 _ this.2, hby2 _ this.1, Nat.add_assoc, hcp1 hsm (24 + k) (by omega), Nat.add_assoc]
        have hobj3 : ObjAt t3 { o with off := d } :=
          hobj'.move hf13 d hin (by omega) hcb
            (fun hs k hk => hlb k hk (h32 (by rw [hn] at hs; exact Option.some.inj hs)))
        have hpre3 : Chain t3 0 d pre := by
          apply hpre.chain_frame hf13 (by omega)
          · intro o' ho' k hk
            have := hpb o' ho'
            have := (hpre.objAt o' ho').2.2.2
            exact hlow _ (by omega)
          · intro o' ho' hs k hk
            have := hpb o' ho'
            obtain ⟨_, _, ⟨n', hn', _, h32'⟩, _⟩ := hpre.objAt o' ho'
            have := h32' (by rw [hn'] at hs; exact Option.some.inj hs)
            exact hlow _ (by omega)
        have hpre3' : Chain t3 0 (d + o.step) (pre ++ [{ o with off := d }]) :=
          hpre3.append ⟨rfl, hobj3, rfl⟩
        have hc3 : Chain t3 (o.off + o.step) t3.nextFree.toNat rest := by
          rw [hf13.nextFree]
          apply hrest.chain_frame hf13 he
          · intro o' ho' k hk
            have := hrb o' ho'
            exact hhigh _ (by omega)
          · intro o' ho' _ k hk
            have := hrb o' ho'
            exact hhigh _ (by omega)
        have hmk3 : ∀ o' ∈ rest, byteAt t3 (o'.off + 8) = byteAt t (o'.off + 8) := by
          intro o' ho'
          have := hrb o' ho'
          exact hhigh _ (by omega)
        have hfwd3 : Fwd t3 (fun o => Marked t3 o) rest (d + o.step) := by
          refine Fwd.congr ?_ ?_ hf13.heap hfwd'
          · intro o' ho'
            unfold Marked
            rw [hmk3 o' ho']
          · intro o' ho'
            have := hrb o' ho'
            exact word64_congr t t3 _ (fun k hk => hhigh _ (by omega))
        have hfil : rest.filter (isMarked t3) = rest.filter (isMarked t) := by
          apply List.filter_congr
          intro o' ho'
          unfold isMarked
          rw [hmk3 o' ho']
        obtain ⟨u, hu, hfu, hvu, hcu⟩ :=
          ih t3 (o.off + o.step) (d + o.step) fuel (pre ++ [{ o with off := d }]) hb3 hsm3 hc3
            (by omega) (by omega) hpre3' hfwd3
        rw [hfil] at hu hcu
        have hld : load64 t (t.heap + o.off + 16) = .ok (t.heap + d) := by
          rw [load64_at t _ (o.off + 16) (by omega) (by omega), hfw]
        refine ⟨u, ?_, hf13.trans hfu, by rw [hvu, hv3, hv2, hv1], ?_⟩
        · rw [List.filter_cons_of_pos him, footprints_cons, ← Nat.add_assoc]
          unfold moveObjectsLoop
          rw [if_pos hlt]
          simp only
          rw [if_neg hne, hcls, ok_bind]
          simp only [hn]
          rw [hstep, ok_bind, load8_at t _ (o.off + 8) (by omega) (by omega), ok_bind, if_pos hm]
          rw [hld, ok_bind, hs1, ok_bind, hs2, ok_bind, hs3, ok_bind,
            iadd_nat _ _ hsum, iadd_nat _ _ hsum2]
          exact hu
        · rw [List.filter_cons_of_pos him, footprints_cons, ← Nat.add_assoc]
          simp only [pack]
          rw [List.append_assoc] at hcu
          exact hcu
      · -- the object is skipped
        have him : ¬ (isMarked t o = true) := fun h => hm ((isMarked_iff t o).mp h)
        obtain ⟨_, hfwd'⟩ := hfwd.2 hm
        obtain ⟨u, hu, hfu, hvu, hcu⟩ :=
          ih t (o.off + o.step) d fuel pre hb hsm hrest (by omega) (by omega) hpre hfwd'
        refine ⟨u, ?_, hfu, hvu, ?_⟩
        · rw [List.filter_cons_of_neg him]
          unfold moveObjectsLoop
          rw [if_pos hlt]
          simp only
          rw [if_neg hne, hcls, ok_bind]
          simp only [hn]
          rw [hstep, ok_bind, load8_at t _ (o.off + 8) (by omega) (by omega), ok_bind, if_neg hm,
            iadd_nat _ _ hsum]
          exact hu
        · rw [List.filter_cons_of_neg him]
          exact hcu

theorem NotHeader.of_pos {s : State} {l : List Obj} {i e : Nat} (hc : Chain s i e l) {o : Obj}
    (ho : o ∈ l) (a : Nat) (ha : a < o.step) (ha8 : a ≠ 8) (ha16 : a < 16 ∨ 24 ≤ a) :
    NotHeader l (o.off + a) := by
  intro o' ho'
  have h24 := (hc.objAt o' ho').2.2.2
  rcases hc.disjoint ho ho' with heq | hd | hd
  · subst heq; omega
  · omega
  · omega

theorem load8_setNextFree (s : State) (x a : Int) :
    load8 { s with nextFree := x } a = load8 s a := rfl

theorem loadBytes_setNextFree (s : State) (x : Int) : ∀ (n : Nat) (a : Int),
    loadBytes { s with nextFree := x } a n = loadBytes s a n := by
  intro n
  induction n with
  | zero => intro a; rfl
  | succ n ih =>
    intro a
    unfold loadBytes
    rw [load8_setNextFree, ih]

theorem getClass_setNextFree (s : State) (x a : Int) :
    getClass { s with nextFree := x } a = getClass s a := by
  unfold getClass load64
  rw [loadBytes_setNextFree]
  rfl

theorem stepOf_setNextFree (s : State) (x a : Int) (n : String) :
    stepOf { s with nextFree := x } a n = stepOf s a n := by
  unfold stepOf load32
  rw [loadBytes_setNextFree, getClass_setNextFree]

theorem ObjAt.objAt_setNextFree {s : State} {o : Obj} (h : ObjAt s o) (x : Int) :
    ObjAt { s with nextFree := x } o := by
  obtain ⟨hc, hok, ⟨n, hn, hs, h32⟩, h24⟩ := h
  refine ⟨?_, hok, ⟨n, hn, ?_, h32⟩, h24⟩
  · rw [getClass_setNextFree]; exact hc
  · rw [stepOf_setNextFree]; exact hs

theorem Chain.setNextFree {s : State} (x : Int) : ∀ {l : List Obj} {i e : Nat}, Chain s i e l →
    Chain { s with nextFree := x } i e l := by
  intro l
  induction l with
  | nil => intro i e h; exact h
  | cons o rest ih =>
    intro i e h
    obtain ⟨h1, h2, h3⟩ := h
    exact ⟨h1, h2.objAt_setNextFree x, ih h3⟩

/-- Reachability only depends on the root cells, the client variables, the
heap address and the values of the managed fields. -/
theorem Reach.reach_congr {s t : State} {objs : List Obj} (hh : t.heap = s.heap)
    (hr : rootCells t = rootCells s) (hv : t.vars = s.vars)
    (hf : ∀ o ∈ objs, ∀ f ∈ o.cd.field_offsets, fieldVal t o f = fieldVal s o f) :
    ∀ a, Reach s objs a → Reach t objs a := by
  intro a h
  induction h with
  | root c v hcm hv' hne =>
    exact Reach.root c v (by rw [hr]; exact hcm) (by rw [hv]; exact hv') hne
  | field a o f _ ho ha hfm hne ih =>
    rw [← hf o ho f hfm]
    exact Reach.field a o f ih ho (by rw [hh]; exact ha) hfm (by rw [hf o ho f hfm]; exact hne)

theorem Live.live_congr {s t : State} {objs : List Obj} (hh : t.heap = s.heap)
    (hr : rootCells t = rootCells s) (hv : t.vars = s.vars)
    (hf : ∀ o ∈ objs, ∀ f ∈ o.cd.field_offsets, fieldVal t o f = fieldVal s o f) (o : Obj) :
    Live t objs o ↔ Live s objs o := by
  unfold Live
  constructor
  · intro h
    rw [hh] at h
    exact Reach.reach_congr hh.symm hr.symm hv.symm (fun o ho f hf' => (hf o ho f hf').symm) _ h
  · intro h
    rw [hh]
    exact Reach.reach_congr hh hr hv hf _ h

theorem rootCells_frame {s t : State} (h : Frame s t) : rootCells t = rootCells s := by
  unfold rootCells
  rw [h.rp, h.roots]

/-- The forwarding slot of a selected object holds the heap address plus the
footprints of the selected objects before it. -/
theorem Fwd.prefix_sum {u : State} {p : Obj → Bool} : ∀ {l : List Obj} {off : Nat},
    Fwd u (fun o => p o = true) l off → ∀ o ∈ l, p o = true →
    ∃ pre post, l.filter p = pre ++ o :: post ∧
      (word64 u (o.off + 16) : Int) = u.heap + ((off + footprints pre : Nat) : Int) := by
  intro l
  induction l with
  | nil => intro _ _ o ho; simp at ho
  | cons a rest ih =>
    intro off hf o ho hp
    by_cases hpa : p a = true
    · obtain ⟨h1, h2⟩ := hf.1 hpa
      rcases List.mem_cons.mp ho with rfl | hm
      · refine ⟨[], rest.filter p, by rw [List.filter_cons_of_pos hpa]; rfl, ?_⟩
        rw [h1, footprints_nil]; rfl
      · obtain ⟨pre, post, he, hw⟩ := ih h2 o hm hp
        refine ⟨a :: pre, post, by rw [List.filter_cons_of_pos hpa, he]; rfl, ?_⟩
        rw [hw, footprints_cons, Nat.add_assoc]
    · obtain ⟨_, h2⟩ := hf.2 hpa
      rcases List.mem_cons.mp ho with rfl | hm
      · exact absurd hp hpa
      · obtain ⟨pre, post, he, hw⟩ := ih h2 o hm hp
        exact ⟨pre, post, by rw [List.filter_cons_of_neg hpa, he], hw⟩

theorem footprints_filter_le (p : Obj → Bool) : ∀ (l : List Obj),
    footprints (l.filter p) ≤ footprints l := by
  intro l
  induction l with
  | nil => exact Nat.le_refl _
  | cons a rest ih =>
    by_cases hpa : p a = true
    · rw [List.filter_cons_of_pos hpa, footprints_cons, footprints_cons]; omega
    · rw [List.filter_cons_of_neg hpa, footprints_cons]; omega

theorem gc_spec (s : State) (objs : List Obj) (hwf : WF s objs)
    (hcl : ∀ o ∈ objs, byteAt s (o.off + 8) = 0) (hd : DistinctRoots s) (hsm : Small s) :
    ∃ t L, gc s = .ok t ∧ GcPost s objs t L := by
  have hc := hwf.2.1
  have hlen := hwf.len_eq.1
  obtain ⟨hrp, hrl, hrv⟩ := hwf.2.2.2
  have hfuel : objs.length < depthBudget s := by
    have := hc.length_le
    unfold depthBudget
    omega
  -- Phase M
  obtain ⟨s1, hm1, hinv1, hlive1, hbit1⟩ := markRoots_spec s objs hwf hcl
  have hb1 : Base s1 := Base.base_frame hinv1.frame hwf.1
  have hc1 : Chain s1 0 s1.nextFree.toNat objs := by
    rw [hinv1.frame.nextFree]; exact hinv1.chain hc hlen
  -- Phase F
  obtain ⟨s2, hm2, hf2, hv2, hby2, hfwd2, hmk2, hsm2⟩ :=
    setForwardingLoop_spec objs s1 0 0 s1.nextFree.toNat hb1 hc1
      (by have := hc1.length_le; omega) (Nat.le_refl _)
  simp only [Nat.cast_zero] at hm2
  have hf02 : Frame s s2 := hinv1.frame.trans hf2
  have hvars2 : s2.vars = s.vars := by rw [hv2, hinv1.vars]
  have hclean2 : ∀ o ∈ objs, byteAt s2 (o.off + 8) = 0 := by
    intro o ho
    by_cases hm : Marked s1 o
    · exact (hmk2 o ho).1 hm
    · rw [(hmk2 o ho).2 hm]
      rcases hbit1 o ho with h | h
      · exact h
      · exact absurd h hm
  have hbyte2 : ∀ o ∈ objs, ∀ a, a < o.step → a ≠ 8 → (a < 16 ∨ 24 ≤ a) →
      byteAt s2 (o.off + a) = byteAt s (o.off + a) := by
    intro o ho a ha ha8 ha16
    rw [hby2 _ (NotHeader.of_pos hc ho a ha ha8 ha16)]
    exact hinv1.byte_eq hc ho a ha ha8
  have hfield2 : ∀ o ∈ objs, ∀ f ∈ o.cd.field_offsets, fieldVal s2 o f = fieldVal s o f := by
    intro o ho f hf
    have hfb := (hc.objAt o ho).field_bounds hf
    unfold fieldVal
    rw [word64_congr s s2 (o.off + f.toNat) (fun k hk => by
      rw [Nat.add_assoc]
      exact hbyte2 o ho (f.toNat + k) (by omega) (by omega) (by omega))]
  have hc2 : Chain s2 0 s2.nextFree.toNat objs := by
    rw [hf02.nextFree]
    apply hc.chain_frame hf02 hlen
    · intro o ho k hk
      have := (hc.objAt o ho).2.2.2
      exact hbyte2 o ho k (by omega) (by omega) (by omega)
    · intro o ho hs k hk
      obtain ⟨_, _, ⟨n, hn, _, h32⟩, _⟩ := hc.objAt o ho
      have := h32 (by rw [hn] at hs; exact Option.some.inj hs)
      rw [Nat.add_assoc]
      exact hbyte2 o ho (24 + k) (by omega) (by omega) (by omega)
  have hwf2 : WF s2 objs := by
    refine ⟨Base.base_frame hf02 hwf.1, hc2, ?_, ?_, ?_, ?_⟩
    · intro o ho f hf
      rw [hfield2 o ho f hf]
      rcases hwf.2.2.1 o ho f hf with h | ⟨o', ho', he⟩
      · exact Or.inl h
      · exact Or.inr ⟨o', ho', by rw [hf02.heap]; exact he⟩
    · rw [hf02.rp]; exact hrp
    · rw [hf02.rp, hf02.roots]; exact hrl
    · intro c hcm
      rw [rootCells_frame hf02] at hcm
      obtain ⟨v, hv, hvo⟩ := hrv c hcm
      refine ⟨v, by rw [hvars2]; exact hv, ?_⟩
      rcases hvo with h | ⟨o', ho', he⟩
      · exact Or.inl h
      · exact Or.inr ⟨o', ho', by rw [hf02.heap]; exact he⟩
  have hd2 : DistinctRoots s2 := by
    unfold DistinctRoots
    rw [rootCells_frame hf02]
    exact hd
  have hlive2 : ∀ o, Live s2 objs o ↔ Live s objs o :=
    Live.live_congr hf02.heap (rootCells_frame hf02) hvars2 hfield2
  -- Phase P
  have hcl0 : Closed s2 s2 objs := by
    intro o ho hm
    unfold Marked at hm
    rw [hclean2 o ho] at hm
    omega
  obtain ⟨s3, hm3, hinv3, hcl3, _, hroots3, hlen3, hval3, hoth3⟩ :=
    changeRoots_loop s2 objs hwf2 hd2 (depthBudget s) hfuel (List.range s._rp.toNat) s2
      (fun i hi => by rw [hf02.rp]; exact List.mem_range.mp hi) (List.nodup_range _)
      (PInv.pinv_refl s2 objs hclean2) hcl0 (fun _ _ _ _ => rfl)
  have hmark3 : ∀ o ∈ objs, Marked s3 o ↔ Live s2 objs o := by
    intro o ho
    constructor
    · exact hinv3.sound o ho
    · intro hl
      unfold Live at hl
      have key : ∀ a, Reach s2 objs a → ∀ o ∈ objs, a = s2.heap + o.off → Marked s3 o := by
        intro a hr
        induction hr with
        | root c v hcm hv hne =>
          intro o ho heq
          obtain ⟨i, hi, hic⟩ := index_of_rootCell s2 c hcm
          exact hroots3 i (List.mem_range.mpr (by rw [← hf02.rp]; exact hi)) c v hic hv o ho heq
        | field a o' f _ ho' ha hf hne ih =>
          intro o ho heq
          exact hcl3 o' ho' (ih o' ho' ha) f hf o ho heq
      exact key _ hl o ho rfl
  -- Phase C
  have hb3 : Base s3 := Base.base_frame hinv3.frame hwf2.1
  have hc3 : Chain s3 0 s3.nextFree.toNat objs := by
    rw [hinv3.frame.nextFree]; exact hinv3.pinv_chain hc2 hwf2.len_eq.1
  have hsm3 : Small s3 := hinv3.small (hsm2 (hinv1.small hsm))
  have h13 : ∀ o ∈ objs, Marked s1 o ↔ Marked s3 o := by
    intro o ho
    rw [hlive1 o ho, hmark3 o ho, hlive2 o]
  have hfwd3 : Fwd s3 (fun o => Marked s3 o) objs 0 :=
    Fwd.congr h13 (fun o ho => hinv3.fwd_eq hc2 ho) hinv3.frame.heap hfwd2
  obtain ⟨u, hmu, hfu, hvu, hcu⟩ :=
    moveObjectsLoop_spec objs s3 0 0 s3.nextFree.toNat [] hb3 hsm3 hc3
      (by have := hc3.length_le; omega) (Or.inl rfl) (by simp [Chain]) hfwd3
  simp only [Nat.cast_zero, Nat.zero_add, List.nil_append] at hmu hcu
  have hf0u : Frame s u := (hf02.trans hinv3.frame).trans hfu
  refine ⟨{ u with nextFree := ((footprints (objs.filter (isMarked s3)) : Nat) : Int) },
    objs.filter (isMarked s3), ?_, ?_⟩
  · unfold gc
    rw [hm1, ok_bind]
    unfold setForwarding
    rw [hm2, ok_bind, hm3, ok_bind]
    unfold moveObjects
    rw [hmu, ok_bind]
    rfl
  · have hfil : objs.filter (isMarked s3) = objs.filter (isMarked s1) := by
      apply List.filter_congr
      intro o ho
      have := h13 o ho
      rw [← isMarked_iff, ← isMarked_iff] at this
      cases h1 : isMarked s1 o <;> cases h3 : isMarked s3 o <;> simp_all
    have hfwdB : Fwd s2 (fun o => isMarked s1 o = true) objs 0 :=
      Fwd.congr (fun o _ => (isMarked_iff s1 o).symm) (fun _ _ => rfl) rfl hfwd2
    refine ⟨hf0u.heap, hf0u.heapSize, hf0u.rp, hf0u.roots, hf0u.classes, hf0u.strClass, hf0u.ext,
      hf0u.len, List.filter_sublist _, ?_, rfl, hcu.setNextFree _, ?_, ?_⟩
    · intro o ho
      rw [List.mem_filter, isMarked_iff, hmark3 o ho, hlive2 o]
      exact ⟨fun h => h.2, fun h => ⟨ho, h⟩⟩
    · intro c hcm v hv
      obtain ⟨i, hi, hic⟩ := index_of_rootCell s c hcm
      have h := hval3 i (List.mem_range.mpr hi) c v (by rw [hf02.roots]; exact hic)
        (by rw [hvars2]; exact hv)
      have hvars : ∀ c' : Nat, u.vars[c']? = s3.vars[c']? := fun c' => by rw [hvu]
      constructor
      · intro h0
        show u.vars[c]? = _
        rw [hvars]
        exact h.1 h0
      · intro o ho heq
        have hlo : Live s objs o := by
          unfold Live
          rw [← heq]
          exact Reach.root c v hcm hv (by have := hwf.1.1; omega)
        have hmo : isMarked s1 o = true := (isMarked_iff s1 o).mpr ((hlive1 o ho).mpr hlo)
        obtain ⟨pre, post, he, hw⟩ := hfwdB.prefix_sum o ho hmo
        refine ⟨pre, post, by rw [hfil]; exact he, ?_⟩
        show u.vars[c]? = _
        rw [hvars, h.2 o ho (by rw [hf02.heap]; exact heq), hw, hf02.heap, Nat.zero_add]
    · intro c hcn
      show u.vars[c]? = _
      rw [hvu, hoth3 c (fun i hi hic => by
        obtain ⟨c', hc', hcm'⟩ := rootCell_of_index s i (List.mem_range.mp hi) hrl
        rw [hf02.roots, hc'] at hic
        exact hcn (Option.some.inj hic ▸ hcm')), hvars2]

theorem nullFields_spec (c : ClassDescriptor) (hok : ClassOK c) (j0 : Nat) :
    ∀ (k idx : Nat) (t : State), idx + k = c.field_offsets.length →
      getClass t (t.heap + j0) = .ok c → j0 + c.size.toNat ≤ t.mem.length →
      ∃ t', nullFields (t.heap + j0) k (idx : Int) t = .ok t' ∧ Frame t t' ∧ t'.vars = t.vars ∧
        (∀ j, j < j0 + 24 ∨ j0 + c.size.toNat ≤ j → byteAt t' j = byteAt t j) ∧
        (∀ i f, idx ≤ i → c.field_offsets[i]? = some f → word64 t' (j0 + f.toNat) = 0) ∧
        (∀ i f, i < idx → c.field_offsets[i]? = some f →
          word64 t' (j0 + f.toNat) = word64 t (j0 + f.toNat)) ∧
        (Small t → Small t') := by
  intro k
  induction k with
  | zero =>
    intro idx t hk hcls _
    refine ⟨t, ?_, Frame.frame_refl t, rfl, fun _ _ => rfl, ?_, fun _ _ _ _ => rfl, fun h => h⟩
    · unfold nullFields
      rw [hcls, ok_bind, if_neg (by rw [hok.2.2.2.1]; omega)]
    · intro i f hi hf
      have := (List.getElem?_eq_some_iff.mp hf).1
      omega
  | succ k ih =>
    intro idx t hk hcls hin
    have hidx : idx < c.field_offsets.length := by omega
    obtain ⟨fo, hget, hfm⟩ : ∃ fo, c.field_offsets[idx]? = some fo ∧ fo ∈ c.field_offsets :=
      ⟨_, List.getElem?_eq_getElem hidx, List.getElem_mem hidx⟩
    have hfb := hok.2.2.2.2.2.2.1 fo hfm
    have hsz := hok.2.1
    have hnext : idx + 1 < 2147483648 := by
      have h1 := hok.2.2.2.1
      have h2 := hok.2.2.2.2.1
      omega
    have hslot : j0 + fo.toNat + 8 ≤ t.mem.length := by omega
    obtain ⟨t1, hs1, hf1, hv1, hby1, hw1⟩ :=
      store64_spec t (fo + (t.heap + j0)) 0 (j0 + fo.toNat) (field_addr _ _ _ hfb.1) hslot
    have hcls1 : getClass t1 (t1.heap + j0) = .ok c := by
      rw [getClass_frame hf1 j0 (by omega) (fun k hk => hby1 _ (by omega))]
      exact hcls
    obtain ⟨t', hm', hf', hv', hby', hz', hp', hsm'⟩ :=
      ih (idx + 1) t1 (by omega) hcls1 (by rw [hf1.len]; exact hin)
    refine ⟨t', ?_, hf1.trans hf', by rw [hv', hv1], ?_, ?_, ?_, ?_⟩
    · unfold nullFields
      rw [hcls, ok_bind, if_pos (by rw [hok.2.2.2.1]; omega), fieldOffset_get _ _ _ hget, ok_bind,
        hs1, ok_bind, iadd_succ idx hnext]
      rw [hf1.heap] at hm'
      exact hm'
    · intro j hj
      rw [hby' j hj]
      exact hby1 j (by omega)
    · intro i f hi hf
      by_cases hii : i = idx
      · subst hii
        rw [hget] at hf
        have e := Option.some.inj hf
        subst e
        rw [hp' i fo (by omega) hget]
        have := hw1 (by omega) (by norm_num)
        omega
      · exact hz' i f (by omega) hf
    · intro i f hi hf
      rw [hp' i f (by omega) hf]
      have hfm' : f ∈ c.field_offsets := List.mem_iff_getElem?.mpr ⟨i, hf⟩
      have hfb' := hok.2.2.2.2.2.2.1 f hfm'
      have hdis := hok.slots_disjoint hget hf (by omega)
      have hdis' : fo.toNat + 8 ≤ f.toNat ∨ f.toNat + 8 ≤ fo.toNat := by omega
      exact word64_congr t t1 _ (fun k hk => hby1 _ (slot_bytes hdis' hk))
    · intro hs
      exact hsm' (@store64_small _ _ _ _ (j0 + fo.toNat) hs1 (field_addr _ _ _ hfb.1) hslot hs)

theorem allocObject_spec (s : State) (cls : Int) (c : ClassDescriptor) (j0 : Nat)
    (hnf : s.nextFree = j0) (hcls : classAt s cls = .ok c) (hok : ClassOK c)
    (hp0 : 0 ≤ cls) (hp1 : cls < 18446744073709551616)
    (hfit : j0 + c.size.toNat ≤ s.mem.length) (hlim : s.mem.length < 2147483648) :
    ∃ t, allocObject s cls c = .ok (t, s.heap + j0) ∧ Allocated s cls c j0 t := by
  have hsz := hok.2.1
  have hsz2 := hok.2.2.1
  obtain ⟨t2, hs2, hf2, hv2, hby2, hw2⟩ :=
    store64_spec { s with nextFree := iadd s.nextFree c.size } ((j0 : Int) + s.heap) cls j0
      (by show _ = s.heap + _; omega) (by show _ ≤ s.mem.length; omega)
  obtain ⟨t3, hs3, hf3, hv3, hby3, hw3⟩ :=
    store64_spec t2 ((j0 : Int) + s.heap + 16) 0 (j0 + 16)
      (by rw [hf2.heap]; show _ = s.heap + _; omega) (by rw [hf2.len]; show _ ≤ s.mem.length; omega)
  obtain ⟨t4, hs4, hf4, hv4, hby4, hself4⟩ :=
    store8_spec t3 ((j0 : Int) + s.heap + 8) 0 (j0 + 8)
      (by rw [hf3.heap, hf2.heap]; show _ = s.heap + _; omega)
      (by rw [hf3.len, hf2.len]; show _ < s.mem.length; omega)
  have hf24 : Frame { s with nextFree := iadd s.nextFree c.size } t4 := (hf2.trans hf3).trans hf4
  have hh4 : t4.heap = s.heap := hf24.heap
  have hl4 : t4.mem.length = s.mem.length := hf24.len
  have hw4 : (word64 t4 j0 : Int) = cls := by
    rw [word64_congr t3 t4 j0 (fun k hk => hby4 _ (by omega)),
      word64_congr t2 t3 j0 (fun k hk => hby3 _ (by omega))]
    exact hw2 hp0 hp1
  have hcls4 : getClass t4 (t4.heap + j0) = .ok c := by
    rw [getClass_at t4 _ j0 rfl (by omega), hw4, classAt_frame hf24]
    exact hcls
  obtain ⟨t5, hm5, hf5, hv5, hby5, hz5, _, hsm5⟩ :=
    nullFields_spec c hok j0 c.field_offsets.length 0 t4 (by omega) hcls4 (by omega)
  have hf25 := hf24.trans hf5
  refine ⟨t5, ?_, hf25.heap, hf25.heapSize, hf25.rp, hf25.roots, ?_, hf25.classes, hf25.strClass,
    hf25.ext, hf25.len, ?_, ?_, ?_, ?_, ?_, ?_, ?_, ?_⟩
  · unfold allocObject
    simp only []
    rw [← hnf] at hs2 hs3 hs4
    rw [hs2, ok_bind, hs3, ok_bind, hs4, ok_bind]
    have e : s.nextFree + s.heap = t4.heap + j0 := by rw [hh4]; omega
    rw [e, hcls4, ok_bind]
    have hnum : c.num_fields.toNat = c.field_offsets.length := by rw [hok.2.2.2.1]; simp
    rw [hnum]
    simp only [Nat.cast_zero] at hm5
    rw [hm5, ok_bind, hh4]
    rfl
  · rw [hv5, hv4, hv3, hv2]
  · rw [hf25.nextFree]
    show iadd s.nextFree c.size = _
    rw [hnf, iadd_eq _ _ (by omega) (by omega)]
  · intro j hj
    rw [hby5 j (by omega), hby4 j (by omega), hby3 j (by omega), hby2 j (by omega)]
    rfl
  · intro j hj
    rw [hby5 j (by omega), hby4 j (by omega), hby3 j (by omega), hby2 j (by omega)]
    rfl
  · rw [word64_congr t4 t5 j0 (fun k hk => hby5 _ (by omega))]
    exact hw4
  · rw [hby5 _ (by omega), hself4]
  · rw [word64_congr t4 t5 (j0 + 16) (fun k hk => hby5 _ (by omega)),
      word64_congr t3 t4 (j0 + 16) (fun k hk => hby4 _ (by omega))]
    have := hw3 (by omega) (by norm_num)
    omega
  · intro f hf
    obtain ⟨i, hi⟩ := List.mem_iff_getElem?.mp hf
    exact hz5 i f (by omega) hi
  · intro hs
    apply hsm5
    apply @store8_small _ _ (j0 + 8) 0 hby4 hself4
    apply @store64_small _ _ _ _ (j0 + 16) hs3 (by rw [hf2.heap]; show _ = s.heap + _; omega)
      (by rw [hf2.len]; show _ ≤ s.mem.length; omega)
    exact @store64_small _ _ _ _ j0 hs2 (by show _ = s.heap + _; omega)
      (by show _ ≤ s.mem.length; omega) hs

theorem wrap32_eq (v : Int) (h0 : -2147483648 ≤ v) (h1 : v < 2147483648) : wrap32 v = v := by
  unfold wrap32; omega

/-- Effect of an int store inside the heap block. -/
theorem store32_spec (s : State) (a v : Int) (j : Nat) (ha : a = s.heap + j) (hj : j + 4 ≤ s.mem.length)
    (h0 : 0 ≤ v) (h1 : v < 2147483648) :
    ∃ t, store32 s a v = .ok t ∧ Frame s t ∧ t.vars = s.vars ∧
      (∀ k, k < j ∨ j + 4 ≤ k → byteAt t k = byteAt s k) ∧
      bytes t.mem j 4 = toLE 4 v.toNat ∧
      (Small s → Small t) := by
  have hl : (toLE 4 (v % 4294967296).toNat).length = 4 := toLE_length _ _
  refine ⟨_, store32_at s a v j ha hj, Frame.setMem s _ (length_splice _ _ _), rfl, ?_, ?_, ?_⟩
  · intro k hk
    exact getD_splice_out _ _ _ _ (by rw [hl]; omega)
  · have := bytes_splice_same (toLE 4 (v % 4294967296).toNat) s.mem j (by rw [hl]; exact hj)
    rw [hl] at this
    simp only
    rw [this, toLE_map_mod]
    have e : (v % 4294967296).toNat = v.toNat := by omega
    rw [e]
  · intro hs k
    exact splice_small _ _ _ (by rw [hl]; exact hj) hs k

theorem load32_toLE (s : State) (a v : Int) (j : Nat) (ha : a = s.heap + j)
    (hj : j + 4 ≤ s.mem.length) (h0 : 0 ≤ v) (h1 : v < 2147483648)
    (hb : bytes s.mem j 4 = toLE 4 v.toNat) : load32 s a = .ok v := by
  rw [load32_at s a j ha hj, hb, fromLE_toLE]
  have h2 : (256 : Nat) ^ 4 = 4294967296 := by norm_num
  rw [h2]
  have e : ((v.toNat % 4294967296 : Nat) : Int) = v := by omega
  rw [e, wrap32_eq v (by omega) h1]

theorem string_size (n : Int) (h0 : 0 ≤ n) (h1 : n + 33 < 2147483648) :
    iadd (iadd String_class.size n) 1 = n + 33 := by
  show iadd (iadd 32 n) 1 = n + 33
  rw [iadd_eq 32 n (by omega) (by omega), iadd_eq _ 1 (by omega) (by omega)]
  omega

theorem string_need (nf n : Int) (hnf : 0 ≤ nf) (h0 : 0 ≤ n) (h1 : nf + n + 33 < 2147483648) :
    iadd (iadd (iadd nf String_class.size) n) 1 = nf + n + 33 := by
  show iadd (iadd (iadd nf 32) n) 1 = nf + n + 33
  rw [iadd_eq nf 32 (by omega) (by omega), iadd_eq _ n (by omega) (by omega),
    iadd_eq _ 1 (by omega) (by omega)]
  omega

theorem string_length (n : Int) (h0 : 0 ≤ n) (h1 : n + 33 < 2147483648) : iadd n 1 = n + 1 :=
  iadd_eq n 1 (by omega) (by omega)

theorem allocString_spec (s : State) (n : Int) (j0 : Nat) (hnf : s.nextFree = j0) (h0 : 0 ≤ n)
    (hp0 : 0 ≤ s.strClass) (hp1 : s.strClass < 18446744073709551616)
    (hfit : j0 + 33 + n.toNat ≤ s.mem.length) (hlim : s.mem.length < 2147483648) :
    ∃ t, allocString s n = .ok (t, s.heap + j0) ∧ AllocatedString s n j0 t := by
  have hn33 : n + 33 < 2147483648 := by omega
  obtain ⟨t2, hs2, hf2, hv2, hby2, hw2⟩ :=
    store64_spec { s with nextFree := iadd s.nextFree (iadd (iadd String_class.size n) 1) }
      ((j0 : Int) + s.heap) s.strClass j0
      (by show _ = s.heap + _; omega) (by show _ ≤ s.mem.length; omega)
  obtain ⟨t3, hs3, hf3, hv3, hby3, hw3, hsm3⟩ :=
    store32_spec t2 ((j0 : Int) + s.heap + 24) (n + 1) (j0 + 24)
      (by rw [hf2.heap]; show _ = s.heap + _; omega) (by rw [hf2.len]; show _ ≤ s.mem.length; omega)
      (by omega) (by omega)
  obtain ⟨t4, hs4, hf4, hv4, hby4, hw4⟩ :=
    store64_spec t3 ((j0 : Int) + s.heap + 16) 0 (j0 + 16)
      (by rw [hf3.heap, hf2.heap]; show _ = s.heap + _; omega)
      (by rw [hf3.len, hf2.len]; show _ ≤ s.mem.length; omega)
  obtain ⟨t5, hs5, hf5, hv5, hby5, hself5⟩ :=
    store8_spec t4 ((j0 : Int) + s.heap + 8) 0 (j0 + 8)
      (by rw [hf4.heap, hf3.heap, hf2.heap]; show _ = s.heap + _; omega)
      (by rw [hf4.len, hf3.len, hf2.len]; show _ < s.mem.length; omega)
  have hf25 : Frame { s with nextFree := iadd s.nextFree (iadd (iadd String_class.size n) 1) } t5 :=
    ((hf2.trans hf3).trans hf4).trans hf5
  have hh5 : t5.heap = s.heap := hf25.heap
  have hl5 : t5.mem.length = s.mem.length := hf25.len
  refine ⟨t5, ?_, hf25.heap, hf25.heapSize, hf25.rp, hf25.roots, ?_, hf25.classes, hf25.strClass,
    hf25.ext, hf25.len, ?_, ?_, ?_, ?_, ?_, ?_, ?_, ?_⟩
  · unfold allocString
    simp only []
    rw [← hnf] at hs2 hs3 hs4 hs5
    rw [string_length n h0 hn33, hs2, ok_bind, hs3, ok_bind, hs4, ok_bind, hs5, ok_bind]
    have e : s.nextFree + s.heap = s.heap + j0 := by omega
    rw [e]
    rfl
  · rw [hv5, hv4, hv3, hv2]
  · rw [hf25.nextFree]
    show iadd s.nextFree (iadd (iadd String_class.size n) 1) = _
    rw [string_size n h0 hn33, hnf, iadd_eq _ _ (by omega) (by omega)]
    show _ = (j0 : Int) + 32 + n + 1
    omega
  · intro j hj
    rw [hby5 j (by omega), hby4 j (by omega), hby3 j (by omega), hby2 j (by omega)]
    rfl
  · intro j hj
    rw [hby5 j (by omega), hby4 j (by omega), hby3 j (by omega), hby2 j (by omega)]
    rfl
  · rw [getClass_at t5 _ j0 rfl (by omega),
      word64_congr t4 t5 j0 (fun k hk => hby5 _ (by omega)),
      word64_congr t3 t4 j0 (fun k hk => hby4 _ (by omega)),
      word64_congr t2 t3 j0 (fun k hk => hby3 _ (by omega)), hw2 hp0 hp1]
    unfold classAt
    rw [hf25.strClass, if_pos rfl]
  · apply load32_toLE t5 _ (n + 1) (j0 + 24) (by omega) (by omega) (by omega) (by omega)
    rw [bytes_congr t4.mem t5.mem 4 (j0 + 24) (fun k hk => hby5 _ (by omega)),
      bytes_congr t3.mem t4.mem 4 (j0 + 24) (fun k hk => hby4 _ (by omega)), hw3]
  · rw [hself5]
  · have := hw4 (by omega) (by norm_num)
    rw [word64_congr t4 t5 (j0 + 16) (fun k hk => hby5 _ (by omega))]
    omega
  · intro hs
    apply @store8_small _ _ (j0 + 8) 0 hby5 hself5
    apply @store64_small _ _ _ _ (j0 + 16) hs4
      (by rw [hf3.heap, hf2.heap]; show _ = s.heap + _; omega)
      (by rw [hf3.len, hf2.len]; show _ ≤ s.mem.length; omega)
    apply hsm3
    exact @store64_small _ _ _ _ j0 hs2 (by show _ = s.heap + _; omega)
      (by show _ ≤ s.mem.length; omega) hs

set_option maxRecDepth 100000 in
/-- The heap sampleHeap is what the interface produces. -/
theorem sampleHeap_reached :
    (do
      let s ← gc_init (boot 1) 128 4096
      let s ← gc_add_root s 0
      let (s, _) ← gc_alloc_string s 0
      let (s, u) ← gc_alloc s 2000
      writeVar s 0 u) = .ok sampleHeap := by
  decide!

theorem classOK_String : ClassOK String_class :=
  ⟨⟨"String", rfl⟩, by decide, by decide, by decide, by decide, fun _ => rfl,
    fun f hf => by simp [String_class] at hf, List.Pairwise.nil⟩

theorem classOK_User : ClassOK User_class :=
  ⟨⟨"User", rfl⟩, by decide, by decide, by decide, by decide, fun h => by simp [User_class] at h,
    fun f hf => by simp [User_class] at hf; subst hf; decide, by simp [User_class]⟩

set_option maxRecDepth 100000 in
theorem sample_base : Base sampleHeap := by
  unfold Base
  decide!

set_option maxRecDepth 100000 in
theorem sample_chain : Chain sampleHeap 0 sampleHeap.nextFree.toNat sampleObjs := by
  refine ⟨rfl, ⟨by decide!, classOK_String, ⟨"String", rfl, by decide!, fun _ => by decide⟩, by decide⟩,
    rfl, ⟨by decide!, classOK_User, ⟨"User", rfl, by decide!, fun h => by simp at h⟩, by decide⟩, ?_⟩
  show 0 + 33 + 48 = (81 : Int).toNat
  decide

set_option maxRecDepth 100000 in
theorem sample_fields : FieldsOK sampleHeap sampleObjs := by
  unfold FieldsOK IsObjAddr
  decide!

set_option maxRecDepth 100000 in
theorem sample_roots : RootsOK sampleHeap sampleObjs := by
  refine ⟨by decide, by decide!, ?_⟩
  intro c hc
  have hc0 : c = 0 := by
    have : rootCells sampleHeap = [0] := by decide!
    rw [this] at hc
    simpa using hc
  subst hc0
  exact ⟨4129, rfl, Or.inr ⟨⟨33, 48, User_class⟩, by simp [sampleObjs], by decide!⟩⟩

theorem sample_wf : WF sampleHeap sampleObjs :=
  ⟨sample_base, sample_chain, sample_fields, sample_roots⟩

set_option maxRecDepth 100000 in
theorem sample_marks : ∀ o ∈ sampleObjs, byteAt sampleHeap (o.off + 8) = 0 := by
  decide!

set_option maxRecDepth 100000 in
theorem sample_clean : Clean sampleHeap sampleObjs := by
  unfold Clean
  decide!

set_option maxRecDepth 100000 in
theorem sample_distinct : DistinctRoots sampleHeap := by
  unfold DistinctRoots
  have : rootCells sampleHeap = [0] := by decide!
  rw [this]
  simp

theorem Small.of_all (s : State) (h : ∀ b ∈ s.mem, b < 256) : Small s := by
  intro j
  unfold byteAt
  rw [List.getD_eq_getElem?_getD]
  cases hj : s.mem[j]? with
  | none => simp
  | some b =>
    simp only [Option.getD_some]
    exact h b (List.mem_iff_getElem?.mpr ⟨j, hj⟩)

set_option maxRecDepth 100000 in
theorem sample_small : Small sampleHeap := by
  apply Small.of_all
  decide!

set_option maxRecDepth 100000 in
/-- The heap dupRootHeap is what the interface produces when gc_add_root is
called twice on the same variable. -/
theorem dupRootHeap_reached :
    (do
      let s ← gc_init (boot 1) 128 4096
      let s ← gc_add_root s 0
      let s ← gc_add_root s 0
      let (s, _) ← gc_alloc_string s 0
      let (s, u) ← gc_alloc s 2000
      writeVar s 0 u) = .ok dupRootHeap := by
  decide!

set_option maxRecDepth 100000 in
/-- The heap markedHeap is what the first loop of gc leaves. -/
theorem markedHeap_reached :
    (do
      let s ← gc_init (boot 2) 200 4096
      let (s, u) ← gc_alloc s 2000
      let s ← writeVar s 0 u
      let s ← gc_add_root s 0
      let (s, _) ← gc_alloc_string s 0
      let (s, v) ← gc_alloc s 2000
      let s ← writeVar s 1 v
      let s ← gc_add_root s 1
      markRoots (depthBudget s) (List.range s._rp.toNat) s) = .ok markedHeap := by
  decide!

set_option maxRecDepth 100000 in
/-- The heap cycleHeap is what the interface produces. -/
theorem cycleHeap_reached :
    (do
      let s ← gc_init (boot 2) 200 4096
      let (s, a) ← gc_alloc s 3000
      let s ← writeVar s 0 a
      let s ← gc_add_root s 0
      let (s, b) ← gc_alloc s 3000
      let (s, c) ← gc_alloc s 3000
      let s ← writeVar s 1 c
      let s ← gc_add_root s 1
      let (s, n) ← gc_alloc_string s 0
      let s ← store64 s (a + 32) n
      let s ← store64 s (a + 40) b
      let s ← store64 s (b + 32) n
      let s ← store64 s (b + 40) a
      store64 s (c + 40) c) = .ok cycleHeap := by
  decide!

set_option maxRecDepth 100000 in
theorem dupRoot_wf : WF dupRootHeap sampleObjs := by
  refine ⟨by unfold Base; decide!, ?_, by unfold FieldsOK IsObjAddr; decide!, by decide, by decide!, ?_⟩
  · refine ⟨rfl, ⟨by decide!, classOK_String, ⟨"String", rfl, by decide!, fun _ => by decide⟩, by decide⟩,
      rfl, ⟨by decide!, classOK_User, ⟨"User", rfl, by decide!, fun h => by simp at h⟩, by decide⟩, ?_⟩
    show 0 + 33 + 48 = (81 : Int).toNat
    decide
  · intro c hc
    have hc0 : c = 0 := by
      have : rootCells dupRootHeap = [0, 0] := by decide!
      rw [this] at hc
      simpa using hc
    subst hc0
    exact ⟨4129, rfl, Or.inr ⟨⟨33, 48, User_class⟩, by simp [sampleObjs], by decide!⟩⟩

set_option maxRecDepth 100000 in
theorem dupRoot_clean : Clean dupRootHeap sampleObjs := by
  unfold Clean
  decide!

set_option maxRecDepth 100000 in
theorem dupRoot_small : Small dupRootHeap := by
  apply Small.of_all
  decide!

set_option maxRecDepth 100000 in
theorem huge_small : Small hugeHeap := by
  apply Small.of_all
  decide!

set_option maxRecDepth 100000 in
theorem marked_base : Base markedHeap := by
  unfold Base
  decide!

set_option maxRecDepth 100000 in
theorem marked_chain : Chain markedHeap 0 markedHeap.nextFree.toNat markedObjs := by
  refine ⟨rfl, ⟨by decide!, classOK_User, ⟨"User", rfl, by decide!, fun h => by simp at h⟩, by decide⟩,
    rfl, ⟨by decide!, classOK_String, ⟨"String", rfl, by decide!, fun _ => by decide⟩, by decide⟩,
    rfl, ⟨by decide!, classOK_User, ⟨"User", rfl, by decide!, fun h => by simp at h⟩, by decide⟩, ?_⟩
  show 0 + 48 + 33 + 48 = (129 : Int).toNat
  decide

set_option maxRecDepth 100000 in
theorem marked_bits : ∀ o ∈ markedObjs,
    byteAt markedHeap (o.off + 8) = 0 ∨ byteAt markedHeap (o.off + 8) = 1 := by
  decide!

theorem classAt_congr {s t : State} (h1 : t.classes = s.classes) (h2 : t.strClass = s.strClass)
    (p : Int) : classAt t p = classAt s p := by
  unfold classAt
  rw [h1, h2]

theorem Globals.globals_refl (s : State) : Globals s s := ⟨rfl, rfl, rfl, rfl, rfl, rfl, rfl⟩

theorem Globals.globals_trans {s t u : State} (h1 : Globals s t) (h2 : Globals t u) : Globals s u :=
  ⟨h2.heap.trans h1.heap, h2.heapSize.trans h1.heapSize, h2.nextFree.trans h1.nextFree,
   h2.rp.trans h1.rp, h2.roots.trans h1.roots, h2.classes.trans h1.classes,
   h2.strClass.trans h1.strClass⟩

theorem bind_ok {ε α β : Type} {x : Except ε α} {f : α → Except ε β} {b : β}
    (h : (x >>= f) = .ok b) : ∃ a, x = .ok a ∧ f a = .ok b := by
  cases x with
  | error e => cases h
  | ok a => exact ⟨a, rfl, h⟩

theorem ok_eq {ε α : Type} {a b : α} (h : (Except.ok a : Except ε α) = .ok b) : a = b :=
  Except.ok.inj h

theorem store8_globals {s t : State} {a : Int} {v : Nat} (h : store8 s a v = .ok t) : Globals s t := by
  unfold store8 at h
  split at h
  · have e := ok_eq h; subst e; exact ⟨rfl, rfl, rfl, rfl, rfl, rfl, rfl⟩
  · split at h
    · have e := ok_eq h; subst e; exact ⟨rfl, rfl, rfl, rfl, rfl, rfl, rfl⟩
    · cases h

theorem storeBytes_globals : ∀ (bs : List Nat) {s t : State} {a : Int},
    storeBytes s a bs = .ok t → Globals s t := by
  intro bs
  induction bs with
  | nil => intro s t a h; have e := ok_eq h; subst e; exact Globals.globals_refl _
  | cons b bs ih =>
    intro s t a h
    unfold storeBytes at h
    obtain ⟨s1, h1, h2⟩ := bind_ok h
    exact (store8_globals h1).globals_trans (ih h2)

theorem store64_globals {s t : State} {a v : Int} (h : store64 s a v = .ok t) : Globals s t :=
  storeBytes_globals _ h

theorem store32_globals {s t : State} {a v : Int} (h : store32 s a v = .ok t) : Globals s t :=
  storeBytes_globals _ h

theorem memcpy_globals {s t : State} {d a n : Int} (h : memcpy s d a n = .ok t) : Globals s t := by
  unfold memcpy at h
  split at h
  · cases h
  · obtain ⟨bs, _, h2⟩ := bind_ok h
    exact storeBytes_globals _ h2

theorem writeVar_globals {s t : State} {c : Nat} {v : Int} (h : writeVar s c v = .ok t) :
    Globals s t := by
  unfold writeVar at h
  split at h
  · have e := ok_eq h; subst e; exact ⟨rfl, rfl, rfl, rfl, rfl, rfl, rfl⟩
  · cases h

theorem markFields_globals (call : State → Int → Except Fault State)
    (hcall : ∀ s a t, call s a = .ok t → Globals s t) (obj : Int) :
    ∀ (k : Nat) (i : Int) (s t : State), markFields call obj k i s = .ok t → Globals s t := by
  intro k
  induction k with
  | zero =>
    intro i s t h
    unfold markFields at h
    obtain ⟨c, _, h⟩ := bind_ok h
    split at h
    · cases h
    · have e := ok_eq h; subst e; exact Globals.globals_refl _
  | succ k ih =>
    intro i s t h
    unfold markFields at h
    obtain ⟨c, _, h⟩ := bind_ok h
    split at h
    · obtain ⟨off, _, h⟩ := bind_ok h
      obtain ⟨f, _, h⟩ := bind_ok h
      obtain ⟨s1, h1, h⟩ := bind_ok h
      exact (hcall _ _ _ h1).globals_trans (ih _ _ _ h)
    · have e := ok_eq h; subst e; exact Globals.globals_refl _

theorem mark_globals : ∀ (fuel : Nat) (s : State) (a : Int) (t : State),
    mark fuel s a = .ok t → Globals s t := by
  intro fuel
  induction fuel with
  | zero => intro s a t h; unfold mark at h; cases h
  | succ fuel ih =>
    intro s a t h
    unfold mark at h
    split at h
    · have e := ok_eq h; subst e; exact Globals.globals_refl _
    · obtain ⟨m, _, h⟩ := bind_ok h
      split at h
      · have e := ok_eq h; subst e; exact Globals.globals_refl _
      · split at h
        · have e := ok_eq h; subst e; exact Globals.globals_refl _
        · split at h
          · have e := ok_eq h; subst e; exact Globals.globals_refl _
          · obtain ⟨s1, h1, h⟩ := bind_ok h
            obtain ⟨c, _, h⟩ := bind_ok h
            exact (store8_globals h1).globals_trans (markFields_globals _ ih _ _ _ _ _ h)

theorem changeFields_globals (call : State → Int → Except Fault State)
    (hcall : ∀ s a t, call s a = .ok t → Globals s t) (obj : Int) :
    ∀ (k : Nat) (i : Int) (s t : State), changeFields call obj k i s = .ok t → Globals s t := by
  intro k
  induction k with
  | zero =>
    intro i s t h
    unfold changeFields at h
    obtain ⟨c, _, h⟩ := bind_ok h
    split at h
    · cases h
    · have e := ok_eq h; subst e; exact Globals.globals_refl _
  | succ k ih =>
    intro i s t h
    unfold changeFields at h
    obtain ⟨c, _, h⟩ := bind_ok h
    split at h
    · obtain ⟨off, _, h⟩ := bind_ok h
      obtain ⟨f, _, h⟩ := bind_ok h
      split at h
      · exact ih _ _ _ h
      · obtain ⟨s1, h1, h⟩ := bind_ok h
        obtain ⟨f1, _, h⟩ := bind_ok h
        obtain ⟨fw, _, h⟩ := bind_ok h
        obtain ⟨s2, h2, h⟩ := bind_ok h
        exact ((hcall _ _ _ h1).globals_trans (store64_globals h2)).globals_trans (ih _ _ _ h)
    · have e := ok_eq h; subst e; exact Globals.globals_refl _

theorem changePointers_globals : ∀ (fuel : Nat) (s : State) (a : Int) (t : State),
    changePointers fuel s a = .ok t → Globals s t := by
  intro fuel
  induction fuel with
  | zero => intro s a t h; unfold changePointers at h; cases h
  | succ fuel ih =>
    intro s a t h
    unfold changePointers at h
    split at h
    · have e := ok_eq h; subst e; exact Globals.globals_refl _
    · obtain ⟨m, _, h⟩ := bind_ok h
      split at h
      · have e := ok_eq h; subst e; exact Globals.globals_refl _
      · split at h
        · have e := ok_eq h; subst e; exact Globals.globals_refl _
        · split at h
          · have e := ok_eq h; subst e; exact Globals.globals_refl _
          · obtain ⟨s1, h1, h⟩ := bind_ok h
            obtain ⟨c, _, h⟩ := bind_ok h
            exact (store8_globals h1).globals_trans (changeFields_globals _ ih _ _ _ _ _ h)

theorem markRoots_globals (fuel : Nat) : ∀ (is : List Nat) (s t : State),
    markRoots fuel is s = .ok t → Globals s t := by
  intro is
  induction is with
  | nil => intro s t h; have e := ok_eq h; subst e; exact Globals.globals_refl _
  | cons i is ih =>
    intro s t h
    unfold markRoots at h
    obtain ⟨c, _, h⟩ := bind_ok h
    obtain ⟨v, _, h⟩ := bind_ok h
    obtain ⟨s1, h1, h⟩ := bind_ok h
    exact (mark_globals _ _ _ _ h1).globals_trans (ih _ _ h)

theorem changeRoots_globals (fuel : Nat) : ∀ (is : List Nat) (s t : State),
    changeRoots fuel is s = .ok t → Globals s t := by
  intro is
  induction is with
  | nil => intro s t h; have e := ok_eq h; subst e; exact Globals.globals_refl _
  | cons i is ih =>
    intro s t h
    unfold changeRoots at h
    obtain ⟨c, _, h⟩ := bind_ok h
    obtain ⟨v, _, h⟩ := bind_ok h
    split at h
    · exact ih _ _ h
    · obtain ⟨s1, h1, h⟩ := bind_ok h
      obtain ⟨v1, _, h⟩ := bind_ok h
      obtain ⟨fw, _, h⟩ := bind_ok h
      obtain ⟨s2, h2, h⟩ := bind_ok h
      exact ((changePointers_globals _ _ _ _ h1).globals_trans (writeVar_globals h2)).globals_trans
        (ih _ _ h)

theorem setForwardingLoop_globals : ∀ (fuel : Nat) (s : State) (i off : Int) (t : State),
    setForwardingLoop fuel s i off = .ok t → Globals s t := by
  intro fuel
  induction fuel with
  | zero =>
    intro s i off t h
    unfold setForwardingLoop at h
    split at h
    · cases h
    · have e := ok_eq h; subst e; exact Globals.globals_refl _
  | succ fuel ih =>
    intro s i off t h
    unfold setForwardingLoop at h
    split at h
    · simp only at h
      split at h
      · have e := ok_eq h; subst e; exact Globals.globals_refl _
      · obtain ⟨c, _, h⟩ := bind_ok h
        split at h
        · have e := ok_eq h; subst e; exact Globals.globals_refl _
        · obtain ⟨step, _, h⟩ := bind_ok h
          obtain ⟨m, _, h⟩ := bind_ok h
          split at h
          · obtain ⟨s1, h1, h⟩ := bind_ok h
            obtain ⟨s2, h2, h⟩ := bind_ok h
            have g := (store64_globals h1).globals_trans (store8_globals h2)
            exact g.globals_trans (ih _ _ _ _ h)
          · obtain ⟨s1, h1, h⟩ := bind_ok h
            exact (store64_globals h1).globals_trans (ih _ _ _ _ h)
    · have e := ok_eq h; subst e; exact Globals.globals_refl _

theorem moveObjectsLoop_globals : ∀ (fuel : Nat) (s : State) (i d : Int) (r : State × Int),
    moveObjectsLoop fuel s i d = .ok r → Globals s r.1 := by
  intro fuel
  induction fuel with
  | zero =>
    intro s i d r h
    unfold moveObjectsLoop at h
    split at h
    · cases h
    · have e := ok_eq h; subst e; exact Globals.globals_refl _
  | succ fuel ih =>
    intro s i d r h
    unfold moveObjectsLoop at h
    split at h
    · simp only at h
      split at h
      · have e := ok_eq h; subst e; exact Globals.globals_refl _
      · obtain ⟨c, _, h⟩ := bind_ok h
        split at h
        · cases h
        · obtain ⟨step, _, h⟩ := bind_ok h
          obtain ⟨m, _, h⟩ := bind_ok h
          split at h
          · obtain ⟨fw, _, h⟩ := bind_ok h
            obtain ⟨s1, h1, h⟩ := bind_ok h
            obtain ⟨s2, h2, h⟩ := bind_ok h
            obtain ⟨s3, h3, h⟩ := bind_ok h
            have g := ((memcpy_globals h1).globals_trans (store8_globals h2)).globals_trans
              (store64_globals h3)
            exact g.globals_trans (ih _ _ _ _ h)
          · exact ih _ _ _ _ h
    · have e := ok_eq h; subst e; exact Globals.globals_refl _

/-- Whenever gc returns, it has changed no global but nextFree. -/
theorem gc_globals {s t : State} (h : gc s = .ok t) :
    t.heap = s.heap ∧ t.heapSize = s.heapSize ∧ t._rp = s._rp ∧ t._roots = s._roots ∧
      t.classes = s.classes ∧ t.strClass = s.strClass := by
  unfold gc at h
  obtain ⟨s1, h1, h⟩ := bind_ok h
  obtain ⟨s2, h2, h⟩ := bind_ok h
  obtain ⟨s3, h3, h⟩ := bind_ok h
  unfold moveObjects at h
  obtain ⟨r, h4, h⟩ := bind_ok h
  have e := ok_eq h
  subst e
  have g := ((markRoots_globals _ _ _ _ h1).globals_trans
    (setForwardingLoop_globals _ _ _ _ _ h2)).globals_trans
    ((changeRoots_globals _ _ _ _ h3).globals_trans (moveObjectsLoop_globals _ _ _ _ _ h4))
  exact ⟨g.heap, g.heapSize, g.rp, g.roots, g.classes, g.strClass⟩

theorem nullFields_globals (o : Int) : ∀ (k : Nat) (i : Int) (s t : State),
    nullFields o k i s = .ok t → Globals s t := by
  intro k
  induction k with
  | zero =>
    intro i s t h
    unfold nullFields at h
    obtain ⟨c, _, h⟩ := bind_ok h
    split at h
    · cases h
    · have e := ok_eq h; subst e; exact Globals.globals_refl _
  | succ k ih =>
    intro i s t h
    unfold nullFields at h
    obtain ⟨c, _, h⟩ := bind_ok h
    split at h
    · obtain ⟨off, _, h⟩ := bind_ok h
      obtain ⟨s1, h1, h⟩ := bind_ok h
      exact (store64_globals h1).globals_trans (ih _ _ _ h)
    · have e := ok_eq h; subst e; exact Globals.globals_refl _

theorem allocObject_globals {s t : State} {cls : Int} {c : ClassDescriptor} {p : Int}
    (h : allocObject s cls c = .ok (t, p)) :
    t.heap = s.heap ∧ t.heapSize = s.heapSize ∧ t._rp = s._rp ∧ t._roots = s._roots ∧
      t.nextFree = iadd s.nextFree c.size ∧ p = s.nextFree + s.heap := by
  unfold allocObject at h
  simp only at h
  obtain ⟨s2, h2, h⟩ := bind_ok h
  obtain ⟨s3, h3, h⟩ := bind_ok h
  obtain ⟨s4, h4, h⟩ := bind_ok h
  obtain ⟨c4, _, h⟩ := bind_ok h
  obtain ⟨s5, h5, h⟩ := bind_ok h
  have e := ok_eq h
  have e1 : s5 = t := congrArg Prod.fst e
  have e2 : s.nextFree + s.heap = p := congrArg Prod.snd e
  subst e1
  have g := (((store64_globals h2).globals_trans (store64_globals h3)).globals_trans
    (store8_globals h4)).globals_trans (nullFields_globals _ _ _ _ _ h5)
  exact ⟨g.heap, g.heapSize, g.rp, g.roots, g.nextFree, e2.symm⟩

theorem allocString_globals {s t : State} {n : Int} {p : Int}
    (h : allocString s n = .ok (t, p)) :
    t.heap = s.heap ∧ t.heapSize = s.heapSize ∧ t._rp = s._rp ∧ t._roots = s._roots ∧
      t.nextFree = iadd s.nextFree (iadd (iadd String_class.size n) 1) ∧
      p = s.nextFree + s.heap := by
  unfold allocString at h
  simp only at h
  obtain ⟨s2, h2, h⟩ := bind_ok h
  obtain ⟨s3, h3, h⟩ := bind_ok h
  obtain ⟨s4, h4, h⟩ := bind_ok h
  obtain ⟨s5, h5, h⟩ := bind_ok h
  have e := ok_eq h
  have e1 : s5 = t := congrArg Prod.fst e
  have e2 : s.nextFree + s.heap = p := congrArg Prod.snd e
  subst e1
  have g := (((store64_globals h2).globals_trans (store32_globals h3)).globals_trans
    (store64_globals h4)).globals_trans (store8_globals h5)
  exact ⟨g.heap, g.heapSize, g.rp, g.roots, g.nextFree, e2.symm⟩

theorem footprints_append (l1 l2 : List Obj) : footprints (l1 ++ l2) = footprints l1 + footprints l2 := by
  unfold footprints
  simp

theorem Chain.split_off {s : State} : ∀ {pre : List Obj} {i e : Nat} {o : Obj} {post : List Obj},
    Chain s i e (pre ++ o :: post) → o.off = i + footprints pre := by
  intro pre
  induction pre with
  | nil => intro i e o post h; rw [footprints_nil]; exact h.1
  | cons a pre ih =>
    intro i e o post h
    obtain ⟨h1, _, h3⟩ := h
    have := ih h3
    rw [footprints_cons]
    omega

theorem Fwd.split {u : State} {p : Obj → Bool} : ∀ (pre : List Obj) (off : Nat) (o : Obj)
    (post : List Obj), Fwd u (fun o => p o = true) (pre ++ o :: post) off →
    (p o = true → (word64 u (o.off + 16) : Int) = u.heap + ((off + footprints (pre.filter p) : Nat) : Int)) ∧
    (¬ p o = true → word64 u (o.off + 16) = 0) := by
  intro pre
  induction pre with
  | nil =>
    intro off o post h
    constructor
    · intro hp
      rw [(h.1 hp).1, List.filter_nil, footprints_nil]; rfl
    · intro hp
      exact (h.2 hp).1
  | cons a pre ih =>
    intro off o post h
    by_cases hpa : p a = true
    · have := ih (off + a.step) o post (h.1 hpa).2
      rw [List.filter_cons_of_pos hpa, footprints_cons, ← Nat.add_assoc]
      exact this
    · have := ih off o post (h.2 hpa).2
      rw [List.filter_cons_of_neg hpa]
      exact this

theorem Fwd.of_clean {u : State} {p : Obj → Prop} : ∀ (l : List Obj) (off : Nat),
    (∀ o ∈ l, ¬ p o ∧ word64 u (o.off + 16) = 0) → Fwd u p l off := by
  intro l
  induction l with
  | nil => intro _ _; trivial
  | cons a l ih =>
    intro off h
    have ha := h a (List.mem_cons_self _ _)
    exact ⟨fun hp => absurd hp ha.1,
      fun _ => ⟨ha.2, ih off (fun o ho => h o (List.mem_cons_of_mem _ ho))⟩⟩

theorem pack_split : ∀ (pre : List Obj) (d : Nat) (o : Obj) (post : List Obj),
    pack d (pre ++ o :: post) = pack d pre ++
      { o with off := d + footprints pre } :: pack (d + footprints pre + o.step) post := by
  intro pre
  induction pre with
  | nil => intro d o post; simp [pack, footprints_nil]
  | cons a pre ih =>
    intro d o post
    show { a with off := d } :: pack (d + a.step) (pre ++ o :: post) = _
    rw [ih (d + a.step) o post, footprints_cons]
    simp only [List.cons_append, pack, Nat.add_assoc]

/-- C17: on a well-formed heap whose mark bytes are all 0, the first loop of
gc, which calls mark on every root value, returns; afterwards an object has
mark byte 1 exactly when it is reachable from a non-null registered root
through non-null managed fields, every mark byte is 0 or 1, and no byte other
than the mark bytes of objects has changed (nor any client variable or
global).  Reachability follows the offsets of field_offsets only, and a
String has none. -/
theorem mark_phase_marks_exactly_the_reachable (s : State) (objs : List Obj) (hwf : WF s objs)
    (hcl : ∀ o ∈ objs, byteAt s (o.off + 8) = 0) :
    ∃ t, markRoots (depthBudget s) (List.range s._rp.toNat) s = .ok t ∧
      (∀ o ∈ objs, Marked t o ↔ Live s objs o) ∧
      (∀ o ∈ objs, byteAt t (o.off + 8) = 0 ∨ byteAt t (o.off + 8) = 1) ∧
      (∀ j, (∀ o ∈ objs, j ≠ o.off + 8) → byteAt t j = byteAt s j) ∧
      t.vars = s.vars ∧ Frame s t ∧
      (∀ o ∈ objs, o.cd.name = some "String" → o.cd.field_offsets = []) := by
  obtain ⟨t, hm, hinv, hlive, hbit⟩ := markRoots_spec s objs hwf hcl
  exact ⟨t, hm, hlive, hbit, hinv.bytes, hinv.vars, hinv.frame,
    fun o ho hs => (hwf.2.1.objAt o ho).2.1.2.2.2.2.2.1 hs⟩

/-- Instance of C17 on sampleHeap. -/
theorem mark_phase_on_sampleHeap :
    WF sampleHeap sampleObjs ∧ (∀ o ∈ sampleObjs, byteAt sampleHeap (o.off + 8) = 0) ∧
    ∃ t, markRoots (depthBudget sampleHeap) (List.range sampleHeap._rp.toNat) sampleHeap = .ok t ∧
      (∀ o ∈ sampleObjs, Marked t o ↔ Live sampleHeap sampleObjs o) ∧
      (∀ o ∈ sampleObjs, byteAt t (o.off + 8) = 0 ∨ byteAt t (o.off + 8) = 1) ∧
      (∀ j, (∀ o ∈ sampleObjs, j ≠ o.off + 8) → byteAt t j = byteAt sampleHeap j) ∧
      t.vars = sampleHeap.vars ∧ Frame sampleHeap t ∧
      (∀ o ∈ sampleObjs, o.cd.name = some "String" → o.cd.field_offsets = []) :=
  ⟨sample_wf, sample_marks,
    mark_phase_marks_exactly_the_reachable sampleHeap sampleObjs sample_wf sample_marks⟩

/-- C18: on a heap whose objects lie end to end in [0, next_free) and whose
mark bytes are 0 or 1, setForwarding returns; every object marked at entry
gets forwarded = heap + the sum of the footprints of the marked objects
before it, every other object gets forwarded = NULL, all mark bytes are 0
afterwards, and no byte outside mark bytes and forwarding slots changes.  The
destination offset is at most the source offset, so the destination range
ends at or before the end of the source (the source start of the next
object), and the destination of a later marked object starts at or after the
end of the destination of an earlier one. -/
theorem setForwarding_assigns_prefix_sums (t : State) (objs : List Obj) (hb : Base t)
    (hc : Chain t 0 t.nextFree.toNat objs)
    (hbit : ∀ o ∈ objs, byteAt t (o.off + 8) = 0 ∨ byteAt t (o.off + 8) = 1) :
    ∃ u, setForwarding t = .ok u ∧ Frame t u ∧ u.vars = t.vars ∧
      (∀ j, NotHeader objs j → byteAt u j = byteAt t j) ∧
      (∀ o ∈ objs, byteAt u (o.off + 8) = 0) ∧
      (∀ pre o post, objs = pre ++ o :: post →
        (Marked t o →
          (word64 u (o.off + 16) : Int) = t.heap + (footprints (pre.filter (isMarked t)) : Nat) ∧
          footprints (pre.filter (isMarked t)) ≤ o.off ∧
          footprints (pre.filter (isMarked t)) + o.step ≤ o.off + o.step) ∧
        (¬ Marked t o → word64 u (o.off + 16) = 0)) ∧
      (∀ pre o mid o' post, objs = pre ++ o :: (mid ++ o' :: post) → Marked t o → Marked t o' →
        word64 u (o.off + 16) + o.step ≤ word64 u (o'.off + 16)) := by
  obtain ⟨u, hu, hfu, hvu, hbu, hfwd, hmk, _⟩ :=
    setForwardingLoop_spec objs t 0 0 t.nextFree.toNat hb hc
      (by have := hc.length_le; omega) (Nat.le_refl _)
  simp only [Nat.cast_zero] at hu
  have hfwdB : Fwd u (fun o => isMarked t o = true) objs 0 :=
    Fwd.congr (fun o _ => (isMarked_iff t o).symm) (fun _ _ => rfl) rfl hfwd
  have hdest : ∀ pre o post, objs = pre ++ o :: post → Marked t o →
      (word64 u (o.off + 16) : Int) = t.heap + (footprints (pre.filter (isMarked t)) : Nat) := by
    intro pre o post he hm
    rw [he] at hfwdB
    have := (Fwd.split pre 0 o post hfwdB).1 ((isMarked_iff t o).mpr hm)
    rw [this, hfu.heap, Nat.zero_add]
  refine ⟨u, hu, hfu, hvu, hbu, ?_, ?_, ?_⟩
  · intro o ho
    by_cases hm : Marked t o
    · exact (hmk o ho).1 hm
    · rw [(hmk o ho).2 hm]
      rcases hbit o ho with h | h
      · exact h
      · exact absurd h hm
  · intro pre o post he
    have hoff : o.off = 0 + footprints pre := by rw [he] at hc; exact hc.split_off
    have hle := footprints_filter_le (isMarked t) pre
    constructor
    · intro hm
      exact ⟨hdest pre o post he hm, by omega, by omega⟩
    · intro hm
      rw [he] at hfwdB
      exact (Fwd.split pre 0 o post hfwdB).2 (fun h => hm ((isMarked_iff t o).mp h))
  · intro pre o mid o' post he hm hm'
    have h1 := hdest pre o (mid ++ o' :: post) he hm
    have h2 := hdest (pre ++ o :: mid) o' post (by rw [he]; simp) hm'
    rw [List.filter_append, List.filter_cons_of_pos ((isMarked_iff t o).mpr hm),
      footprints_append, footprints_cons] at h2
    omega

set_option maxRecDepth 100000 in
/-- Instance of C18 on markedHeap, the heap the mark phase leaves when the
Users at offsets 0 and 81 are rooted and the String at offset 48 between them
is dead: setForwarding gives the Users the destinations heap + 0 and
heap + 48, gives the String NULL and clears both mark bytes. -/
theorem setForwarding_on_markedHeap :
    Base markedHeap ∧ Chain markedHeap 0 markedHeap.nextFree.toNat markedObjs ∧
    (∀ o ∈ markedObjs, byteAt markedHeap (o.off + 8) = 0 ∨ byteAt markedHeap (o.off + 8) = 1) ∧
    markedObjs.map (isMarked markedHeap) = [true, false, true] ∧
    (setForwarding markedHeap).map
      (fun u => ((word64 u 16, word64 u 64, word64 u 97), (byteAt u 8, byteAt u 56, byteAt u 89))) =
      .ok ((4096, 0, 4144), (0, 0, 0)) ∧
    ∃ u, setForwarding markedHeap = .ok u ∧ Frame markedHeap u ∧ u.vars = markedHeap.vars ∧
      (∀ j, NotHeader markedObjs j → byteAt u j = byteAt markedHeap j) ∧
      (∀ o ∈ markedObjs, byteAt u (o.off + 8) = 0) ∧
      (∀ pre o post, markedObjs = pre ++ o :: post →
        (Marked markedHeap o →
          (word64 u (o.off + 16) : Int) =
            markedHeap.heap + (footprints (pre.filter (isMarked markedHeap)) : Nat) ∧
          footprints (pre.filter (isMarked markedHeap)) ≤ o.off ∧
          footprints (pre.filter (isMarked markedHeap)) + o.step ≤ o.off + o.step) ∧
        (¬ Marked markedHeap o → word64 u (o.off + 16) = 0)) ∧
      (∀ pre o mid o' post, markedObjs = pre ++ o :: (mid ++ o' :: post) →
        Marked markedHeap o → Marked markedHeap o' →
        word64 u (o.off + 16) + o.step ≤ word64 u (o'.off + 16)) :=
  ⟨marked_base, marked_chain, marked_bits, by decide!, by decide!,
    setForwarding_assigns_prefix_sums markedHeap markedObjs marked_base marked_chain marked_bits⟩

/-- C4, amended: on a well-formed heap (objects end to end in [0, next_free), valid
class descriptors, managed fields and registered roots null or object
addresses, memory cells holding bytes, no variable registered twice) with all
mark bytes 0 and all forwarding slots null, gc returns; the survivors `L` are
exactly the reachable objects, in their order before the collection,
next_free is the sum of their footprints, and they lie end to end from
offset 0 to next_free with their classes and footprints. -/
theorem gc_packs_the_live_objects (s : State) (objs : List Obj) (hwf : WF s objs)
    (hcl : Clean s objs) (hd : DistinctRoots s) (hsm : Small s) :
    ∃ t L, gc s = .ok t ∧ L.Sublist objs ∧ (∀ o ∈ objs, o ∈ L ↔ Live s objs o) ∧
      t.nextFree = (footprints L : Nat) ∧ Chain t 0 t.nextFree.toNat (pack 0 L) ∧
      t.heap = s.heap ∧ t.heapSize = s.heapSize := by
  obtain ⟨t, L, hgc, hpost⟩ := gc_spec s objs hwf (fun o ho => (hcl o ho).1) hd hsm
  refine ⟨t, L, hgc, hpost.sub, hpost.live, hpost.nextFree, ?_, hpost.heap, hpost.heapSize⟩
  rw [hpost.nextFree, Int.toNat_ofNat]
  exact hpost.chain

set_option maxRecDepth 100000 in
/-- Instance of the amended C4 on sampleHeap, where the dead String at offset 0
is dropped and the User slides from offset 33 to offset 0. -/
theorem gc_packs_sampleHeap :
    WF sampleHeap sampleObjs ∧ Clean sampleHeap sampleObjs ∧ DistinctRoots sampleHeap ∧
    Small sampleHeap ∧
    dump (gc sampleHeap) = .ok "next_free=48\nobjects:\n  0000:User[48]->[NULL]\n" ∧
    ∃ t L, gc sampleHeap = .ok t ∧ L.Sublist sampleObjs ∧
      (∀ o ∈ sampleObjs, o ∈ L ↔ Live sampleHeap sampleObjs o) ∧
      t.nextFree = (footprints L : Nat) ∧ Chain t 0 t.nextFree.toNat (pack 0 L) ∧
      t.heap = sampleHeap.heap ∧ t.heapSize = sampleHeap.heapSize :=
  ⟨sample_wf, sample_clean, sample_distinct, sample_small, by decide!,
    gc_packs_the_live_objects sampleHeap sampleObjs sample_wf sample_clean sample_distinct
      sample_small⟩

/-- C6, amended: on a well-formed heap with clear mark bytes in which no
client variable is registered twice, gc returns; the survivors `L` are the
reachable objects in their order before the collection, without repetition,
and they lie end to end from offset 0.  Every registered variable that held
null still holds null, and every registered variable that held the address of
the object `o` holds heap + the sum of the footprints of the survivors before
`o` in `L`, which is the forwarding destination of `o` and the offset at
which `o` lies after the collection. -/
theorem gc_forwards_distinct_roots (s : State) (objs : List Obj) (hwf : WF s objs)
    (hcl : ∀ o ∈ objs, byteAt s (o.off + 8) = 0) (hd : DistinctRoots s) (hsm : Small s) :
    ∃ t L, gc s = .ok t ∧ L.Sublist objs ∧ L.Nodup ∧ (∀ o ∈ objs, o ∈ L ↔ Live s objs o) ∧
      Chain t 0 t.nextFree.toNat (pack 0 L) ∧ t.heap = s.heap ∧
      (∀ c ∈ rootCells s, ∀ v, s.vars[c]? = some v →
        (v = 0 → t.vars[c]? = some 0) ∧
        (∀ o ∈ objs, v = s.heap + o.off →
          ∃ pre post, L = pre ++ o :: post ∧
            t.vars[c]? = some (t.heap + (footprints pre : Nat)) ∧
            pack 0 L = pack 0 pre ++ { o with off := footprints pre } ::
              pack (footprints pre + o.step) post)) ∧
      (∀ c, c ∉ rootCells s → t.vars[c]? = s.vars[c]?) := by
  obtain ⟨t, L, hgc, hpost⟩ := gc_spec s objs hwf hcl hd hsm
  have hnd : objs.Nodup := by
    have hp := hwf.2.1.pairwise
    have hst : ∀ o ∈ objs, 24 ≤ o.step := fun o ho => (hwf.2.1.objAt o ho).2.2.2
    unfold List.Nodup
    refine List.Pairwise.imp_of_mem ?_ hp
    intro a b ha _ hab heq
    have := hst a ha
    subst heq
    omega
  refine ⟨t, L, hgc, hpost.sub, hnd.sublist hpost.sub, hpost.live, ?_, hpost.heap, ?_,
    hpost.otherVars⟩
  · rw [hpost.nextFree, Int.toNat_ofNat]
    exact hpost.chain
  · intro c hc v hv
    have h := hpost.rootVals c hc v hv
    refine ⟨h.1, fun o ho heq => ?_⟩
    obtain ⟨pre, post, he, hval⟩ := h.2 o ho heq
    refine ⟨pre, post, he, by rw [hpost.heap]; exact hval, ?_⟩
    rw [he, pack_split, Nat.zero_add]

set_option maxRecDepth 100000 in
/-- Instance of the amended C6 on sampleHeap, where the variable 0 holds the
User at offset 33 and holds heap + 0 after the collection. -/
theorem gc_forwards_roots_of_sampleHeap :
    WF sampleHeap sampleObjs ∧ (∀ o ∈ sampleObjs, byteAt sampleHeap (o.off + 8) = 0) ∧
    DistinctRoots sampleHeap ∧ Small sampleHeap ∧
    (sampleHeap.vars, (gc sampleHeap).map (fun t => t.vars)) = ([4129], .ok [4096]) ∧
    ∃ t L, gc sampleHeap = .ok t ∧ L.Sublist sampleObjs ∧ L.Nodup ∧
      (∀ o ∈ sampleObjs, o ∈ L ↔ Live sampleHeap sampleObjs o) ∧
      Chain t 0 t.nextFree.toNat (pack 0 L) ∧ t.heap = sampleHeap.heap ∧
      (∀ c ∈ rootCells sampleHeap, ∀ v, sampleHeap.vars[c]? = some v →
        (v = 0 → t.vars[c]? = some 0) ∧
        (∀ o ∈ sampleObjs, v = sampleHeap.heap + o.off →
          ∃ pre post, L = pre ++ o :: post ∧
            t.vars[c]? = some (t.heap + (footprints pre : Nat)) ∧
            pack 0 L = pack 0 pre ++ { o with off := footprints pre } ::
              pack (footprints pre + o.step) post)) ∧
      (∀ c, c ∉ rootCells sampleHeap → t.vars[c]? = sampleHeap.vars[c]?) :=
  ⟨sample_wf, sample_marks, sample_distinct, sample_small, by decide!,
    gc_forwards_distinct_roots sampleHeap sampleObjs sample_wf sample_marks sample_distinct
      sample_small⟩

theorem gc_alloc_globals {s t : State} {cls p : Int} (h : gc_alloc s cls = .ok (t, p)) :
    t._rp = s._rp ∧ t._roots = s._roots ∧ t.heap = s.heap ∧ t.heapSize = s.heapSize := by
  unfold gc_alloc at h
  obtain ⟨c, _, h⟩ := bind_ok h
  split at h
  · obtain ⟨s1, h1, h⟩ := bind_ok h
    have g := gc_globals h1
    split at h
    · have e := ok_eq h
      have e1 : s1 = t := congrArg Prod.fst e
      subst e1
      exact ⟨g.2.2.1, g.2.2.2.1, g.1, g.2.1⟩
    · have a := allocObject_globals h
      exact ⟨a.2.2.1.trans g.2.2.1, a.2.2.2.1.trans g.2.2.2.1, a.1.trans g.1, a.2.1.trans g.2.1⟩
  · have a := allocObject_globals h
    exact ⟨a.2.2.1, a.2.2.2.1, a.1, a.2.1⟩

theorem gc_alloc_string_globals {s t : State} {n p : Int} (h : gc_alloc_string s n = .ok (t, p)) :
    t._rp = s._rp ∧ t._roots = s._roots ∧ t.heap = s.heap ∧ t.heapSize = s.heapSize := by
  unfold gc_alloc_string at h
  split at h
  · obtain ⟨s1, h1, h⟩ := bind_ok h
    have g := gc_globals h1
    split at h
    · have e := ok_eq h
      have e1 : s1 = t := congrArg Prod.fst e
      subst e1
      exact ⟨g.2.2.1, g.2.2.2.1, g.1, g.2.1⟩
    · have a := allocString_globals h
      exact ⟨a.2.2.1.trans g.2.2.1, a.2.2.2.1.trans g.2.2.2.1, a.1.trans g.1, a.2.1.trans g.2.1⟩
  · have a := allocString_globals h
    exact ⟨a.2.2.1, a.2.2.2.1, a.1, a.2.1⟩

theorem addRoots_spec : ∀ (cells : List Nat) (s : State), 0 ≤ s._rp →
    s._rp + cells.length ≤ MAX_ROOTS → s._roots.length = MAX_ROOTS →
    ∃ t, addRoots cells s = .ok t ∧ t._rp = s._rp + cells.length ∧
      t._roots.length = MAX_ROOTS ∧
      (∀ i, i < s._rp.toNat → t._roots[i]? = s._roots[i]?) ∧
      (∀ k c, cells[k]? = some c → t._roots[s._rp.toNat + k]? = some c) ∧
      t.heap = s.heap ∧ t.nextFree = s.nextFree ∧ t.mem = s.mem ∧ t.vars = s.vars := by
  intro cells
  induction cells with
  | nil =>
    intro s _ _ hl
    exact ⟨s, rfl, by simp, hl, fun _ _ => rfl, fun k c h => by simp at h, rfl, rfl, rfl, rfl⟩
  | cons c cs ih =>
    intro s h0 hk hl
    simp only [List.length_cons, Nat.cast_add, Nat.cast_one] at hk
    have hM : (MAX_ROOTS : Int) = 100 := rfl
    have hlt : s._rp.toNat < s._roots.length := by rw [hl]; unfold MAX_ROOTS; omega
    have hnext : iadd s._rp 1 = s._rp + 1 := iadd_eq _ _ (by omega) (by omega)
    obtain ⟨t, ht, hrp, hlen, hlow, hnew, hh, hn, hm, hv⟩ :=
      ih { s with _roots := s._roots.set s._rp.toNat c, _rp := s._rp + 1 }
        (by show 0 ≤ s._rp + 1; omega) (by show s._rp + 1 + _ ≤ _; omega)
        (by show (s._roots.set _ _).length = _; rw [List.length_set]; exact hl)
    refine ⟨t, ?_, ?_, hlen, ?_, ?_, hh, hn, hm, hv⟩
    · unfold addRoots gc_add_root
      rw [if_pos ⟨h0, hlt⟩, hnext, ok_bind]
      exact ht
    · rw [hrp]
      show s._rp + 1 + _ = _
      simp only [List.length_cons, Nat.cast_add, Nat.cast_one]
      omega
    · intro i hi
      rw [hlow i (by show i < (s._rp + 1).toNat; omega)]
      show (s._roots.set _ _)[i]? = _
      rw [List.getElem?_set_ne (by omega)]
    · intro k c' hc'
      cases k with
      | zero =>
        simp only [List.getElem?_cons_zero] at hc'
        have e := Option.some.inj hc'
        subst e
        rw [Nat.add_zero, hlow _ (by show _ < (s._rp + 1).toNat; omega)]
        show (s._roots.set _ _)[_]? = _
        rw [List.getElem?_set_self hlt]
      | succ k =>
        simp only [List.getElem?_cons_succ] at hc'
        have := hnew k c' hc'
        have e : (s._rp + 1).toNat + k = s._rp.toNat + (k + 1) := by omega
        show t._roots[s._rp.toNat + (k + 1)]? = _
        rw [← e]
        exact this

set_option maxRecDepth 100000 in
theorem fresh_base : Base freshHeap := by
  unfold Base
  decide!

/-- C10: when next_free + class.size <= H for a valid class descriptor,
gc_alloc is the allocation step alone, without a collection; it returns the
object at offset old next_free, advances next_free by class.size, writes
class = class, marked = 0, forwarded = NULL and NULL into every field listed
in field_offsets, and leaves the bytes below old next_free, the client
variables and the root table unchanged. -/
theorem gc_alloc_fast_path (s : State) (cls : Int) (c : ClassDescriptor) (hb : Base s)
    (hcls : classAt s cls = .ok c) (hok : ClassOK c)
    (hp0 : 0 ≤ cls) (hp1 : cls < 18446744073709551616)
    (hfit : s.nextFree + c.size ≤ s.heapSize) :
    gc_alloc s cls = allocObject s cls c ∧
    ∃ t, gc_alloc s cls = .ok (t, s.heap + s.nextFree) ∧
      t.nextFree = s.nextFree + c.size ∧
      (word64 t s.nextFree.toNat : Int) = cls ∧ getClass t (s.heap + s.nextFree) = .ok c ∧
      byteAt t (s.nextFree.toNat + 8) = 0 ∧ word64 t (s.nextFree.toNat + 16) = 0 ∧
      (∀ f ∈ c.field_offsets, word64 t (s.nextFree.toNat + f.toNat) = 0) ∧
      (∀ j, j < s.nextFree.toNat → byteAt t j = byteAt s j) ∧
      t.vars = s.vars ∧ t._roots = s._roots ∧ t._rp = s._rp ∧
      Allocated s cls c s.nextFree.toNat t := by
  obtain ⟨hheap, hptr, hlen, hsz, hnf0, hnf1⟩ := hb
  have hcsz := hok.2.1
  have hgo : gc_alloc s cls = allocObject s cls c := by
    unfold gc_alloc
    rw [hcls, ok_bind, iadd_eq _ _ (by omega) (by omega), if_neg (by omega)]
  refine ⟨hgo, ?_⟩
  obtain ⟨t, ht, hal⟩ := allocObject_spec s cls c s.nextFree.toNat (by omega) hcls hok hp0 hp1
    (by omega) (by omega)
  have e : s.heap + ((s.nextFree.toNat : Nat) : Int) = s.heap + s.nextFree := by omega
  refine ⟨t, ?_, ?_, hal.cls, ?_, hal.marked, hal.forwarded, hal.fields, hal.below, hal.vars,
    hal.roots, hal.rp, hal⟩
  · rw [hgo, ht, e]
  · rw [hal.nextFree]; omega
  · rw [← e, ← hal.heap, getClass_at t _ s.nextFree.toNat rfl (by rw [hal.len]; omega), hal.cls,
      classAt_congr hal.classes hal.strClass]
    exact hcls

set_option maxRecDepth 100000 in
/-- Instance of C10: gc_alloc(&User_class) on freshHeap. -/
theorem gc_alloc_fast_path_on_freshHeap :
    Base freshHeap ∧ classAt freshHeap 2000 = .ok User_class ∧ ClassOK User_class ∧
    freshHeap.nextFree + User_class.size ≤ freshHeap.heapSize ∧
    gc_alloc freshHeap 2000 = allocObject freshHeap 2000 User_class ∧
    ∃ t, gc_alloc freshHeap 2000 = .ok (t, freshHeap.heap + freshHeap.nextFree) ∧
      t.nextFree = freshHeap.nextFree + User_class.size ∧
      (word64 t freshHeap.nextFree.toNat : Int) = 2000 ∧
      getClass t (freshHeap.heap + freshHeap.nextFree) = .ok User_class ∧
      byteAt t (freshHeap.nextFree.toNat + 8) = 0 ∧ word64 t (freshHeap.nextFree.toNat + 16) = 0 ∧
      (∀ f ∈ User_class.field_offsets, word64 t (freshHeap.nextFree.toNat + f.toNat) = 0) ∧
      (∀ j, j < freshHeap.nextFree.toNat → byteAt t j = byteAt freshHeap j) ∧
      t.vars = freshHeap.vars ∧ t._roots = freshHeap._roots ∧ t._rp = freshHeap._rp ∧
      Allocated freshHeap 2000 User_class freshHeap.nextFree.toNat t :=
  ⟨fresh_base, by decide, classOK_User, by decide,
    gc_alloc_fast_path freshHeap 2000 User_class fresh_base (by decide) classOK_User (by decide)
      (by decide) (by decide)⟩

/-- C11: for n >= 0 with next_free + 32 + n + 1 <= H, gc_alloc_string(n) is
the allocation step alone; it returns a String at offset old next_free whose
class is String_class and whose length field is n + 1, with marked = 0 and
forwarded = NULL, and next_free advances by String_class.size + n + 1; the
bytes below old next_free and from the payload on are not written. -/
theorem gc_alloc_string_fast_path (s : State) (n : Int) (hb : Base s) (h0 : 0 ≤ n)
    (hq0 : 0 ≤ s.strClass) (hq1 : s.strClass < 18446744073709551616)
    (hfit : s.nextFree + String_class.size + n + 1 ≤ s.heapSize) :
    gc_alloc_string s n = allocString s n ∧
    ∃ t, gc_alloc_string s n = .ok (t, s.heap + s.nextFree) ∧
      t.nextFree = s.nextFree + String_class.size + n + 1 ∧
      getClass t (s.heap + s.nextFree) = .ok String_class ∧
      load32 t (s.heap + s.nextFree + 24) = .ok (n + 1) ∧
      byteAt t (s.nextFree.toNat + 8) = 0 ∧ word64 t (s.nextFree.toNat + 16) = 0 ∧
      AllocatedString s n s.nextFree.toNat t := by
  obtain ⟨hheap, hptr, hlen, hsz, hnf0, hnf1⟩ := hb
  have hfit' : s.nextFree + 32 + n + 1 ≤ s.heapSize := hfit
  have hgo : gc_alloc_string s n = allocString s n := by
    unfold gc_alloc_string
    rw [string_need _ _ hnf0 h0 (by omega), if_neg (by omega)]
  refine ⟨hgo, ?_⟩
  obtain ⟨t, ht, hal⟩ := allocString_spec s n s.nextFree.toNat (by omega) h0 hq0 hq1
    (by omega) (by omega)
  have e : s.heap + ((s.nextFree.toNat : Nat) : Int) = s.heap + s.nextFree := by omega
  have hn := hal.nextFree
  refine ⟨t, ?_, ?_, ?_, ?_, hal.marked, hal.forwarded, hal⟩
  · rw [hgo, ht, e]
  · rw [hn]
    have : ((s.nextFree.toNat : Nat) : Int) = s.nextFree := by omega
    rw [this]
  · rw [← e, ← hal.heap]; exact hal.cls
  · rw [← e, ← hal.heap]; exact hal.length

set_option maxRecDepth 100000 in
/-- Instance of C11: gc_alloc_string(10) on the empty heap freshHeap gives
next_free = 43 and the dump line String[32+11]. -/
theorem gc_alloc_string_on_freshHeap :
    Base freshHeap ∧ freshHeap.nextFree + String_class.size + 10 + 1 ≤ freshHeap.heapSize ∧
    (gc_alloc_string freshHeap 10 >>= fun r => gc_get_state r.1) =
      .ok "next_free=43\nobjects:\n  0000:String[32+11]=\"\"\n" ∧
    gc_alloc_string freshHeap 10 = allocString freshHeap 10 ∧
    ∃ t, gc_alloc_string freshHeap 10 = .ok (t, freshHeap.heap + freshHeap.nextFree) ∧
      t.nextFree = freshHeap.nextFree + String_class.size + 10 + 1 ∧
      getClass t (freshHeap.heap + freshHeap.nextFree) = .ok String_class ∧
      load32 t (freshHeap.heap + freshHeap.nextFree + 24) = .ok (10 + 1) ∧
      byteAt t (freshHeap.nextFree.toNat + 8) = 0 ∧ word64 t (freshHeap.nextFree.toNat + 16) = 0 ∧
      AllocatedString freshHeap 10 freshHeap.nextFree.toNat t :=
  ⟨fresh_base, by decide, by decide!,
    gc_alloc_string_fast_path freshHeap 10 fresh_base (by decide) (by decide) (by decide)
      (by decide)⟩

theorem addr_ne_zero (x y : Int) (hx : 0 ≤ x) (hy : 0 < y) : (0 : Int) ≠ x + y := by
  omega

/-- C8, amended: whenever the collection that gc_alloc or gc_alloc_string
starts returns and the space test of the request fails before it and again
after it, the call returns NULL and the state it leaves is the state `t1`
that gc() produces from the state before the call.  Conversely a call that
returns NULL (the heap address being positive and next_free non-negative
before and after the collection) leaves that state `t1`. -/
theorem null_result_leaves_the_collected_heap (s t1 : State) (hgc : gc s = .ok t1) :
    (∀ cls c, classAt s cls = .ok c → iadd s.nextFree c.size > s.heapSize →
      iadd t1.nextFree c.size > t1.heapSize → gc_alloc s cls = .ok (t1, 0)) ∧
    (∀ n, iadd (iadd (iadd s.nextFree String_class.size) n) 1 > s.heapSize →
      iadd (iadd (iadd t1.nextFree String_class.size) n) 1 > t1.heapSize →
      gc_alloc_string s n = .ok (t1, 0)) ∧
    (0 < s.heap → 0 ≤ s.nextFree → 0 ≤ t1.nextFree →
      (∀ cls t, gc_alloc s cls = .ok (t, 0) → t = t1) ∧
      (∀ n t, gc_alloc_string s n = .ok (t, 0) → t = t1)) := by
  have hh := (gc_globals hgc).1
  refine ⟨?_, ?_, ?_⟩
  · intro cls c hcls h1 h2
    unfold gc_alloc
    rw [hcls, ok_bind, if_pos h1, hgc, ok_bind, if_pos h2]
    rfl
  · intro n h1 h2
    unfold gc_alloc_string
    rw [if_pos h1, hgc, ok_bind, if_pos h2]
    rfl
  · intro h0 hnf hnf1
    constructor
    · intro cls t h
      unfold gc_alloc at h
      obtain ⟨c, _, h⟩ := bind_ok h
      split at h
      · rw [hgc, ok_bind] at h
        split at h
        · exact (congrArg Prod.fst (ok_eq h)).symm
        · exact absurd (allocObject_globals h).2.2.2.2.2
            (addr_ne_zero _ _ hnf1 (by rw [hh]; exact h0))
      · exact absurd (allocObject_globals h).2.2.2.2.2 (addr_ne_zero _ _ hnf h0)
    · intro n t h
      unfold gc_alloc_string at h
      split at h
      · rw [hgc, ok_bind] at h
        split at h
        · exact (congrArg Prod.fst (ok_eq h)).symm
        · exact absurd (allocString_globals h).2.2.2.2.2
            (addr_ne_zero _ _ hnf1 (by rw [hh]; exact h0))
      · exact absurd (allocString_globals h).2.2.2.2.2 (addr_ne_zero _ _ hnf h0)

set_option maxRecDepth 100000 in
/-- Instance of the amended C8: gc_alloc_string(100) on sampleHeap returns
NULL and leaves the collected heap, whose next_free is 48, not 81. -/
theorem null_result_on_sampleHeap :
    gc sampleHeap = .ok collectedSample ∧
    (sampleHeap.nextFree, collectedSample.nextFree) = (81, 48) ∧
    gc_alloc_string sampleHeap 100 = .ok (collectedSample, 0) ∧
    (∀ cls c, classAt sampleHeap cls = .ok c →
      iadd sampleHeap.nextFree c.size > sampleHeap.heapSize →
      iadd collectedSample.nextFree c.size > collectedSample.heapSize →
      gc_alloc sampleHeap cls = .ok (collectedSample, 0)) ∧
    (∀ n, iadd (iadd (iadd sampleHeap.nextFree String_class.size) n) 1 > sampleHeap.heapSize →
      iadd (iadd (iadd collectedSample.nextFree String_class.size) n) 1 >
        collectedSample.heapSize →
      gc_alloc_string sampleHeap n = .ok (collectedSample, 0)) ∧
    (0 < sampleHeap.heap → 0 ≤ sampleHeap.nextFree → 0 ≤ collectedSample.nextFree →
      (∀ cls t, gc_alloc sampleHeap cls = .ok (t, 0) → t = collectedSample) ∧
      (∀ n t, gc_alloc_string sampleHeap n = .ok (t, 0) → t = collectedSample)) :=
  ⟨by decide!, by decide!,
    (null_result_leaves_the_collected_heap sampleHeap collectedSample (by decide!)).2.1 100
      (by decide!) (by decide!),
    null_result_leaves_the_collected_heap sampleHeap collectedSample (by decide!)⟩

/-- C15, amended: gc_add_root has no test against MAX_ROOTS and no error
path.  With a root table of MAX_ROOTS entries and a count below MAX_ROOTS it
stores the cell at index count, leaves every other entry, the heap and the
client variables unchanged and raises the count by one; with a count of
MAX_ROOTS or more the store `_roots[count]` lies outside the table, which is
undefined behaviour (the memory fault of the model): no state with the count
and the table intact is returned. -/
theorem add_root_stores_without_a_bound_check (s : State) (c : Nat) (h0 : 0 ≤ s._rp)
    (hl : s._roots.length = MAX_ROOTS) :
    (s._rp < MAX_ROOTS →
      ∃ t, gc_add_root s c = .ok t ∧ gc_num_roots t = gc_num_roots s + 1 ∧
        t._roots[s._rp.toNat]? = some c ∧
        (∀ i, i ≠ s._rp.toNat → t._roots[i]? = s._roots[i]?) ∧
        t._roots.length = MAX_ROOTS ∧ t.mem = s.mem ∧ t.vars = s.vars ∧
        t.nextFree = s.nextFree) ∧
    ((MAX_ROOTS : Int) ≤ s._rp → gc_add_root s c = .error .memory) := by
  have hM : (MAX_ROOTS : Int) = 100 := rfl
  constructor
  · intro hlt
    have hlt' : s._rp.toNat < s._roots.length := by rw [hl]; unfold MAX_ROOTS; omega
    refine ⟨{ s with _roots := s._roots.set s._rp.toNat c, _rp := s._rp + 1 }, ?_, rfl, ?_, ?_, ?_,
      rfl, rfl, rfl⟩
    · unfold gc_add_root
      rw [if_pos ⟨h0, hlt'⟩, iadd_eq _ _ (by omega) (by omega)]
    · show (s._roots.set _ _)[_]? = _
      rw [List.getElem?_set_self hlt']
    · intro i hi
      show (s._roots.set _ _)[i]? = _
      rw [List.getElem?_set_ne (by omega)]
    · show (s._roots.set _ _).length = _
      rw [List.length_set]
      exact hl
  · intro hge
    unfold gc_add_root
    rw [if_neg]
    intro h
    have := h.2
    rw [hl] at this
    unfold MAX_ROOTS at this
    omega

set_option maxRecDepth 100000 in
/-- Instance of the amended C15 at the counts 99 and 100 of a table of
MAX_ROOTS = 100 entries: the registration at count 99 stores the cell at index
99 and makes the count 100; the registration at count 100 is the store
outside the table. -/
theorem add_root_at_counts_99_and_100 :
    (0 ≤ ({ boot 1 with _rp := 99 } : State)._rp ∧
      ({ boot 1 with _rp := 99 } : State)._roots.length = MAX_ROOTS ∧
      ({ boot 1 with _rp := 99 } : State)._rp < MAX_ROOTS ∧
      (gc_add_root { boot 1 with _rp := 99 } 7).map
        (fun t => (t._rp, t._roots[99]?, t._roots.length)) = .ok (100, some 7, 100) ∧
      ∃ t, gc_add_root { boot 1 with _rp := 99 } 7 = .ok t ∧
        gc_num_roots t = gc_num_roots { boot 1 with _rp := 99 } + 1 ∧
        t._roots[({ boot 1 with _rp := 99 } : State)._rp.toNat]? = some 7 ∧
        (∀ i, i ≠ ({ boot 1 with _rp := 99 } : State)._rp.toNat →
          t._roots[i]? = ({ boot 1 with _rp := 99 } : State)._roots[i]?) ∧
        t._roots.length = MAX_ROOTS ∧ t.mem = ({ boot 1 with _rp := 99 } : State).mem ∧
        t.vars = ({ boot 1 with _rp := 99 } : State).vars ∧
        t.nextFree = ({ boot 1 with _rp := 99 } : State).nextFree) ∧
    (0 ≤ ({ boot 1 with _rp := 100 } : State)._rp ∧
      ({ boot 1 with _rp := 100 } : State)._roots.length = MAX_ROOTS ∧
      (MAX_ROOTS : Int) ≤ ({ boot 1 with _rp := 100 } : State)._rp ∧
      gc_add_root { boot 1 with _rp := 100 } 7 = .error .memory) :=
  ⟨⟨by decide, by decide, by decide, by decide,
    (add_root_stores_without_a_bound_check { boot 1 with _rp := 99 } 7 (by decide)
      (by decide)).1 (by decide)⟩,
   ⟨by decide, by decide, by decide,
    (add_root_stores_without_a_bound_check { boot 1 with _rp := 100 } 7 (by decide)
      (by decide)).2 (by decide)⟩⟩

/-- C16: gc_num_roots is 0 after gc_init; below MAX_ROOTS every gc_add_root
raises it by one; gc_save_rp, k registrations (count + k <= MAX_ROOTS) and
gc_restore_roots leave gc_num_roots at its value at the save and the entries
below that index unchanged; gc, gc_alloc and gc_alloc_string, whenever they
return, change neither the count nor the root table. -/
theorem root_registration_round_trip (s : State) (cells : List Nat) (h0 : 0 ≤ s._rp)
    (hk : s._rp + cells.length ≤ MAX_ROOTS) (hl : s._roots.length = MAX_ROOTS) :
    (∀ s0 size p t0, gc_init s0 size p = .ok t0 → gc_num_roots t0 = 0) ∧
    (∀ c, s._rp < MAX_ROOTS →
      ∃ t, gc_add_root s c = .ok t ∧ gc_num_roots t = gc_num_roots s + 1 ∧
        t._roots[s._rp.toNat]? = some c) ∧
    (∃ t, addRoots cells s = .ok t ∧ gc_num_roots t = gc_num_roots s + cells.length ∧
      gc_num_roots (gc_restore_roots t (gc_save_rp s)) = gc_num_roots s ∧
      ∀ i, i < s._rp.toNat → (gc_restore_roots t (gc_save_rp s))._roots[i]? = s._roots[i]?) ∧
    (∀ u, gc s = .ok u → gc_num_roots u = gc_num_roots s ∧ u._roots = s._roots) ∧
    (∀ cls u p, gc_alloc s cls = .ok (u, p) →
      gc_num_roots u = gc_num_roots s ∧ u._roots = s._roots) ∧
    (∀ n u p, gc_alloc_string s n = .ok (u, p) →
      gc_num_roots u = gc_num_roots s ∧ u._roots = s._roots) := by
  refine ⟨?_, ?_, ?_, ?_, ?_, ?_⟩
  · intro s0 size p t0 h
    unfold gc_init at h
    split at h
    · cases h
    · have e := ok_eq h
      subst e
      rfl
  · intro c hlt
    have hM : (MAX_ROOTS : Int) = 100 := rfl
    have hlt' : s._rp.toNat < s._roots.length := by rw [hl]; unfold MAX_ROOTS; omega
    refine ⟨{ s with _roots := s._roots.set s._rp.toNat c, _rp := s._rp + 1 }, ?_, rfl, ?_⟩
    · unfold gc_add_root
      rw [if_pos ⟨h0, hlt'⟩, iadd_eq _ _ (by omega) (by omega)]
    · show (s._roots.set _ _)[_]? = _
      rw [List.getElem?_set_self hlt']
  · obtain ⟨t, ht, hrp, _, hlow, _⟩ := addRoots_spec cells s h0 hk hl
    exact ⟨t, ht, hrp, rfl, hlow⟩
  · intro u h
    have g := gc_globals h
    exact ⟨g.2.2.1, g.2.2.2.1⟩
  · intro cls u p h
    have g := gc_alloc_globals h
    exact ⟨g.1, g.2.1⟩
  · intro n u p h
    have g := gc_alloc_string_globals h
    exact ⟨g.1, g.2.1⟩

set_option maxRecDepth 100000 in
/-- Instance of C16: three registrations on freshHeap. -/
theorem root_registration_on_freshHeap :
    0 ≤ freshHeap._rp ∧ freshHeap._rp + ([0, 0, 0] : List Nat).length ≤ MAX_ROOTS ∧
    freshHeap._roots.length = MAX_ROOTS ∧
    (∀ s0 size p t0, gc_init s0 size p = .ok t0 → gc_num_roots t0 = 0) ∧
    (∀ c, freshHeap._rp < MAX_ROOTS →
      ∃ t, gc_add_root freshHeap c = .ok t ∧ gc_num_roots t = gc_num_roots freshHeap + 1 ∧
        t._roots[freshHeap._rp.toNat]? = some c) ∧
    (∃ t, addRoots [0, 0, 0] freshHeap = .ok t ∧
      gc_num_roots t = gc_num_roots freshHeap + ([0, 0, 0] : List Nat).length ∧
      gc_num_roots (gc_restore_roots t (gc_save_rp freshHeap)) = gc_num_roots freshHeap ∧
      ∀ i, i < freshHeap._rp.toNat →
        (gc_restore_roots t (gc_save_rp freshHeap))._roots[i]? = freshHeap._roots[i]?) ∧
    (∀ u, gc freshHeap = .ok u →
      gc_num_roots u = gc_num_roots freshHeap ∧ u._roots = freshHeap._roots) ∧
    (∀ cls u p, gc_alloc freshHeap cls = .ok (u, p) →
      gc_num_roots u = gc_num_roots freshHeap ∧ u._roots = freshHeap._roots) ∧
    (∀ n u p, gc_alloc_string freshHeap n = .ok (u, p) →
      gc_num_roots u = gc_num_roots freshHeap ∧ u._roots = freshHeap._roots) :=
  ⟨by decide, by decide, by decide,
    root_registration_round_trip freshHeap [0, 0, 0] (by decide) (by decide) (by decide)⟩

theorem commaSeparated_cons (a : String) (l : List String) :
    commaSeparated (a :: l) = a ++ commaBefore l := by
  induction l generalizing a with
  | nil => simp [commaSeparated, commaBefore]
  | cons b l ih =>
    rw [commaSeparated, ih b, commaBefore, String.append_assoc, String.append_assoc]

theorem fmt04_nat (n : Nat) : fmt04 (n : Int) = pad4 n := by
  unfold fmt04 pad4
  rw [if_neg (by omega)]

theorem length_of_step (x : Int) (k : Nat) (h : iadd (wrap32 x) 32 = k) (hk : 32 ≤ k) :
    wrap32 x = (k : Int) - 32 := by
  unfold iadd wrap32 at h
  unfold wrap32
  omega

theorem cString_spec (s : State) : ∀ (l : List Nat) (j fuel : Nat), l = s.mem.drop j → 0 ∈ l →
    (l.takeWhile (fun b => decide (b ≠ 0))).length < fuel →
    cString s fuel (s.heap + j) =
      .ok ((l.takeWhile (fun b => decide (b ≠ 0))).map Char.ofNat) := by
  intro l
  induction l with
  | nil => intro j fuel _ h0; simp at h0
  | cons b l ih =>
    intro j fuel hl h0 hfuel
    have hj : j < s.mem.length := by
      by_contra hge
      rw [List.drop_eq_nil_of_le (by omega)] at hl
      cases hl
    have hb : byteAt s j = b := by
      unfold byteAt
      rw [List.drop_eq_getElem_cons hj] at hl
      have e := (List.cons.inj hl).1
      rw [List.getD_eq_getElem?_getD, List.getElem?_eq_getElem hj]
      exact e.symm
    have hl' : l = s.mem.drop (j + 1) := by
      rw [List.drop_eq_getElem_cons hj] at hl
      exact (List.cons.inj hl).2
    cases fuel with
    | zero => omega
    | succ fuel =>
      unfold cString
      rw [load8_at s _ j rfl hj, ok_bind, hb]
      by_cases hz : b = 0
      · rw [if_pos hz]
        subst hz
        rfl
      · rw [if_neg hz]
        have h0' : 0 ∈ l := by
          rcases List.mem_cons.mp h0 with h | h
          · exact absurd h.symm hz
          · exact h
        have htw : (b :: l).takeWhile (fun b => decide (b ≠ 0)) =
            b :: l.takeWhile (fun b => decide (b ≠ 0)) := by
          rw [List.takeWhile_cons_of_pos (by simpa using hz)]
        rw [htw] at hfuel ⊢
        simp only [List.length_cons] at hfuel
        have e : s.heap + (j : Int) + 1 = s.heap + ((j + 1 : Nat) : Int) := by omega
        rw [e, ih (j + 1) fuel hl' h0' (by omega), ok_bind]
        rfl

theorem fieldText_eq (s : State) (buf : String) (f : Int) :
    (if f = 0 then buf ++ "NULL" else buf ++ toString (f - s.heap)) = buf ++ fieldText s f := by
  unfold fieldText
  by_cases h : f = 0
  · rw [if_pos h, if_pos h]
  · rw [if_neg h, if_neg h]

theorem doFields_spec (s : State) (o : Obj) (hobj : ObjAt s o)
    (hin : o.off + o.step ≤ s.mem.length) :
    ∀ (k idx : Nat) (buf : String), idx + k = o.cd.field_offsets.length →
      doFields s (s.heap + o.off) k (idx : Int) buf = .ok (buf ++
        (if idx = 0 then commaSeparated (o.cd.field_offsets.map fun f => fieldText s (fieldVal s o f))
         else commaBefore ((o.cd.field_offsets.drop idx).map fun f => fieldText s (fieldVal s o f)))) := by
  have hcok := hobj.2.1
  have hcls := hobj.1
  intro k
  induction k with
  | zero =>
    intro idx buf hk
    have hdrop : o.cd.field_offsets.drop idx = [] := List.drop_eq_nil_of_le (by omega)
    have hres : (if idx = 0 then
          commaSeparated (o.cd.field_offsets.map fun f => fieldText s (fieldVal s o f))
        else commaBefore ((o.cd.field_offsets.drop idx).map fun f => fieldText s (fieldVal s o f))) = "" := by
      by_cases h0 : idx = 0
      · rw [if_pos h0]
        subst h0
        rw [List.drop_zero] at hdrop
        rw [hdrop]
        rfl
      · rw [if_neg h0, hdrop]
        rfl
    rw [hres]
    unfold doFields
    rw [hcls, ok_bind, if_neg (by rw [hcok.2.2.2.1]; omega), String.append_empty]
  | succ k ih =>
    intro idx buf hk
    have hidx : idx < o.cd.field_offsets.length := by omega
    obtain ⟨fo, hget, hfm⟩ : ∃ fo, o.cd.field_offsets[idx]? = some fo ∧ fo ∈ o.cd.field_offsets :=
      ⟨_, List.getElem?_eq_getElem hidx, List.getElem_mem hidx⟩
    have hfb := hobj.field_bounds hfm
    have hnext : idx + 1 < 2147483648 := by
      have h1 := hcok.2.2.2.1
      have h2 := hcok.2.2.2.2.1
      omega
    have hdrop : o.cd.field_offsets.drop idx = fo :: o.cd.field_offsets.drop (idx + 1) := by
      rw [List.drop_eq_getElem_cons hidx]
      have := (List.getElem?_eq_some_iff.mp hget).2
      rw [this]
    unfold doFields
    rw [hcls, ok_bind, if_pos (by rw [hcok.2.2.2.1]; omega), fieldOffset_get _ _ _ hget, ok_bind,
      load64_at s _ (o.off + fo.toNat) (field_addr _ _ _ hfb.1) (by omega), ok_bind]
    simp only []
    rw [fieldText_eq, iadd_succ idx hnext, ih (idx + 1) _ (by omega), if_neg (Nat.succ_ne_zero idx)]
    have hv : ((word64 s (o.off + fo.toNat) : Nat) : Int) = fieldVal s o fo := rfl
    rw [hv]
    by_cases h0 : idx = 0
    · subst h0
      have hne : ¬ ((((0 : Nat) : Int)) ≠ 0) := by simp
      rw [if_neg hne, if_pos rfl]
      have hfl : o.cd.field_offsets = fo :: o.cd.field_offsets.drop (0 + 1) :=
        (List.drop_zero _).symm.trans hdrop
      have hmap := congrArg (List.map fun f => fieldText s (fieldVal s o f)) hfl
      rw [hmap, List.map_cons, commaSeparated_cons, String.append_assoc]
    · have hne : (((idx : Nat) : Int)) ≠ 0 := by omega
      rw [if_pos hne, if_neg h0, hdrop, List.map_cons, commaBefore]
      simp only [String.append_assoc]

theorem load32_of_stepOf {s : State} {o : Obj} (hobj : ObjAt s o) (hs : o.cd.name = some "String")
    (hin : o.off + o.step ≤ s.mem.length) :
    load32 s (s.heap + o.off + 24) = .ok ((o.step : Int) - 32) := by
  obtain ⟨_, _, ⟨n, hn, hstep, h32⟩, _⟩ := hobj
  have hn' : n = "String" := by rw [hn] at hs; exact (Option.some.inj hs)
  subst hn'
  have h32' := h32 rfl
  unfold stepOf at hstep
  rw [if_pos rfl, load32_at s _ (o.off + 24) (by omega) (by omega), ok_bind] at hstep
  have e := ok_eq hstep
  rw [load32_at s _ (o.off + 24) (by omega) (by omega)]
  have := length_of_step _ _ e h32'
  rw [this]

theorem getStateLoop_spec (s : State) (hb : Base s) : ∀ (rest : List Obj) (i fuel : Nat)
    (buf : String), Chain s i s.nextFree.toNat rest → rest.length ≤ fuel →
    (∀ o ∈ rest, o.cd.name = some "String" → 0 ∈ s.mem.drop (o.off + 28)) →
    getStateLoop fuel s (i : Int) buf = .ok (buf ++ objectLines s rest) := by
  obtain ⟨hheap, hptr, hlen, hsz, hnf0, hnf1⟩ := hb
  intro rest
  induction rest with
  | nil =>
    intro i fuel buf hc _ _
    simp only [Chain] at hc
    have hnf : ¬ ((i : Int) < s.nextFree) := by omega
    cases fuel with
    | zero => unfold getStateLoop; rw [if_neg hnf]; simp [objectLines]
    | succ fuel => unfold getStateLoop; rw [if_neg hnf]; simp [objectLines]
  | cons o rest ih =>
    intro i fuel buf hc hfuel hterm
    have hbo := hc.bounds.2 o (List.mem_cons_self _ _)
    obtain ⟨hoi, hobj, hrest⟩ := hc
    have hobj' := hobj
    obtain ⟨hcls, hcok, ⟨n, hn, hstep, h32⟩, h24⟩ := hobj
    cases fuel with
    | zero => simp at hfuel
    | succ fuel =>
      simp only [List.length_cons] at hfuel
      subst hoi
      have hlt : (o.off : Int) < s.nextFree := by omega
      have hne : s.heap + (o.off : Int) ≠ 0 := by omega
      have hsum : o.off + o.step < 2147483648 := by omega
      have hin : o.off + o.step ≤ s.mem.length := by omega
      have hoff : s.heap + (o.off : Int) - s.heap = ((o.off : Nat) : Int) := by omega
      have hrec := ih (o.off + o.step) fuel (buf ++ objectLine s o) hrest (by omega)
        (fun o' ho' => hterm o' (List.mem_cons_of_mem _ ho'))
      rw [String.append_assoc] at hrec
      by_cases hs : n = "String"
      · subst hs
        have hld := load32_of_stepOf hobj' hn hin
        have h32' := h32 rfl
        have hcs := cString_spec s (s.mem.drop (o.off + 28)) (o.off + 28)
          (s.mem.length + s.ext.length + 1) rfl (hterm o (List.mem_cons_self _ _) hn) (by
            have h1 := (@List.takeWhile_prefix _ (s.mem.drop (o.off + 28))
              (fun b => decide (b ≠ 0))).length_le
            have h2 : (s.mem.drop (o.off + 28)).length ≤ s.mem.length := by
              rw [List.length_drop]; omega
            omega)
        have e28 : s.heap + (o.off : Int) + 28 = s.heap + ((o.off + 28 : Nat) : Int) := by omega
        have hstepv : iadd ((o.step : Int) - 32) String_class.size = (o.step : Int) :=
          iadd_eq _ _ (by show _ ≤ (o.step : Int) - 32 + 32; omega)
            (by show (o.step : Int) - 32 + 32 < _; omega) |>.trans (by show _ - 32 + 32 = _; omega)
        have hline : objectLine s o = "  " ++ pad4 o.off ++ ":" ++ "String" ++ "[" ++
            toString String_class.size ++ "+" ++ toString ((o.step : Int) - 32) ++ "]=\"" ++
            String.mk (((s.mem.drop (o.off + 28)).takeWhile (fun b => decide (b ≠ 0))).map Char.ofNat) ++
            "\"\n" := by
          unfold objectLine payloadText
          rw [if_pos hn]
        unfold getStateLoop
        rw [if_pos hlt]
        simp only
        rw [if_neg hne, hcls, ok_bind]
        simp only [hn]
        rw [if_pos True.intro, hld, ok_bind, e28, hcs, ok_bind, hoff, fmt04_nat, hstepv,
          iadd_nat _ _ hsum]
        have hlines : objectLines s (o :: rest) = objectLine s o ++ objectLines s rest := rfl
        rw [hlines, hline]
        rw [hline] at hrec
        simp only [String.append_assoc] at hrec ⊢
        exact hrec
      · have hsz' : o.cd.size = o.step := hobj'.size_eq (by rw [hn]; intro h; exact hs (Option.some.inj h))
        have hdf := doFields_spec s o hobj' hin o.cd.field_offsets.length 0
          (buf ++ "  " ++ fmt04 (o.off : Int) ++ ":" ++ n ++ "[" ++ toString o.cd.size ++ "]->[")
          (by omega)
        rw [if_pos rfl] at hdf
        have hline : objectLine s o = "  " ++ pad4 o.off ++ ":" ++ n ++ "[" ++
            toString (o.step : Int) ++
            "]->[" ++ commaSeparated (o.cd.field_offsets.map fun f => fieldText s (fieldVal s o f)) ++
            "]\n" := by
          unfold objectLine
          rw [if_neg (by rw [hn]; intro h; exact hs (Option.some.inj h)), hn, hsz']
          rfl
        have hnum : o.cd.num_fields.toNat = o.cd.field_offsets.length := by
          rw [hcok.2.2.2.1]; simp
        unfold getStateLoop
        rw [if_pos hlt]
        simp only
        rw [if_neg hne, hcls, ok_bind]
        simp only [hn]
        rw [if_neg hs, ok_bind, hoff, hnum]
        simp only [Nat.cast_zero] at hdf
        rw [hdf, ok_bind, hsz', iadd_nat _ _ hsum, fmt04_nat]
        have hlines : objectLines s (o :: rest) = objectLine s o ++ objectLines s rest := rfl
        rw [hlines, hline]
        rw [hline] at hrec
        simp only [String.append_assoc] at hrec ⊢
        exact hrec

/-- C14: on a heap whose objects lie end to end in [0, next_free), whose
Strings hold a zero byte at or after their payload start, and whose dump fits
the buffer of 1024 bytes, gc_get_state returns exactly the text
"next_free=<next_free>\nobjects:\n" followed by one line per object in
address order: offset zero-padded to four digits, class name, size, and the
fields as decimal heap offsets or NULL separated by commas, or for a String
"[32+<length>]=" and the payload up to the first zero byte in quotes.  For an
empty heap the text is "next_free=0\nobjects:\n". -/
theorem gc_get_state_prints_the_heap (s : State) (objs : List Obj) (hb : Base s)
    (hc : Chain s 0 s.nextFree.toNat objs)
    (hterm : ∀ o ∈ objs, o.cd.name = some "String" → 0 ∈ s.mem.drop (o.off + 28))
    (hfit : (heapDump s objs).length < 1024) :
    gc_get_state s = .ok (heapDump s objs) ∧
    (s.nextFree = 0 → heapDump s [] = "next_free=0\nobjects:\n") := by
  constructor
  · have h := getStateLoop_spec s hb objs 0 s.nextFree.toNat
      ("next_free=" ++ toString s.nextFree ++ "\nobjects:\n") hc
      (by have := hc.length_le; omega) hterm
    simp only [Nat.cast_zero] at h
    unfold gc_get_state
    rw [h, ok_bind]
    unfold heapDump at hfit ⊢
    rw [if_pos hfit]
    rfl
  · intro h0
    unfold heapDump
    rw [h0]
    rfl

set_option maxRecDepth 100000 in
/-- Instance of C14 on sampleHeap. -/
theorem gc_get_state_on_sampleHeap :
    Base sampleHeap ∧ Chain sampleHeap 0 sampleHeap.nextFree.toNat sampleObjs ∧
    (∀ o ∈ sampleObjs, o.cd.name = some "String" → 0 ∈ sampleHeap.mem.drop (o.off + 28)) ∧
    (heapDump sampleHeap sampleObjs).length < 1024 ∧
    heapDump sampleHeap sampleObjs =
      "next_free=81\nobjects:\n  0000:String[32+1]=\"\"\n  0033:User[48]->[NULL]\n" ∧
    gc_get_state sampleHeap = .ok (heapDump sampleHeap sampleObjs) ∧
    (sampleHeap.nextFree = 0 → heapDump sampleHeap [] = "next_free=0\nobjects:\n") :=
  ⟨sample_base, sample_chain, by decide!, by decide!, by decide!,
    gc_get_state_prints_the_heap sampleHeap sampleObjs sample_base sample_chain (by decide!)
      (by decide!)⟩

set_option maxRecDepth 100000 in
/-- The dumps that test.c expects after test_alloc_str_gc_compact_does_nothing,
test_mgr_cycle and test_automatic_gc. -/
theorem dumps_of_the_tests :
    dump test_alloc_str_gc_compact_does_nothing = .ok
      "next_free=43\nobjects:\n  0000:String[32+11]=\"hi mom\"\n" ∧
    dump test_mgr_cycle = .ok
      ("next_free=175\nobjects:\n  0000:Employee[48]->[48,84]\n  0048:String[32+4]=\"Tom\"\n" ++
       "  0084:Employee[48]->[132,0]\n  0132:String[32+11]=\"Terence\"\n") ∧
    dump test_automatic_gc = .ok
      "next_free=87\nobjects:\n  0000:User[48]->[48]\n  0048:String[32+7]=\"steely\"\n" := by
  decide!

set_option maxRecDepth 100000 in
/-- C1 (code defect): the state movedTwice is reached from gc_init by gc_alloc,
gc_alloc_string, root and field writes and gc, and its last step is a gc; a
further gc with nothing in between changes the dump from two Employees and
next_free=91 to one Employee and next_free=48. -/
theorem gc_again_changes_dump :
    dump movedTwice = .ok
      "next_free=91\nobjects:\n  0000:Employee[48]->[NULL,NULL]\n  0048:Employee[48]->[96,NULL]\n" ∧
    dump (movedTwice >>= gc) = .ok
      "next_free=48\nobjects:\n  0000:Employee[48]->[NULL,NULL]\n" := by
  decide!

set_option maxRecDepth 100000 in
/-- C2 (code defect): after the gc of movedOnce, which moves the rooted
Employee from offset 48 to offset 0, the root variable holds heap + 0, and the
object there has marked = 1 and forwarded = heap + 0 instead of 0 and NULL. -/
theorem moved_object_keeps_mark_and_forwarded :
    (movedOnce >>= fun s => do
      let v ← readVar s 0
      let m ← load8 s (v + 8)
      let f ← load64 s (v + 16)
      pure (s.nextFree, v - s.heap, m, f - s.heap)) = .ok (48, 0, 1, 0) := by
  decide!

set_option maxRecDepth 100000 in
/-- C3 (code defect): after the gc that ends movedTwice the only root variable
holds heap + 48 and the name field of that Employee holds heap + 96, yet
next_free is 91: the walk of [0, next_free) finds the Employee at offset 0,
which no root reaches, and the reachable String at offset 96 lies outside
[0, next_free). -/
theorem unreachable_kept_and_reachable_dropped :
    (movedTwice >>= fun s => do
      let v ← readVar s 0
      let n ← load64 s (v + 32)
      let d ← gc_get_state s
      pure (s._rp, v - s.heap, n - s.heap, s.nextFree, d)) = .ok
      (1, 48, 96, 91,
        "next_free=91\nobjects:\n  0000:Employee[48]->[NULL,NULL]\n  0048:Employee[48]->[96,NULL]\n") := by
  decide!

set_option maxRecDepth 100000 in
/-- C5 (code defect): in slideString the rooted String holds twenty bytes 65
and a terminator; the gc slides it down by 33 bytes, fewer than its footprint
53, and at the destination the length is still 21 but payload byte 13 is 0:
the header of the source is cleared after the copy, inside the destination. -/
theorem sliding_string_loses_payload_byte :
    (slideString >>= fun r => loadBytes r.1 (r.2 + 28) 21) = .ok (List.replicate 20 65 ++ [0]) ∧
    (slideString >>= fun r => do
      let s ← gc r.1
      let v ← readVar s 0
      let l ← load32 s (v + 24)
      let bs ← loadBytes s (v + 28) 21
      pure (r.2 - s.heap, v - s.heap, l, bs)) = .ok
      (33, 0, 21, List.replicate 13 65 ++ [0] ++ List.replicate 6 65 ++ [0]) := by
  decide!

set_option maxRecDepth 100000 in
/-- C6 (counterexample): with the root table [&v0, &v1, &v1], v0 holding the
User at offset 48 and v1 the Employee at offset 96, gc leaves v1 = heap + 0,
the new address of the User, where the Employee has moved to heap + 48. -/
theorem repeated_root_cell_misdirected :
    repeatedRoot.map (fun s => (s._rp, s._roots.take 3, s.vars)) = .ok (3, [0, 1, 1], [4144, 4192]) ∧
    (repeatedRoot >>= gc).map (fun s => (s.nextFree, s.vars)) = .ok (96, [4096, 4096]) ∧
    dump (repeatedRoot >>= gc) = .ok
      "next_free=96\nobjects:\n  0000:User[48]->[NULL]\n  0048:Employee[48]->[NULL,NULL]\n" := by
  decide!

set_option maxRecDepth 100000 in
/-- C7 (code defect): in selfManager the rooted Employee at offset 33 has
mgr = itself; after gc the Employee is at offset 0 and its mgr field is NULL
instead of heap + 0. -/
theorem self_reference_becomes_null :
    dump selfManager = .ok
      "next_free=81\nobjects:\n  0000:String[32+1]=\"\"\n  0033:Employee[48]->[NULL,33]\n" ∧
    (selfManager >>= gc >>= fun s => do
      let v ← readVar s 0
      let f ← load64 s (v + 40)
      pure (v - s.heap, f)) = .ok (0, 0) ∧
    dump (selfManager >>= gc) = .ok
      "next_free=48\nobjects:\n  0000:Employee[48]->[NULL,NULL]\n" := by
  decide!

set_option maxRecDepth 100000 in
/-- C8 (counterexample): in fullOfGarbage next_free is 86; gc_alloc_string(100)
returns NULL and leaves next_free = 0. -/
theorem failed_alloc_has_collected :
    fullOfGarbage.map (fun s => s.nextFree) = .ok 86 ∧
    (fullOfGarbage >>= fun s => gc_alloc_string s 100).map (fun r => (r.2, r.1.nextFree)) =
      .ok (0, 0) := by
  decide!

set_option maxRecDepth 100000 in
/-- C12 (code defect): in reusedString the second gc_alloc_string(10) succeeds
at offset 0 after a collection, and its payload still holds the bytes of
"hi mom" written to the String that was there before. -/
theorem reused_string_payload_not_zero :
    (reusedString >>= fun r => do
      let bs ← loadBytes r.1 (r.2 + 28) 11
      let d ← gc_get_state r.1
      pure (r.2 - r.1.heap, bs, d)) = .ok
      (0, [104, 105, 32, 109, 111, 109, 0, 0, 0, 0, 0],
        "next_free=43\nobjects:\n  0000:String[32+11]=\"hi mom\"\n") := by
  decide!

set_option maxRecDepth 100000 in
/-- C20 (code defect): in staticField the mgr field of the rooted Employee
holds the address 3000 of a static descriptor; gc reads the bytes at 3008 and
3016 and leaves 6000, the word stored at 3016, in the field.  When the bytes
at that address are not mapped the collection faults. -/
theorem static_reference_is_read_and_replaced :
    (staticField >>= fun s => load64 s (s.heap + 40)) = .ok 3000 ∧
    (staticField >>= gc >>= fun t => load64 t (t.heap + 40)) = .ok 6000 ∧
    (staticField >>= fun s => gc { s with ext := [] }) = .error .memory := by
  decide!

set_option maxRecDepth 100000 in
/-- C21 (code defect): on an empty heap of 64 bytes, gc_alloc_string(-40)
returns the non-null address heap + 0 and leaves next_free = -7,
gc_alloc_string(-2) returns heap + 0 with footprint 31 < 32, and
gc_alloc_string(INT_MAX) returns heap + 0 with next_free = -2147483616. -/
theorem negative_and_wrapped_sizes_accepted :
    (gc_init (boot 1) 64 4096 >>= fun s => gc_alloc_string s (-40)).map
      (fun r => (r.2, r.1.nextFree)) = .ok (4096, -7) ∧
    (gc_init (boot 1) 64 4096 >>= fun s => gc_alloc_string s (-2)).map
      (fun r => (r.2, r.1.nextFree)) = .ok (4096, 31) ∧
    (gc_init (boot 1) 64 4096 >>= fun s => gc_alloc_string s 2147483647).map
      (fun r => (r.2, r.1.nextFree)) = .ok (4096, -2147483616) := by
  decide!

set_option maxRecDepth 100000 in
/-- C22 (code defect): in pastTheEnd the heap is [4096, 4160); mark and
changePointers applied to the reference heap + heapSize = 4160 both write 1
to the byte at 4168, outside the buffer. -/
theorem reference_at_heap_end_is_marked :
    (pastTheEnd >>= fun s => do
      let t ← mark 5 s (s.heap + s.heapSize)
      pure (s.heap + s.heapSize, s.ext.lookup 4168, t.ext.lookup 4168)) = .ok (4160, some 0, some 1) ∧
    (pastTheEnd >>= fun s => do
      let t ← changePointers 5 s (s.heap + s.heapSize)
      pure (s.ext.lookup 4168, t.ext.lookup 4168)) = .ok (some 0, some 1) := by
  decide!

set_option maxRecDepth 100000 in
/-- C4 (counterexample): dupRootHeap, reached from gc_init by registering the
variable 0 twice, is well formed with clear marks and null forwarding slots:
a dead String at offset 0 and the User at offset 33 held by variable 0.  The
second visit of the root cell follows the already forwarded value heap + 0,
marks the dead String there, and moveObjects copies it to its forwarding
address NULL: gc faults instead of packing the User. -/
theorem duplicate_root_breaks_packing :
    WF dupRootHeap sampleObjs ∧ Clean dupRootHeap sampleObjs ∧ Small dupRootHeap ∧
    rootCells dupRootHeap = [0, 0] ∧ dupRootHeap.vars = [4129] ∧
    gc dupRootHeap = .error .memory :=
  ⟨dupRoot_wf, dupRoot_clean, dupRoot_small, by decide!, by decide!, by decide!⟩

set_option maxRecDepth 100000 in
/-- C15 (counterexample): after 100 registrations the count is MAX_ROOTS = 100
and the table of gc.c has 100 entries; one more gc_add_root is the store
`_roots[100]` outside the table, the memory fault of the model: no state is
returned in which the count is still 100 and an error is reported. -/
theorem full_table_store_is_out_of_bounds :
    (addRoots (List.replicate 100 0) (boot 1)).map (fun s => (gc_num_roots s, s._roots.length)) =
      .ok (100, 100) ∧
    (addRoots (List.replicate 100 0) (boot 1) >>= fun s => gc_add_root s 7) = .error .memory ∧
    ¬ ∃ t, (addRoots (List.replicate 100 0) (boot 1) >>= fun s => gc_add_root s 7) = .ok t := by
  refine ⟨by decide!, by decide!, ?_⟩
  intro ⟨t, ht⟩
  have h : (addRoots (List.replicate 100 0) (boot 1) >>= fun s => gc_add_root s 7) =
      .error .memory := by decide!
  rw [h] at ht
  cases ht

end GC
